import Mathlib

/-!
Verification development for the submission organizer
(`organize_submissions.py`).

The Python program is shallowly embedded:

* strings are Lean `String`s (lists of characters); `str.lower` is modelled
  by ASCII lowercasing, which agrees with Python on every input whose
  lowercase form is ASCII;
* the file system is a finite table of file paths (lists of name
  components) with contents drawn from `Nat`, plus a list of directories;
  listing order, which the OS leaves unspecified, is modelled as sorted
  (the program itself sorts the input listing);
* floating point similarity scores are modelled as exact rationals
  (difflib's ratio is `2*M/(|a|+|b|)` for a natural number `M`);
* external effects (the LibreOffice converter, the zip/rar codecs, and
  I/O failure of `shutil.copy2`) are supplied by an environment record;
* a raised exception is modelled as `Except.error`.
-/

set_option maxRecDepth 16000

namespace Org

/-! ## Text utilities (`normalize_text`, `tokens_from_name_field`, ...) -/

/-- Python whitespace characters (`str.split`, `str.strip`). -/
def isPySpace (c : Char) : Bool :=
  c = ' ' || c = '\t' || c = '\n' || c = '\x0d' || c = '\x0b' || c = '\x0c'

/-- `str.strip()`. -/
def pyStrip (s : String) : String :=
  ⟨((s.data.dropWhile isPySpace).reverse.dropWhile isPySpace).reverse⟩

/-- `str.lower()` (ASCII). -/
def strLower (s : String) : String := ⟨s.data.map Char.toLower⟩

/-- `str.endswith(suffix)`. -/
def strEndsWith (s suffix : String) : Bool :=
  List.isSuffixOf suffix.data s.data

/-- `str.startswith(".")`: the first character is a dot. -/
def strStartsWithDot (s : String) : Bool :=
  match s.data with
  | [] => false
  | c :: _ => c == '.'

/-- Lexicographic code-point order on character lists (Python string
`<`). -/
def charListLt : List Char → List Char → Bool
  | [], [] => false
  | [], _ :: _ => true
  | _ :: _, [] => false
  | a :: as, b :: bs =>
    if a.toNat < b.toNat then true
    else if b.toNat < a.toNat then false
    else charListLt as bs

/-- Character class of `re.sub(r"[^a-z0-9]", " ", s)` after lowercasing. -/
def isLowerAlnum (c : Char) : Bool :=
  ('a' ≤ c && c ≤ 'z') || ('0' ≤ c && c ≤ '9')

/-- `str.split()` on a character list: maximal runs of non-space characters. -/
def splitWsAux : List Char → List Char → List String
  | [], acc => if acc.isEmpty then [] else [⟨acc.reverse⟩]
  | c :: cs, acc =>
    if isPySpace c then
      if acc.isEmpty then splitWsAux cs [] else ⟨acc.reverse⟩ :: splitWsAux cs []
    else splitWsAux cs (c :: acc)

def splitWs (cs : List Char) : List String := splitWsAux cs []

/-- `normalize_text`: lowercase, replace every character outside `[a-z0-9]`
by a space, collapse whitespace runs, strip.  The collapse-and-strip of the
two `re.sub` calls is expressed by splitting into words and rejoining with
single spaces. -/
def normalize_text (s : String) : String :=
  String.intercalate " "
    (splitWs ((s.data.map Char.toLower).map fun c => if isLowerAlnum c then c else ' '))

/-- `tokens_from_name_field`. -/
def tokens_from_name_field (field : String) : List String :=
  (splitWs (normalize_text field).data).filter (· ≠ "")

/-- `sanitize_folder_part`. -/
def sanitize_folder_part (s : String) : String :=
  let t : List Char :=
    (pyStrip s).data.map fun c =>
      if ('A' ≤ c && c ≤ 'Z') || ('a' ≤ c && c ≤ 'z') || ('0' ≤ c && c ≤ '9')
          || c = '_' || c = '-' then c else '_'
  if t.isEmpty then "unknown" else ⟨t⟩

/-- Index of the last `'.'` in a character list, if any. -/
def lastDotIdx (cs : List Char) : Option Nat :=
  (List.range cs.length).foldl
    (fun acc i => if cs.getD i ' ' = '.' then some i else acc) none

/-- `os.path.splitext` on a bare file name (no separators): split at the last
dot, unless every character before that dot is itself a dot (Python ignores
leading dots of the basename). -/
def splitext (s : String) : String × String :=
  match lastDotIdx s.data with
  | none => (s, "")
  | some i =>
    if (s.data.take i).all (· = '.') then (s, "")
    else (⟨s.data.take i⟩, ⟨s.data.drop i⟩)

/-- Decimal digit characters of `n`, most significant first; the fuel
(`n` itself suffices) bounds the recursion. -/
def natDigitsAux : Nat → Nat → List Char
  | _, 0 => []
  | n, fuel + 1 =>
    if n = 0 then [] else natDigitsAux (n / 10) fuel ++ [Nat.digitChar (n % 10)]

/-- Decimal numeral of a natural number, as produced by `str(i)` /
an f-string. -/
def natStr (n : Nat) : String :=
  if n = 0 then "0" else ⟨natDigitsAux n n⟩

/-- The collision candidate `f"{base}_{i}{ext}"`. -/
def suffixName (base ext : String) (i : Nat) : String :=
  base ++ "_" ++ natStr i ++ ext

/-! ## difflib (`SequenceMatcher(None, a, b).ratio()`)

`difflib` is standard library code; it is embedded following its
documented algorithm: total size of the recursively chosen longest
matching blocks, doubled and divided by the total length.  The autojunk
heuristic (sequences of length ≥ 200 drop their popular elements from the
match table) is included; the junk parameter is `None`, so the junk set is
empty. -/

/-- Autojunk: in a sequence `b` with `|b| ≥ 200`, an element occurring more
than `|b|/100 + 1` times is "popular" and excluded from the match table. -/
def isPopular (b : List Char) (c : Char) : Bool :=
  b.length ≥ 200 && b.count c > b.length / 100 + 1

/-- A usable match cell of the dynamic programming table: position `j` of
`b` lies in the window, holds the same character as position `i` of `a`,
and is not popular. -/
def cellOk (a b : List Char) (blo bhi i j : Nat) : Bool :=
  blo ≤ j && j < bhi && i < a.length && j < b.length
    && a.getD i ' ' == b.getD j ' ' && !(isPopular b (b.getD j ' '))

/-- Length of the diagonal chain of usable cells ending at `(i, j)`
within the window (`j2len` of difflib). -/
def chainLen (a b : List Char) (alo blo bhi : Nat) : Nat → Nat → Nat
  | 0, j => if cellOk a b blo bhi 0 j then 1 else 0
  | i + 1, j =>
    if cellOk a b blo bhi (i + 1) j then
      (if alo ≤ i && blo + 1 ≤ j then chainLen a b alo blo bhi i (j - 1) else 0) + 1
    else 0

/-- The scan of `find_longest_match`: iterate `i` ascending then `j`
ascending, keeping the first block of each strictly larger size.  Returns
`(besti, bestj, bestsize)`. -/
def scanBest (a b : List Char) (alo ahi blo bhi : Nat) : Nat × Nat × Nat :=
  (List.range' alo (ahi - alo)).foldl
    (fun best i =>
      (List.range' blo (bhi - blo)).foldl
        (fun best j =>
          let k := chainLen a b alo blo bhi i j
          if k > best.2.2 then (i + 1 - k, j + 1 - k, k) else best)
        best)
    (alo, blo, 0)

/-- Extension of the best block to the left over equal characters (the junk
set is empty, so the non-junk guard is vacuous). -/
def extendL (a b : List Char) (alo blo : Nat) : Nat → Nat × Nat × Nat → Nat × Nat × Nat
  | 0, st => st
  | fuel + 1, (bi, bj, bs) =>
    if alo < bi && blo < bj && bi - 1 < a.length && bj - 1 < b.length
        && a.getD (bi - 1) ' ' == b.getD (bj - 1) ' ' then
      extendL a b alo blo fuel (bi - 1, bj - 1, bs + 1)
    else (bi, bj, bs)

/-- Extension of the best block to the right over equal characters. -/
def extendR (a b : List Char) (ahi bhi : Nat) : Nat → Nat × Nat × Nat → Nat × Nat × Nat
  | 0, st => st
  | fuel + 1, (bi, bj, bs) =>
    if bi + bs < ahi && bj + bs < bhi && bi + bs < a.length && bj + bs < b.length
        && a.getD (bi + bs) ' ' == b.getD (bj + bs) ' ' then
      extendR a b ahi bhi fuel (bi, bj, bs + 1)
    else (bi, bj, bs)

/-- `find_longest_match` on the window `a[alo:ahi]`, `b[blo:bhi]`. -/
def findLongest (a b : List Char) (alo ahi blo bhi : Nat) : Nat × Nat × Nat :=
  let st := scanBest a b alo ahi blo bhi
  let st := extendL a b alo blo st.1 st
  extendR a b ahi bhi (ahi - (st.1 + st.2.2)) st

/-- Total size of all matching blocks (the recursion of
`get_matching_blocks`); the fuel bounds the recursion depth, each level
shrinking the window strictly. -/
def mtAux (a b : List Char) : Nat → Nat → Nat → Nat → Nat → Nat
  | 0, _, _, _, _ => 0
  | fuel + 1, alo, ahi, blo, bhi =>
    let r := findLongest a b alo ahi blo bhi
    if r.2.2 = 0 then 0
    else
      mtAux a b fuel alo r.1 blo r.2.1 + r.2.2
        + mtAux a b fuel (r.1 + r.2.2) ahi (r.2.1 + r.2.2) bhi

def matchesTotal (a b : List Char) : Nat :=
  mtAux a b (a.length + b.length + 1) 0 a.length 0 b.length

/-- `fuzzy_ratio`: `SequenceMatcher(None, a, b).ratio()`, as an exact
rational `2*M/(|a|+|b|)` (difflib returns `1.0` when both are empty). -/
def fuzzy_ratio (a b : String) : ℚ :=
  if a.data.length + b.data.length = 0 then 1
  else (2 * matchesTotal a.data b.data : ℚ) / (a.data.length + b.data.length)

/-! ## Roster rows and the matcher -/

/-- One CSV roster row.  A field that is absent from the row behaves in the
program exactly like the empty string (`row.get(f)` is falsy, and
`row.get(f) or ""` is `""`), so absence is modelled by `""`.
`csv_index` is the `_csv_index` fallback stored by `load_csv_rows`. -/
structure Row where
  index : String := ""
  surname : String := ""
  first_name : String := ""
  middle_name : String := ""
  csv_index : String := ""
deriving DecidableEq, Repr

/-- The match-method tag: `"token"`, or `f"fuzzy({ratio:.2f})"` — the
fuzzy constructor carries the exact ratio; the two-decimal rounding is
display formatting only. -/
inductive Method where
  | token : Method
  | fuzzy : ℚ → Method
deriving DecidableEq, Repr

/-- The name fields of a row, in field order, keeping the truthy
(non-empty) ones — the `if row.get(field)` loop of `count_token_matches`. -/
def presentNameFields (row : Row) : List String :=
  [row.surname, row.first_name, row.middle_name].filter (· ≠ "")

/-- First-seen-order deduplication (`dict.fromkeys`). -/
def dedupF (l : List String) : List String :=
  l.foldl (fun acc t => if t ∈ acc then acc else acc ++ [t]) []

/-- `count_token_matches`. -/
def count_token_matches (filename_tokens : List String) (row : Row) : Nat :=
  let tokens := dedupF ((presentNameFields row).flatMap tokens_from_name_field)
  tokens.countP fun t => t ≠ "" && t ∈ filename_tokens

/-- The two fuzzy variants of a row: the normalized join of the present
(stripped, truthy) name fields, and its token reversal; empty variants are
skipped (`if not variant: continue`). -/
def variantsOf (row : Row) : List String :=
  let parts := [pyStrip row.surname, pyStrip row.first_name, pyStrip row.middle_name].filter (· ≠ "")
  let full := normalize_text (String.intercalate " " parts)
  let rev := if full = "" then "" else String.intercalate " " (splitWs full.data).reverse
  [full, rev].filter (· ≠ "")

/-- The filename's token set (`norm_fname.split()`). -/
def fnameTokens (filename : String) : List String :=
  splitWs (normalize_text filename).data

/-- The token-match phase loop: running best row and best count, updated on
strict improvement (so ties keep the first-seen row). -/
def tokenFold (fname_tokens : List String) (rows : List Row) : Option Row × Nat :=
  rows.foldl
    (fun best row =>
      let cnt := count_token_matches fname_tokens row
      if cnt > best.2 then (some row, cnt) else best)
    (none, 0)

/-- The fuzzy-fallback loop: running best row and best ratio over every
row and variant, updated on strict improvement. -/
def fuzzyFold (ratioFn : String → String → ℚ) (norm_fname : String)
    (rows : List Row) : Option Row × ℚ :=
  rows.foldl
    (fun best row =>
      (variantsOf row).foldl
        (fun best v =>
          let r := ratioFn norm_fname v
          if r > best.2 then (some row, r) else best)
        best)
    (none, 0)

/-- `find_best_row_for_filename`, generalized over the similarity function
(the source fixes it to `fuzzy_ratio`); the token phase is proved not to
depend on it. -/
def find_best_row_core (ratioFn : String → String → ℚ) (filename : String)
    (rows : List Row) (min_token_matches : Nat) (fuzzy_threshold : ℚ) :
    Option Row × Option Method :=
  let norm_fname := normalize_text filename
  let tk := tokenFold (splitWs norm_fname.data) rows
  if tk.2 ≥ min_token_matches then (tk.1, some Method.token)
  else
    let fz := fuzzyFold ratioFn norm_fname rows
    if fz.2 ≥ fuzzy_threshold then (fz.1, some (Method.fuzzy fz.2))
    else (none, none)

def find_best_row_for_filename (filename : String) (rows : List Row)
    (min_token_matches : Nat) (fuzzy_threshold : ℚ) :
    Option Row × Option Method :=
  find_best_row_core fuzzy_ratio filename rows min_token_matches fuzzy_threshold

/-! Specification views of the two matcher loops: both are
strict-improvement argmax folds, so they keep the first element attaining
each new strictly larger key. -/

/-- One update of a strict-improvement argmax loop. -/
def stepMax {α γ β : Type} [LinearOrder β] (g : α → γ) (f : α → β)
    (b : Option γ × β) (a : α) : Option γ × β :=
  if f a > b.2 then (some (g a), f a) else b

/-- Running maximum of `f` over a list, seeded with `z`. -/
def foldMax {α β : Type} [LinearOrder β] (f : α → β) (z : β) (l : List α) : β :=
  l.foldl (fun m a => max m (f a)) z

/-- All (row, variant) pairs scanned by the fuzzy phase, in scan order. -/
def rowVariantPairs (rows : List Row) : List (Row × String) :=
  rows.flatMap fun row => (variantsOf row).map fun v => (row, v)

/-- The highest token-match count over the whole roster. -/
def maxTokenCount (filename : String) (rows : List Row) : Nat :=
  foldMax (count_token_matches (fnameTokens filename)) 0 rows

/-- The highest similarity ratio over all records and variants. -/
def bestFuzzyRatio (norm_fname : String) (rows : List Row) : ℚ :=
  foldMax (fun rv => fuzzy_ratio norm_fname rv.2) 0 (rowVariantPairs rows)

/-! ## File system model

Paths are lists of name components rooted at the working directory.
Contents are abstract (`Nat`).  Directory listings, whose order the OS
leaves unspecified, are modelled as sorted where the program sorts
(`sorted(os.listdir(...))`) and as file-table order for `os.walk`. -/

abbrev Path := List String
abbrev Content := Nat

structure FS where
  files : List (Path × Content)
  dirs : List Path
deriving DecidableEq, Repr

def FS.isFile (fs : FS) (p : Path) : Bool := (fs.files.lookup p).isSome

def FS.isDir (fs : FS) (p : Path) : Bool := fs.dirs.contains p

/-- `os.path.exists`. -/
def FS.ex (fs : FS) (p : Path) : Bool := fs.isFile p || fs.isDir p

def FS.content (fs : FS) (p : Path) : Content := (fs.files.lookup p).getD 0

/-- Write a file (create or overwrite). -/
def FS.setFile (fs : FS) (p : Path) (c : Content) : FS :=
  if (fs.files.lookup p).isSome then
    { fs with files := fs.files.map fun e => if e.1 == p then (p, c) else e }
  else { fs with files := fs.files ++ [(p, c)] }

def FS.delFile (fs : FS) (p : Path) : FS :=
  { fs with files := fs.files.filter fun e => !(e.1 == p) }

def FS.addDir (fs : FS) (p : Path) : FS :=
  if fs.dirs.contains p then fs else { fs with dirs := fs.dirs ++ [p] }

/-- The nonempty prefixes of a path, shortest first. -/
def prefixesOf (p : Path) : List Path := (List.range p.length).map fun i => p.take (i + 1)

/-- `os.makedirs(p, exist_ok=True)`. -/
def FS.ensureDirs (fs : FS) (p : Path) : FS := (prefixesOf p).foldl FS.addDir fs

def FS.allPaths (fs : FS) : List Path := fs.files.map Prod.fst ++ fs.dirs

/-- Stable insertion of `a` into a sorted list, for the boolean order
`le`. -/
def insertSorted {α : Type} (le : α → α → Bool) (a : α) : List α → List α
  | [] => [a]
  | b :: t => if le a b then a :: b :: t else b :: insertSorted le a t

/-- Stable insertion sort (a structurally recursive model of sorting). -/
def sortBy {α : Type} (le : α → α → Bool) : List α → List α
  | [] => []
  | a :: t => insertSorted le a (sortBy le t)

/-- `sorted(...)` on names (Python sorts strings by code point). -/
def sortNames (l : List String) : List String :=
  sortBy (fun a b => !charListLt b.data a.data) l

/-- `sorted(os.listdir(d))`: the direct child names of `d`. -/
def FS.childNames (fs : FS) (d : Path) : List String :=
  sortNames (dedupF (fs.allPaths.filterMap fun p =>
    if d.isPrefixOf p then p[d.length]? else none))

/-- `p` lies strictly below directory `d`. -/
def strictUnder (d p : Path) : Bool := d.isPrefixOf p && d.length < p.length

/-- All file paths strictly below `d` — the files seen by `os.walk(d)`
(every depth, the walk's own root included).  The OS walk order is
unspecified; it is modelled as file-table order. -/
def FS.subtreeFiles (fs : FS) (d : Path) : List Path :=
  (fs.files.map Prod.fst).filter (strictUnder d)

def FS.subtreeDirs (fs : FS) (d : Path) : List Path := fs.dirs.filter (strictUnder d)

def fsSize (fs : FS) : Nat := fs.files.length + fs.dirs.length

/-- The collision probe `while os.path.exists(candidate): i += 1`, searching
upward from suffix `i`; the fuel (always called with more fuel than there
are occupied paths) bounds the loop. -/
def probeSuffix (fs : FS) (dir : Path) (base ext : String) : Nat → Nat → Nat
  | 0, i => i
  | fuel + 1, i =>
    if fs.ex (dir ++ [suffixName base ext i]) then probeSuffix fs dir base ext fuel (i + 1)
    else i

/-! ## Environment: the external collaborators

Archive codecs, the LibreOffice converter and I/O failure of
`shutil.copy2` are external to the matching/placement core; their
outcomes are supplied by an environment. -/

structure Env where
  /-- `shutil.which("libreoffice")` succeeds. -/
  libreoffice : Bool
  /-- the `rarfile` module imported successfully. -/
  rarAvailable : Bool
  /-- archive table: the entries (relative paths and contents) extracted
  from a given archive content, or `none` when the codec raises. -/
  archive : Content → Option (List (Path × Content))
  /-- the conversion subprocess succeeds for this document. -/
  convertOk : Path → Bool
  /-- content of the produced PDF as a function of the document content. -/
  pdfContent : Content → Content
  /-- `shutil.copy2 src dst` raises (an OSError escaping `safe_copy`). -/
  copyFails : Path → Path → Bool

/-- `safe_copy(src, dst)` with `dst = dstDir/dstName`: probe
`dst, base_1.ext, base_2.ext, ...` for the first free name, then copy.
Returns the path written, or an error when the copy raises. -/
def safe_copy (env : Env) (fs : FS) (src : Path) (dstDir : Path) (dstName : String) :
    Except Unit (FS × Path) :=
  let se := splitext dstName
  let dst := dstDir ++ [dstName]
  let w :=
    if fs.ex dst then
      dstDir ++ [suffixName se.1 se.2 (probeSuffix fs dstDir se.1 se.2 (fsSize fs + 1) 1)]
    else dst
  if env.copyFails src w then Except.error () else Except.ok (fs.setFile w (fs.content src), w)

/-- One move of the flattening pass: move the file at `p` up to
`extract_to`, probing `name_1.ext, name_2.ext, ...` when the plain name is
taken; files already directly inside (`src == dst`) are left alone. -/
def flatten_move (fs : FS) (extract_to : Path) (p : Path) : FS :=
  let f := p.getLastD ""
  let dst := extract_to ++ [f]
  if p == dst then fs
  else
    let dst :=
      if fs.ex dst then
        let se := splitext f
        extract_to ++ [suffixName se.1 se.2 (probeSuffix fs extract_to se.1 se.2 (fsSize fs + 1) 1)]
      else dst
    (fs.delFile p).setFile dst (fs.content p)

/-- `os.rmdir`, failures ignored: removes `d` only if it is an empty
directory. -/
def FS.rmdirTry (fs : FS) (d : Path) : FS :=
  if fs.dirs.contains d && (fs.allPaths.filter (strictUnder d)).isEmpty then
    { fs with dirs := fs.dirs.filter fun q => !(q == d) }
  else fs

/-- The bottom-up `os.walk(..., topdown=False)` removal of now-empty
subdirectories (deepest first). -/
def removeEmptyDirs (fs : FS) (extract_to : Path) : FS :=
  (sortBy (fun a b => decide (b.length ≤ a.length)) (fs.subtreeDirs extract_to)).foldl
    FS.rmdirTry fs

/-- The flattening pass of `extract_and_flatten_archive`: move every file
of the subtree up, then remove empty subdirectories. -/
def flattenPass (fs : FS) (extract_to : Path) : FS :=
  removeEmptyDirs ((fs.subtreeFiles extract_to).foldl (flatten_move · extract_to ·) fs)
    extract_to

/-- `zf.extractall` / `rf.extractall`: write each entry under
`extract_to`, creating intermediate directories; later entries overwrite
earlier ones of the same name, and pre-existing files are overwritten. -/
def extractall (fs : FS) (extract_to : Path) (entries : List (Path × Content)) : FS :=
  entries.foldl
    (fun fs e => (fs.ensureDirs (extract_to ++ e.1).dropLast).setFile (extract_to ++ e.1) e.2)
    fs

def isArchiveName (name : String) : Bool :=
  strEndsWith (strLower name) ".zip" || strEndsWith (strLower name) ".rar"

/-- `extract_and_flatten_archive`.  A `.zip` runs the flattening pass even
when extraction fails; a `.rar` returns early — before the flattening
pass — when the codec is unavailable or extraction fails. -/
def extract_and_flatten_archive (env : Env) (fs : FS) (archive_path extract_to : Path) : FS :=
  let fs := fs.ensureDirs extract_to
  let name := strLower (archive_path.getLastD "")
  if strEndsWith name ".zip" then
    match fs.files.lookup archive_path with
    | some c =>
      match env.archive c with
      | some entries => flattenPass (extractall fs extract_to entries) extract_to
      | none => flattenPass fs extract_to
    | none => flattenPass fs extract_to
  else if strEndsWith name ".rar" then
    if !env.rarAvailable then fs
    else
      match fs.files.lookup archive_path with
      | some c =>
        match env.archive c with
        | some entries => flattenPass (extractall fs extract_to entries) extract_to
        | none => fs
      | none => fs
  else flattenPass fs extract_to

/-! ## Conversion and the placement engine -/

def isDocxName (name : String) : Bool := strEndsWith (strLower name) ".docx"

/-- `os.path.splitext(p)[0] + ".pdf"`: the expected sibling PDF. -/
def pdfSibling (p : Path) : Path :=
  p.dropLast ++ [(splitext (p.getLastD "")).1 ++ ".pdf"]

/-- `libreoffice_convert_docx_to_pdf`: checks availability, runs the
subprocess (recorded in the returned invocation list), and on success the
PDF appears in `outDir`. -/
def libreoffice_convert (env : Env) (fs : FS) (docx outDir : Path) :
    FS × Option Path × List Path :=
  if !env.libreoffice then (fs, none, [])
  else if env.convertOk docx then
    let pdf := outDir ++ [(splitext (docx.getLastD "")).1 ++ ".pdf"]
    let fs' := fs.setFile pdf (env.pdfContent (fs.content docx))
    (fs', if fs'.ex pdf then some pdf else none, [docx])
  else (fs, none, [docx])

structure Stats where
  files_seen : Nat := 0
  matched : Nat := 0
  unmatched : Nat := 0
  converted : Nat := 0
  convert_failed : Nat := 0
  skipped_existing_file : Nat := 0
deriving DecidableEq, Repr

/-- Engine state: the file system, the run statistics, and the (ghost)
list of converter invocations. -/
structure OrgSt where
  fs : FS
  stats : Stats
  calls : List Path
deriving DecidableEq, Repr

/-- One file of the conversion pass: a `.docx` whose expected sibling PDF
does not exist at this moment is handed to the converter. -/
def convStep (env : Env) (s : OrgSt) (p : Path) : OrgSt :=
  if isDocxName (p.getLastD "") then
    if s.fs.ex (pdfSibling p) then s
    else
      let r := libreoffice_convert env s.fs p p.dropLast
      let st :=
        match r.2.1 with
        | some _ => { s.stats with converted := s.stats.converted + 1 }
        | none => { s.stats with convert_failed := s.stats.convert_failed + 1 }
      { fs := r.1, stats := st, calls := s.calls ++ r.2.2 }
  else s

/-- The conversion pass over a target folder (`os.walk` scan). -/
def convPass (env : Env) (s : OrgSt) (target : Path) : OrgSt :=
  (s.fs.subtreeFiles target).foldl (convStep env) s

def INPUT_DIR : Path := ["submissions"]

def OUTPUT_DIR : Path := ["organized_submissions"]

/-- `f"{index}_{sanitize_folder_part(surname)}_{sanitize_folder_part(first_name)}"`
with `index = row.get("index") or row.get("_csv_index") or ""`. -/
def folderNameOf (row : Row) : String :=
  let index := if row.index ≠ "" then row.index
    else if row.csv_index ≠ "" then row.csv_index else ""
  index ++ "_" ++ sanitize_folder_part row.surname ++ "_"
    ++ sanitize_folder_part row.first_name

/-- The target folder of a matched row: `OUTPUT_DIR/<folder name>`. -/
def targetOf (row : Row) : Path := OUTPUT_DIR ++ [folderNameOf row]

/-- Statistics after counting one more directory entry seen. -/
def seen1 (st : Stats) : Stats := { st with files_seen := st.files_seen + 1 }

/-- The body of the per-file loop of `organize_and_convert`. -/
def orgStep (env : Env) (rows : List Row) (acc : Except Unit OrgSt) (fname : String) :
    Except Unit OrgSt :=
  match acc with
  | .error e => .error e
  | .ok s =>
    if strStartsWithDot fname then .ok s
    else
      let s : OrgSt := { s with stats := { s.stats with files_seen := s.stats.files_seen + 1 } }
      let input_path := INPUT_DIR ++ [fname]
      if !s.fs.isFile input_path then .ok s
      else
        match find_best_row_for_filename fname rows 2 (3 / 5) with
        | (none, _) =>
          .ok { s with stats := { s.stats with unmatched := s.stats.unmatched + 1 } }
        | (some row, _) =>
          let target := targetOf row
          let s : OrgSt := { s with fs := s.fs.ensureDirs target }
          let dest := target ++ [fname]
          let placed : Except Unit OrgSt :=
            if s.fs.ex dest then
              .ok { s with stats :=
                { s.stats with skipped_existing_file := s.stats.skipped_existing_file + 1 } }
            else if isArchiveName fname then
              .ok { s with fs := extract_and_flatten_archive env s.fs input_path target }
            else
              match safe_copy env s.fs input_path target fname with
              | .error e => .error e
              | .ok r => .ok { s with fs := r.1 }
          match placed with
          | .error e => .error e
          | .ok s =>
            let s := convPass env s target
            .ok { s with stats := { s.stats with matched := s.stats.matched + 1 } }

/-- `organize_and_convert`: create the output root, list the input
directory sorted, and fold the per-file body over it.  An uncaught
exception (a failing copy) aborts the whole fold as `Except.error`. -/
def organize_and_convert (env : Env) (rows : List Row) (fs0 : FS) : Except Unit OrgSt :=
  let fs := fs0.ensureDirs OUTPUT_DIR
  let names := fs.childNames INPUT_DIR
  names.foldl (orgStep env rows) (.ok { fs := fs, stats := {}, calls := [] })

instance {ε α : Type} [DecidableEq ε] [DecidableEq α] : DecidableEq (Except ε α) :=
  fun a b =>
    match a, b with
    | .ok x, .ok y =>
      if h : x = y then isTrue (by rw [h]) else isFalse fun hc => h (Except.ok.inj hc)
    | .error x, .error y =>
      if h : x = y then isTrue (by rw [h]) else isFalse fun hc => h (Except.error.inj hc)
    | .ok _, .error _ => isFalse Except.noConfusion
    | .error _, .ok _ => isFalse Except.noConfusion

/-- Whether a fallible computation completed without an escaping
exception. -/
def exceptOk {ε α : Type} : Except ε α → Bool
  | .ok _ => true
  | .error _ => false

/-- Frame relation: every path not under the output root keeps its file
content and its directory status. -/
def FrameO (a b : FS) : Prop :=
  ∀ q, OUTPUT_DIR.isPrefixOf q = false →
    b.files.lookup q = a.files.lookup q ∧ b.dirs.contains q = a.dirs.contains q

/-! ## Concrete instances used by witnesses and counterexamples -/

/-- A quiescent environment: no converter, no rar codec, no archive
entries, no copy failures. -/
def envW : Env :=
  { libreoffice := false, rarAvailable := false, archive := fun _ => none,
    convertOk := fun _ => false, pdfContent := fun c => c, copyFails := fun _ _ => false }

/-- A one-file file system: `d/a.txt`. -/
def fsW : FS := { files := [(["d", "a.txt"], 1)], dirs := [["d"]] }

/-- A file system with a nested file `t/sub/x.txt` left from earlier
activity. -/
def fsN : FS := { files := [(["t", "sub", "x.txt"], 1)], dirs := [["t"], ["t", "sub"]] }

/-- One roster row whose tokens `a`, `b` match the input file names used
below. -/
def rowsIn : List Row := [{ index := "1", surname := "a", first_name := "b" }]

/-- An input directory holding the single plain file `a_b.txt`. -/
def fsIn : FS :=
  { files := [(["submissions", "a_b.txt"], 3)], dirs := [["submissions"]] }

/-- An input directory holding the single archive `a_b.zip` whose entry
list nests `d/x.txt` (see `envArch`). -/
def fsArch : FS :=
  { files := [(["submissions", "a_b.zip"], 100)], dirs := [["submissions"]] }

/-- Environment where content `100` is an archive holding the nested
entry `d/x.txt`. -/
def envArch : Env :=
  { libreoffice := false, rarAvailable := false,
    archive := fun c => if c = 100 then some [(["d", "x.txt"], 7)] else none,
    convertOk := fun _ => false, pdfContent := fun c => c, copyFails := fun _ _ => false }

/-- Environment where every `shutil.copy2` raises. -/
def envCopyFail : Env :=
  { libreoffice := false, rarAvailable := false, archive := fun _ => none,
    convertOk := fun _ => false, pdfContent := fun c => c, copyFails := fun _ _ => true }

/-- A mixed input directory: a hidden file, a subdirectory, and a file
whose tokens match `rowsIn` but which already exists at its destination
(so its placement is skipped). -/
def fsMix : FS :=
  { files := [(["submissions", ".hidden"], 1), (["submissions", "a_b.txt"], 3),
              (["submissions", "sub", "y.txt"], 4),
              (["organized_submissions", "1_a_b", "a_b.txt"], 9)],
    dirs := [["submissions"], ["submissions", "sub"],
             ["organized_submissions"], ["organized_submissions", "1_a_b"]] }

/-- Conversion of `p` is settled in `fs` for environment `env`: either
the sibling PDF is already present, or the converter can never succeed
on `p` (no LibreOffice, or the subprocess always fails on it). -/
def Settled (env : Env) (fs : FS) (p : Path) : Prop :=
  fs.ex (pdfSibling p) = true ∨ env.libreoffice = false ∨ env.convertOk p = false

/-- `fs'` extends `fs` by appending file entries and directories, all of
them under the output root (the shape every archive-free run has). -/
def ExtendsO (fs fs' : FS) : Prop :=
  ∃ F D, fs'.files = fs.files ++ F ∧ fs'.dirs = fs.dirs ++ D
    ∧ (∀ e ∈ F, OUTPUT_DIR.isPrefixOf e.1 = true)
    ∧ (∀ d ∈ D, OUTPUT_DIR.isPrefixOf d = true)

/-- Every `.docx` in the subtree of `T` is conversion-settled. -/
def TDone (env : Env) (fs : FS) (T : Path) : Prop :=
  ∀ p ∈ fs.subtreeFiles T,
    isDocxName (p.getLastD "") = true → Settled env fs p

/-- What a finished run guarantees for one directory entry `n`: if it is
a non-hidden regular input file that the matcher resolves to a row, then
its destination name exists in the row's target folder, the target
folder's directory chain exists, and every `.docx` in the target folder
is conversion-settled. -/
def EntryDone (env : Env) (rows : List Row) (fs : FS) (n : String) : Prop :=
  strStartsWithDot n = false →
  fs.isFile (INPUT_DIR ++ [n]) = true →
  ∀ row how, find_best_row_for_filename n rows 2 (3 / 5) = (some row, how) →
    fs.ex (targetOf row ++ [n]) = true
    ∧ (∀ d ∈ prefixesOf (targetOf row), fs.isDir d = true)
    ∧ TDone env fs (targetOf row)

/-- File-table frame relative to a directory `T`: every path not under
`T` keeps its file content (the write/delete footprint of one placement
step lies inside its target folder). -/
def FrameU (T : Path) (a b : FS) : Prop :=
  ∀ q, T.isPrefixOf q = false → b.files.lookup q = a.files.lookup q

/-- Environment with a working LibreOffice whose conversions succeed. -/
def envConv : Env :=
  { libreoffice := true, rarAvailable := false, archive := fun _ => none,
    convertOk := fun _ => true, pdfContent := fun c => c, copyFails := fun _ _ => false }

/-- Input with one matched `.docx` whose destination folder already holds
the converted PDF. -/
def fsPdf : FS :=
  { files := [(["submissions", "a_b.docx"], 3),
              (["organized_submissions", "1_a_b", "a_b.pdf"], 9)],
    dirs := [["submissions"], ["organized_submissions"],
             ["organized_submissions", "1_a_b"]] }

/-! # Theorems -/

/-! ## Argmax-fold lemmas -/

theorem stepMax_snd {α γ β : Type} [LinearOrder β] (g : α → γ) (f : α → β)
    (b : Option γ × β) (a : α) : (stepMax g f b a).2 = max b.2 (f a) := by
  unfold stepMax
  split
  · next h => exact (max_eq_right h.le).symm
  · next h => exact (max_eq_left (not_lt.mp h)).symm

theorem foldl_stepMax_snd {α γ β : Type} [LinearOrder β] (g : α → γ) (f : α → β)
    (l : List α) (acc : Option γ × β) :
    (l.foldl (stepMax g f) acc).2 = foldMax f acc.2 l := by
  induction l generalizing acc with
  | nil => rfl
  | cons a t ih =>
    rw [List.foldl_cons, ih]
    show foldMax f (stepMax g f acc a).2 t = foldMax f acc.2 (a :: t)
    rw [stepMax_snd]
    rfl

theorem le_foldMax {α β : Type} [LinearOrder β] (f : α → β) (z : β) (l : List α) :
    z ≤ foldMax f z l := by
  induction l generalizing z with
  | nil => exact le_refl z
  | cons a t ih =>
    rw [foldMax, List.foldl_cons, ← foldMax]
    exact le_trans (le_max_left _ _) (ih (max z (f a)))

theorem le_foldMax_of_mem {α β : Type} [LinearOrder β] (f : α → β) :
    ∀ (l : List α) (a : α), a ∈ l → ∀ z : β, f a ≤ foldMax f z l := by
  intro l
  induction l with
  | nil => intro a h z; cases h
  | cons b t ih =>
    intro a h z
    rw [foldMax, List.foldl_cons, ← foldMax]
    rcases List.mem_cons.mp h with rfl | hmem
    · exact le_trans (le_max_right _ _) (le_foldMax f _ t)
    · exact ih a hmem _

theorem foldMax_attained {α β : Type} [LinearOrder β] (f : α → β) (z : β) (l : List α) :
    foldMax f z l = z ∨ ∃ a ∈ l, f a = foldMax f z l := by
  induction l generalizing z with
  | nil => exact Or.inl rfl
  | cons a t ih =>
    rw [foldMax, List.foldl_cons, ← foldMax]
    rcases ih (max z (f a)) with h | ⟨b, hb, hfb⟩
    · rcases max_choice z (f a) with hm | hm
      · exact Or.inl (h.trans hm)
      · exact Or.inr ⟨a, List.mem_cons_self a t, by rw [h, hm]⟩
    · exact Or.inr ⟨b, List.mem_cons_of_mem a hb, hfb⟩

theorem find?_cons_pos2 {α : Type} (p : α → Bool) (a : α) (l : List α)
    (h : p a = true) : (a :: l).find? p = some a :=
  List.find?_cons_of_pos l h

theorem find?_cons_neg2 {α : Type} (p : α → Bool) (a : α) (l : List α)
    (h : ¬ p a = true) : (a :: l).find? p = l.find? p :=
  List.find?_cons_of_neg l h

theorem foldl_stepMax_of_le {α γ β : Type} [LinearOrder β] (g : α → γ) (f : α → β)
    {l : List α} (acc : Option γ × β) (h : ∀ a ∈ l, f a ≤ acc.2) :
    l.foldl (stepMax g f) acc = acc := by
  induction l with
  | nil => rfl
  | cons a t ih =>
    rw [List.foldl_cons, stepMax, if_neg (not_lt.mpr (h a (List.mem_cons_self a t)))]
    exact ih fun b hb => h b (List.mem_cons_of_mem a hb)

theorem foldl_stepMax_fst {α γ β : Type} [LinearOrder β] [DecidableEq β]
    (g : α → γ) (f : α → β) (l : List α) (acc : Option γ × β)
    (h : acc.2 < foldMax f acc.2 l) :
    (l.foldl (stepMax g f) acc).1
      = (l.find? fun a => decide (f a = foldMax f acc.2 l)).map g := by
  induction l generalizing acc with
  | nil => exact absurd h (lt_irrefl _)
  | cons a t ih =>
    have hM : foldMax f acc.2 (a :: t) = foldMax f (max acc.2 (f a)) t := by
      rw [foldMax, List.foldl_cons, ← foldMax]
    by_cases hfa : acc.2 < f a
    · have hmax : max acc.2 (f a) = f a := max_eq_right hfa.le
      by_cases heq : f a = foldMax f acc.2 (a :: t)
      · have hle : ∀ b ∈ t, f b ≤ f a := by
          intro b hb
          rw [heq, hM]
          exact le_foldMax_of_mem f t b hb _
        rw [List.foldl_cons, stepMax, if_pos hfa,
          foldl_stepMax_of_le g f ((some (g a), f a)) hle,
          List.find?_cons_of_pos _ (by simp [heq])]
        rfl
      · have hlt : f a < foldMax f acc.2 (a :: t) := by
          refine lt_of_le_of_ne ?_ heq
          rw [hM]
          exact le_trans (le_max_right _ _) (le_foldMax f _ t)
        rw [hM, hmax] at hlt
        rw [List.foldl_cons, stepMax, if_pos hfa,
          List.find?_cons_of_neg _ (by simp [heq]), hM, hmax]
        exact ih ((some (g a), f a)) hlt
    · have hmax : max acc.2 (f a) = acc.2 := max_eq_left (not_lt.mp hfa)
      have hMt : foldMax f acc.2 (a :: t) = foldMax f acc.2 t := by rw [hM, hmax]
      have hfa' : f a ≠ foldMax f acc.2 (a :: t) := by
        intro he
        rw [← he] at h
        exact hfa h
      rw [List.foldl_cons, stepMax, if_neg hfa,
        List.find?_cons_of_neg _ (by simp [hfa']), hMt]
      exact ih acc (hMt ▸ h)

theorem foldl_stepMax_fst_some {α γ β : Type} [LinearOrder β]
    (g : α → γ) (f : α → β) {l : List α} {acc : Option γ × β} {x : γ}
    (h : (l.foldl (stepMax g f) acc).1 = some x) :
    acc.1 = some x ∨ ∃ a ∈ l, g a = x ∧ acc.2 < f a := by
  induction l generalizing acc with
  | nil => exact Or.inl h
  | cons a t ih =>
    rw [List.foldl_cons] at h
    rcases ih h with hacc | ⟨b, hb, hgb, hlt⟩
    · unfold stepMax at hacc
      split at hacc
      · next hfa =>
        exact Or.inr ⟨a, List.mem_cons_self a t, by simpa using hacc, hfa⟩
      · exact Or.inl hacc
    · refine Or.inr ⟨b, List.mem_cons_of_mem a hb, hgb, lt_of_le_of_lt ?_ hlt⟩
      rw [stepMax_snd]
      exact le_max_left _ _

/-! ## The two matcher loops as argmax folds -/

theorem tokenFold_eq (ftoks : List String) (rows : List Row) :
    tokenFold ftoks rows
      = rows.foldl (stepMax id (count_token_matches ftoks)) (none, 0) := rfl

theorem fuzzyFold_eq (ratioFn : String → String → ℚ) (n : String) (rows : List Row) :
    fuzzyFold ratioFn n rows
      = (rowVariantPairs rows).foldl
          (stepMax Prod.fst fun rv => ratioFn n rv.2) (none, 0) := by
  suffices h : ∀ acc : Option Row × ℚ,
      rows.foldl
        (fun best row =>
          (variantsOf row).foldl
            (fun best v =>
              let r := ratioFn n v
              if r > best.2 then (some row, r) else best)
            best)
        acc
      = (rowVariantPairs rows).foldl (stepMax Prod.fst fun rv => ratioFn n rv.2) acc from
    h (none, 0)
  induction rows with
  | nil => intro acc; rfl
  | cons row t ih =>
    intro acc
    have hp : rowVariantPairs (row :: t)
        = ((variantsOf row).map fun v => (row, v)) ++ rowVariantPairs t := by
      simp only [rowVariantPairs, List.flatMap_cons]
    rw [List.foldl_cons, ih, hp, List.foldl_append, List.foldl_map]
    rfl

theorem find?_rowVariantPairs (rows : List Row) (Q : String → Bool) :
    ((rowVariantPairs rows).find? fun rv => Q rv.2).map Prod.fst
      = rows.find? fun row => (variantsOf row).any Q := by
  induction rows with
  | nil => rfl
  | cons row t ih =>
    have hp : rowVariantPairs (row :: t)
        = ((variantsOf row).map fun v => (row, v)) ++ rowVariantPairs t := by
      simp only [rowVariantPairs, List.flatMap_cons]
    have hleft : (((variantsOf row).map fun v => (row, v)).find? fun rv => Q rv.2)
        = ((variantsOf row).find? Q).map fun v => (row, v) := by
      rw [List.find?_map]
      rfl
    rw [hp, List.find?_append, hleft]
    rcases hfind : (variantsOf row).find? Q with _ | v
    · have hany : ¬((variantsOf row).any Q = true) := by
        rw [List.find?_eq_none] at hfind
        simp only [List.any_eq_true]
        push_neg
        intro v hv
        simpa using hfind v hv
      rw [find?_cons_neg2 (fun row => (variantsOf row).any Q) _ t hany]
      simpa using ih
    · have hany : (variantsOf row).any Q = true := by
        rw [List.any_eq_true]
        exact ⟨v, List.mem_of_find?_eq_some hfind, List.find?_some hfind⟩
      rw [find?_cons_pos2 (fun row => (variantsOf row).any Q) _ t hany]
      rfl

/-! ## Small matcher facts -/

theorem mem_foldl_dedup :
    ∀ (l acc : List String) (x : String),
      x ∈ l.foldl (fun acc t => if t ∈ acc then acc else acc ++ [t]) acc →
        x ∈ acc ∨ x ∈ l := by
  intro l
  induction l with
  | nil => intro acc x h; exact Or.inl h
  | cons a t ih =>
    intro acc x h
    rw [List.foldl_cons] at h
    rcases ih _ x h with hacc | ht
    · by_cases ha : a ∈ acc
      · rw [if_pos ha] at hacc
        exact Or.inl hacc
      · rw [if_neg ha] at hacc
        rcases List.mem_append.mp hacc with h1 | h2
        · exact Or.inl h1
        · rw [List.mem_singleton] at h2
          subst h2
          exact Or.inr (List.mem_cons_self x t)
    · exact Or.inr (List.mem_cons_of_mem a ht)

theorem mem_dedupF {l : List String} {x : String} (h : x ∈ dedupF l) : x ∈ l := by
  rcases mem_foldl_dedup l [] x h with h0 | h1
  · cases h0
  · exact h1

theorem mem_tokens_ne_empty {field t : String} (h : t ∈ tokens_from_name_field field) :
    t ≠ "" := by
  rw [tokens_from_name_field, List.mem_filter] at h
  simpa using h.2

theorem mem_variantsOf_ne {row : Row} {v : String} (hv : v ∈ variantsOf row) : v ≠ "" := by
  simp only [variantsOf] at hv
  rw [List.mem_filter] at hv
  simpa using hv.2

theorem count_token_matches_eq_filter (ftoks : List String) (row : Row) :
    count_token_matches ftoks row
      = ((dedupF ((presentNameFields row).flatMap tokens_from_name_field)).filter
          fun t => decide (t ∈ ftoks)).length := by
  rw [← List.countP_eq_length_filter]
  simp only [count_token_matches]
  apply List.countP_congr
  intro t ht
  have h1 : t ≠ "" := by
    rcases List.mem_flatMap.mp (mem_dedupF ht) with ⟨field, _, hmem⟩
    exact mem_tokens_ne_empty hmem
  simp [h1]

theorem count_token_matches_empty_row (ftoks : List String) (r : Row)
    (hs : r.surname = "") (hf : r.first_name = "") (hm : r.middle_name = "") :
    count_token_matches ftoks r = 0 := by
  simp only [count_token_matches, presentNameFields, hs, hf, hm]
  rfl

theorem variantsOf_empty_row (r : Row)
    (hs : r.surname = "") (hf : r.first_name = "") (hm : r.middle_name = "") :
    variantsOf r = [] := by
  simp only [variantsOf, hs, hf, hm]
  rfl

theorem matchesTotal_nil_left (b : List Char) : matchesTotal [] b = 0 := rfl

theorem fuzzy_ratio_empty_left (v : String) (hv : v ≠ "") : fuzzy_ratio "" v = 0 := by
  have hd : v.data ≠ [] := by
    intro h0
    apply hv
    cases v
    simp_all
  have hlen : ¬("".data.length + v.data.length = 0) := by
    intro h0
    exact hd (List.length_eq_zero.mp (by simpa using h0))
  rw [fuzzy_ratio, if_neg hlen, matchesTotal_nil_left]
  simp

/-! ## Claim C4: the token phase -/

/-- C4: for every filename and roster, the token phase of
`find_best_row_for_filename` counts, per record, how many of that record's
deduplicated name tokens (surname, first name, middle name, first-seen
order) appear verbatim in the filename's token set; whenever the highest
such count over the roster reaches `min_token_matches` (a positive
threshold), the earliest record attaining that count is returned with
method tag `token`, for *every* similarity function — the phase never
consults similarity scores. -/
theorem C4_token_phase (filename : String) (rows : List Row) (minTok : Nat) (thr : ℚ)
    (hmin : 0 < minTok) (hbest : minTok ≤ maxTokenCount filename rows) :
    (∀ ratioFn, find_best_row_core ratioFn filename rows minTok thr
        = (rows.find? fun row =>
             decide (count_token_matches (fnameTokens filename) row
               = maxTokenCount filename rows),
           some Method.token))
    ∧ find_best_row_for_filename filename rows minTok thr
        = (rows.find? fun row =>
             decide (count_token_matches (fnameTokens filename) row
               = maxTokenCount filename rows),
           some Method.token)
    ∧ ∀ row, count_token_matches (fnameTokens filename) row
        = ((dedupF ((presentNameFields row).flatMap tokens_from_name_field)).filter
            fun t => decide (t ∈ fnameTokens filename)).length := by
  have htk2 : (tokenFold (fnameTokens filename) rows).2 = maxTokenCount filename rows := by
    rw [tokenFold_eq, foldl_stepMax_snd]
    rfl
  have htk1 : (tokenFold (fnameTokens filename) rows).1
      = rows.find? fun row =>
          decide (count_token_matches (fnameTokens filename) row
            = maxTokenCount filename rows) := by
    rw [tokenFold_eq, foldl_stepMax_fst]
    · simp [maxTokenCount, foldMax]
    · show (0 : Nat) < foldMax (count_token_matches (fnameTokens filename)) 0 rows
      exact lt_of_lt_of_le hmin hbest
  have hmain : ∀ ratioFn, find_best_row_core ratioFn filename rows minTok thr
      = (rows.find? fun row =>
           decide (count_token_matches (fnameTokens filename) row
             = maxTokenCount filename rows),
         some Method.token) := by
    intro ratioFn
    show (if (tokenFold (fnameTokens filename) rows).2 ≥ minTok then
        ((tokenFold (fnameTokens filename) rows).1, some Method.token)
      else _) = _
    rw [if_pos (htk2 ▸ hbest), htk1]
  exact ⟨hmain, hmain fuzzy_ratio, fun row => count_token_matches_eq_filter _ row⟩

/-- C4 witness: roster `[{surname "ab", first "cd"}]` against filename
`"ab_cd.docx"` has token count 2 ≥ 2, so the token phase returns that
record with method `token`. -/
theorem C4_token_phase_witness :
    (0 < 2 ∧ 2 ≤ maxTokenCount "ab_cd.docx" [{ surname := "ab", first_name := "cd" }])
    ∧ find_best_row_for_filename "ab_cd.docx" [{ surname := "ab", first_name := "cd" }] 2 (3 / 5)
        = (some { surname := "ab", first_name := "cd" }, some Method.token) := by
  refine ⟨⟨by decide, by decide⟩, ?_⟩
  rw [(C4_token_phase "ab_cd.docx" [{ surname := "ab", first_name := "cd" }] 2 (3 / 5)
    (by decide) (by decide)).2.1]
  decide

/-! ## Claim C5: the fuzzy fallback -/

/-- C5: whenever no roster record reaches `min_token_matches` token
overlaps, `find_best_row_for_filename` computes, for every record, the
similarity ratio between the normalized filename and the record's (at most
two) normalized full-name variants; if the highest ratio over all records
and variants reaches the (positive) `fuzzy_threshold`, the earliest record
attaining it is returned with method tag `fuzzy(ratio)` (the tag carries
the exact ratio, rendered to two decimals by the program); otherwise the
result is no-match. -/
theorem C5_fuzzy_phase (filename : String) (rows : List Row) (minTok : Nat) (thr : ℚ)
    (hthr : 0 < thr) (htok : maxTokenCount filename rows < minTok) :
    (thr ≤ bestFuzzyRatio (normalize_text filename) rows →
       find_best_row_for_filename filename rows minTok thr
         = (rows.find? fun row => (variantsOf row).any fun v =>
              decide (fuzzy_ratio (normalize_text filename) v
                = bestFuzzyRatio (normalize_text filename) rows),
            some (Method.fuzzy (bestFuzzyRatio (normalize_text filename) rows))))
    ∧ (bestFuzzyRatio (normalize_text filename) rows < thr →
       find_best_row_for_filename filename rows minTok thr = (none, none)) := by
  have htk2 : (tokenFold (fnameTokens filename) rows).2 = maxTokenCount filename rows := by
    rw [tokenFold_eq, foldl_stepMax_snd]
    rfl
  have hfz2 : (fuzzyFold fuzzy_ratio (normalize_text filename) rows).2
      = bestFuzzyRatio (normalize_text filename) rows := by
    rw [fuzzyFold_eq, foldl_stepMax_snd]
    rfl
  have hshape : find_best_row_for_filename filename rows minTok thr
      = (if (fuzzyFold fuzzy_ratio (normalize_text filename) rows).2 ≥ thr then
          ((fuzzyFold fuzzy_ratio (normalize_text filename) rows).1,
            some (Method.fuzzy (fuzzyFold fuzzy_ratio (normalize_text filename) rows).2))
        else (none, none)) := by
    show (if (tokenFold (fnameTokens filename) rows).2 ≥ minTok then
        ((tokenFold (fnameTokens filename) rows).1, some Method.token)
      else _) = _
    rw [if_neg (by rw [htk2]; exact not_le.mpr htok)]
  constructor
  · intro hge
    have hfz1 : (fuzzyFold fuzzy_ratio (normalize_text filename) rows).1
        = rows.find? fun row => (variantsOf row).any fun v =>
            decide (fuzzy_ratio (normalize_text filename) v
              = bestFuzzyRatio (normalize_text filename) rows) := by
      rw [fuzzyFold_eq, foldl_stepMax_fst]
      · rw [← find?_rowVariantPairs rows fun v =>
          decide (fuzzy_ratio (normalize_text filename) v
            = bestFuzzyRatio (normalize_text filename) rows)]
        rfl
      · show (0 : ℚ) < foldMax (fun rv => fuzzy_ratio (normalize_text filename) rv.2) 0
          (rowVariantPairs rows)
        exact lt_of_lt_of_le hthr hge
    rw [hshape, if_pos (hfz2 ▸ hge), hfz1, hfz2]
  · intro hlt
    rw [hshape, if_neg (by rw [hfz2]; exact not_le.mpr hlt)]

/-- C5 witness: `"adasmith"` has no token overlap with the single record
`{surname "smith", first "ada"}`, and the reversed variant `"ada smith"`
scores 16/17 ≥ 3/5, so the fuzzy phase returns that record. -/
theorem C5_fuzzy_phase_witness :
    ((0 : ℚ) < 3 / 5
      ∧ maxTokenCount "adasmith" [{ surname := "smith", first_name := "ada" }] < 2
      ∧ (3 / 5 : ℚ) ≤ bestFuzzyRatio (normalize_text "adasmith")
          [{ surname := "smith", first_name := "ada" }])
    ∧ find_best_row_for_filename "adasmith" [{ surname := "smith", first_name := "ada" }] 2 (3 / 5)
        = (some { surname := "smith", first_name := "ada" },
           some (Method.fuzzy (16 / 17))) := by
  have hnn : normalize_text "adasmith" = "adasmith" := rfl
  have hm1 : matchesTotal "adasmith".data "smith ada".data = 5 := by decide
  have hm2 : matchesTotal "adasmith".data "ada smith".data = 8 := by decide
  have hl0 : "adasmith".data.length = 8 := by decide
  have hl1 : "smith ada".data.length = 9 := by decide
  have hl2 : "ada smith".data.length = 9 := by decide
  have hr1 : fuzzy_ratio "adasmith" "smith ada" = 10 / 17 := by
    rw [fuzzy_ratio, if_neg (by decide), hm1, hl0, hl1]
    norm_num
  have hr2 : fuzzy_ratio "adasmith" "ada smith" = 16 / 17 := by
    rw [fuzzy_ratio, if_neg (by decide), hm2, hl0, hl2]
    norm_num
  have hrv : rowVariantPairs [{ surname := "smith", first_name := "ada" }]
      = [({ surname := "smith", first_name := "ada" }, "smith ada"),
         ({ surname := "smith", first_name := "ada" }, "ada smith")] := by decide
  have hbest : bestFuzzyRatio (normalize_text "adasmith")
      [{ surname := "smith", first_name := "ada" }] = 16 / 17 := by
    rw [bestFuzzyRatio, hrv, hnn]
    show max (max 0 (fuzzy_ratio "adasmith" "smith ada"))
        (fuzzy_ratio "adasmith" "ada smith") = 16 / 17
    rw [hr1, hr2, max_eq_right (show (0 : ℚ) ≤ 10 / 17 by norm_num),
      max_eq_right (show (10 / 17 : ℚ) ≤ 16 / 17 by norm_num)]
  have htoklt : maxTokenCount "adasmith" [{ surname := "smith", first_name := "ada" }] < 2 := by
    decide
  have hge : (3 / 5 : ℚ) ≤ bestFuzzyRatio (normalize_text "adasmith")
      [{ surname := "smith", first_name := "ada" }] := by
    rw [hbest]
    norm_num
  refine ⟨⟨by norm_num, htoklt, hge⟩, ?_⟩
  rw [(C5_fuzzy_phase "adasmith" [{ surname := "smith", first_name := "ada" }] 2 (3 / 5)
    (by norm_num) htoklt).1 hge]
  rw [hbest, hnn]
  have hpred : ((variantsOf { surname := "smith", first_name := "ada" }).any fun v =>
      decide (fuzzy_ratio "adasmith" v = 16 / 17)) = true := by
    apply List.any_eq_true.mpr
    refine ⟨"ada smith", by decide, ?_⟩
    exact decide_eq_true (by rw [hr2])
  rw [find?_cons_pos2
    (fun row => (variantsOf row).any fun v =>
      decide (fuzzy_ratio "adasmith" v = 16 / 17)) _ [] hpred]

/-! ## Claim C7: degenerate records and filenames -/

/-- C7: a roster record whose name fields are all absent/empty is never
the returned record of `find_best_row_for_filename` (it contributes no
tokens and no variants); and a filename that normalizes to the empty
string yields the no-match result `(none, none)` rather than an error,
for any positive `min_token_matches` and `fuzzy_threshold`. -/
theorem C7_degenerate_inputs (filename : String) (rows : List Row) (minTok : Nat) (thr : ℚ) :
    (∀ r m, find_best_row_for_filename filename rows minTok thr = (some r, m) →
       ¬(r.surname = "" ∧ r.first_name = "" ∧ r.middle_name = ""))
    ∧ (normalize_text filename = "" → 0 < minTok → 0 < thr →
       find_best_row_for_filename filename rows minTok thr = (none, none)) := by
  constructor
  · intro r m hres ⟨hs, hf, hm⟩
    have hshape : find_best_row_for_filename filename rows minTok thr
        = (if (tokenFold (fnameTokens filename) rows).2 ≥ minTok then
            ((tokenFold (fnameTokens filename) rows).1, some Method.token)
          else if (fuzzyFold fuzzy_ratio (normalize_text filename) rows).2 ≥ thr then
            ((fuzzyFold fuzzy_ratio (normalize_text filename) rows).1,
              some (Method.fuzzy (fuzzyFold fuzzy_ratio (normalize_text filename) rows).2))
          else (none, none)) := rfl
    rw [hshape] at hres
    split at hres
    · have h1 : (tokenFold (fnameTokens filename) rows).1 = some r := by
        have := congrArg Prod.fst hres
        simpa using this
      rw [tokenFold_eq] at h1
      rcases foldl_stepMax_fst_some _ _ h1 with h0 | ⟨row, _, hgr, hlt⟩
      · cases h0
      · have : count_token_matches (fnameTokens filename) row = 0 := by
          have hr : row = r := hgr
          rw [hr]
          exact count_token_matches_empty_row _ r hs hf hm
        simp only [id] at hlt
        rw [this] at hlt
        exact absurd hlt (lt_irrefl 0)
    · split at hres
      · have h1 : (fuzzyFold fuzzy_ratio (normalize_text filename) rows).1 = some r := by
          have := congrArg Prod.fst hres
          simpa using this
        rw [fuzzyFold_eq] at h1
        rcases foldl_stepMax_fst_some _ _ h1 with h0 | ⟨rv, hmem, hgr, _⟩
        · cases h0
        · rcases List.mem_flatMap.mp hmem with ⟨row, _, hin⟩
          rcases List.mem_map.mp hin with ⟨v, hv, hpair⟩
          have hrow : row = r := by
            have := congrArg Prod.fst hpair
            simpa [hgr] using this
          rw [hrow, variantsOf_empty_row r hs hf hm] at hv
          cases hv
      · exact absurd (congrArg Prod.fst hres) (by simp)
  · intro hnorm hmin hthr
    have hcnt : ∀ row ∈ rows, count_token_matches (fnameTokens filename) row ≤ 0 := by
      intro row _
      have : count_token_matches (fnameTokens filename) row = 0 := by
        apply List.countP_eq_zero.mpr
        intro t _
        have hft : fnameTokens filename = [] := by
          rw [fnameTokens, hnorm]
          rfl
        simp [hft]
      rw [this]
    have htk : tokenFold (fnameTokens filename) rows = (none, 0) := by
      rw [tokenFold_eq]
      exact foldl_stepMax_of_le _ _ _ hcnt
    have hfz : fuzzyFold fuzzy_ratio (normalize_text filename) rows = (none, 0) := by
      rw [fuzzyFold_eq]
      apply foldl_stepMax_of_le
      intro rv hmem
      rcases List.mem_flatMap.mp hmem with ⟨row, _, hin⟩
      rcases List.mem_map.mp hin with ⟨v, hv, hpair⟩
      have hv2 : rv.2 = v := by
        have := congrArg Prod.snd hpair
        simpa using this.symm
      show fuzzy_ratio (normalize_text filename) rv.2 ≤ 0
      rw [hv2, hnorm, fuzzy_ratio_empty_left v (mem_variantsOf_ne hv)]
    show (if (tokenFold (fnameTokens filename) rows).2 ≥ minTok then
        ((tokenFold (fnameTokens filename) rows).1, some Method.token)
      else if (fuzzyFold fuzzy_ratio (normalize_text filename) rows).2 ≥ thr then
        ((fuzzyFold fuzzy_ratio (normalize_text filename) rows).1,
          some (Method.fuzzy (fuzzyFold fuzzy_ratio (normalize_text filename) rows).2))
      else (none, none)) = (none, none)
    rw [htk, hfz]
    rw [if_neg (by simpa using Nat.pos_iff_ne_zero.mp hmin), if_neg (by simpa using not_le.mpr hthr)]

/-- C7 witness: the all-punctuation filename `"_"` normalizes to the empty
string and yields no-match against a nonempty roster. -/
theorem C7_degenerate_inputs_witness :
    find_best_row_for_filename "_" [{ surname := "smith", first_name := "ada" }] 2 (3 / 5)
      = (none, none) :=
  (C7_degenerate_inputs "_" [{ surname := "smith", first_name := "ada" }] 2 (3 / 5)).2
    (by decide) (by decide) (by norm_num)

/-! ## Decimal numerals: `natStr` is injective -/

theorem digitVal_digitChar {d : Nat} (hd : d < 10) :
    (Nat.digitChar d).toNat - 48 = d := by
  interval_cases d <;> rfl

theorem natDigitsAux_eq_digits :
    ∀ (fuel n : Nat), n ≤ fuel →
      natDigitsAux n fuel = (Nat.digits 10 n).reverse.map Nat.digitChar := by
  intro fuel
  induction fuel with
  | zero =>
    intro n hn
    interval_cases n
    rw [Nat.digits_zero]
    rfl
  | succ fuel ih =>
    intro n hn
    by_cases h0 : n = 0
    · subst h0
      rw [Nat.digits_zero]
      rfl
    · rw [natDigitsAux, if_neg h0]
      rw [ih (n / 10) (by
        have := Nat.div_lt_self (Nat.pos_of_ne_zero h0) (by norm_num : 1 < 10)
        omega)]
      rw [Nat.digits_def' (by norm_num : 1 < 10) (Nat.pos_of_ne_zero h0)]
      rw [List.reverse_cons, List.map_append]
      rfl

theorem map_congr_to_id {α : Type} (l : List α) (f : α → α)
    (h : ∀ a ∈ l, f a = id a) : l.map f = l.map id :=
  List.map_congr_left h

theorem natStrVal_natStr (n : Nat) :
    Nat.ofDigits 10 (((natStr n).data.map fun c => c.toNat - 48).reverse) = n := by
  by_cases hn : n = 0
  · subst hn
    rfl
  · rw [natStr, if_neg hn]
    show Nat.ofDigits 10
      (((natDigitsAux n n).map fun c => c.toNat - 48).reverse) = n
    rw [natDigitsAux_eq_digits n n (le_refl n)]
    rw [List.map_map, List.map_reverse, List.reverse_reverse]
    rw [map_congr_to_id _ _ fun d hd => by
      show (Nat.digitChar d).toNat - 48 = d
      exact digitVal_digitChar (Nat.digits_lt_base (by norm_num) hd)]
    rw [List.map_id]
    exact Nat.ofDigits_digits 10 n

theorem natStr_data_inj {m n : Nat} (h : (natStr m).data = (natStr n).data) : m = n := by
  rw [← natStrVal_natStr m, ← natStrVal_natStr n, h]

theorem suffixName_inj (base ext : String) {i j : Nat}
    (h : suffixName base ext i = suffixName base ext j) : i = j := by
  apply natStr_data_inj
  have hd := congrArg String.data h
  simp only [suffixName, String.data_append] at hd
  exact List.append_cancel_left (List.append_cancel_right hd)

/-! ## The collision probe finds the least free suffix -/

theorem probeSuffix_spec (fs : FS) (dir : Path) (base ext : String) :
    ∀ (fuel start : Nat),
      (∃ k, k < fuel ∧ fs.ex (dir ++ [suffixName base ext (start + k)]) = false) →
      fs.ex (dir ++ [suffixName base ext (probeSuffix fs dir base ext fuel start)]) = false
      ∧ start ≤ probeSuffix fs dir base ext fuel start
      ∧ ∀ j, start ≤ j → j < probeSuffix fs dir base ext fuel start →
          fs.ex (dir ++ [suffixName base ext j]) = true := by
  intro fuel
  induction fuel with
  | zero =>
    intro start ⟨k, hk, _⟩
    exact absurd hk (Nat.not_lt_zero k)
  | succ fuel ih =>
    intro start ⟨k, hk, hfree⟩
    rw [probeSuffix]
    by_cases hocc : fs.ex (dir ++ [suffixName base ext start]) = true
    case neg =>
      have hoccf : fs.ex (dir ++ [suffixName base ext start]) = false := by
        cases hb : fs.ex (dir ++ [suffixName base ext start])
        · rfl
        · exact absurd hb hocc
      rw [if_neg hocc]
      exact ⟨hoccf, le_refl _, fun j hj hj2 => absurd (lt_of_le_of_lt hj hj2) (lt_irrefl _)⟩
    case pos =>
      rw [if_pos hocc]
      have hk0 : k ≠ 0 := by
        intro h0
        subst h0
        rw [Nat.add_zero, hocc] at hfree
        cases hfree
      obtain ⟨k', rfl⟩ : ∃ k', k = k' + 1 :=
        ⟨k - 1, (Nat.succ_pred_eq_of_pos (Nat.pos_of_ne_zero hk0)).symm⟩
      obtain ⟨h1, h2, h3⟩ := ih (start + 1)
        ⟨k', Nat.lt_of_succ_lt_succ hk, by
          rw [show start + 1 + k' = start + (k' + 1) by omega]
          exact hfree⟩
      refine ⟨h1, le_trans (Nat.le_succ start) h2, ?_⟩
      intro j hj hj2
      by_cases hjs : j = start
      · subst hjs
        exact hocc
      · exact h3 j (by omega) hj2

/-! ## Occupied paths are table entries (pigeonhole for free suffixes) -/

theorem lookup_isSome_mem {l : List (Path × Content)} {p : Path}
    (h : (l.lookup p).isSome = true) : p ∈ l.map Prod.fst := by
  induction l with
  | nil => simp [List.lookup] at h
  | cons e t ih =>
    obtain ⟨k, v⟩ := e
    rw [List.lookup] at h
    cases hbe : p == k with
    | true =>
      have : p = k := eq_of_beq hbe
      simp [this]
    | false =>
      rw [hbe] at h
      simp only [List.map_cons, List.mem_cons]
      exact Or.inr (ih h)

theorem ex_mem_allPaths {fs : FS} {p : Path} (h : fs.ex p = true) : p ∈ fs.allPaths := by
  rw [FS.ex, Bool.or_eq_true] at h
  rcases h with h | h
  · rw [FS.isFile] at h
    exact List.mem_append.mpr (Or.inl (lookup_isSome_mem h))
  · rw [FS.isDir] at h
    exact List.mem_append.mpr (Or.inr (by simpa using h))

theorem length_allPaths (fs : FS) : fs.allPaths.length = fsSize fs := by
  rw [FS.allPaths, fsSize, List.length_append, List.length_map]

theorem exists_free_suffix (fs : FS) (dir : Path) (base ext : String) (start : Nat) :
    ∃ k, k < fsSize fs + 1 ∧ fs.ex (dir ++ [suffixName base ext (start + k)]) = false := by
  by_contra hcon
  push_neg at hcon
  have hocc : ∀ k, k < fsSize fs + 1 →
      (dir ++ [suffixName base ext (start + k)]) ∈ fs.allPaths := by
    intro k hk
    apply ex_mem_allPaths
    cases hb : fs.ex (dir ++ [suffixName base ext (start + k)]) with
    | false => exact absurd hb (hcon k hk)
    | true => rfl
  have hinj : Function.Injective fun k : Nat => dir ++ [suffixName base ext (start + k)] := by
    intro a b hab
    have h1 : suffixName base ext (start + a) = suffixName base ext (start + b) := by
      have := List.append_cancel_left hab
      simpa using this
    have := suffixName_inj base ext h1
    omega
  have hnodup : ((List.range (fsSize fs + 1)).map
      fun k => dir ++ [suffixName base ext (start + k)]).Nodup :=
    (List.nodup_range _).map hinj
  have hsub : ((List.range (fsSize fs + 1)).map
      fun k => dir ++ [suffixName base ext (start + k)]) ⊆ fs.allPaths := by
    intro q hq
    rcases List.mem_map.mp hq with ⟨k, hk, rfl⟩
    exact hocc k (List.mem_range.mp hk)
  have hlen := (List.subperm_of_subset hnodup hsub).length_le
  rw [List.length_map, List.length_range, length_allPaths] at hlen
  omega

/-! ## File-table update lemmas -/

theorem lookup_map_replace (l : List (Path × Content)) (w : Path) (c : Content)
    (q : Path) (hq : q ≠ w) :
    (l.map fun e => if e.1 == w then (w, c) else e).lookup q = l.lookup q := by
  induction l with
  | nil => rfl
  | cons e t ih =>
    obtain ⟨k, v⟩ := e
    rw [List.map_cons]
    by_cases hkw : (k == w) = true
    · have hk : k = w := eq_of_beq hkw
      rw [show (if (k, v).1 == w then (w, c) else (k, v)) = (w, c) by rw [if_pos hkw]]
      rw [List.lookup, List.lookup]
      rw [show (q == w) = false from beq_eq_false_iff_ne.mpr hq,
        show (q == k) = false from beq_eq_false_iff_ne.mpr (hk ▸ hq)]
      exact ih
    · rw [show (if (k, v).1 == w then (w, c) else (k, v)) = (k, v) by
        rw [if_neg (by simpa using hkw)]]
      rw [List.lookup, List.lookup]
      cases hqk : q == k with
      | true => rfl
      | false => exact ih

theorem lookup_map_replace_self (l : List (Path × Content)) (w : Path) (c : Content)
    (h : (l.lookup w).isSome = true) :
    (l.map fun e => if e.1 == w then (w, c) else e).lookup w = some c := by
  induction l with
  | nil => simp [List.lookup] at h
  | cons e t ih =>
    obtain ⟨k, v⟩ := e
    rw [List.map_cons]
    by_cases hkw : (k == w) = true
    · rw [show (if (k, v).1 == w then (w, c) else (k, v)) = (w, c) by rw [if_pos hkw]]
      rw [List.lookup]
      rw [beq_self_eq_true w]
    · rw [show (if (k, v).1 == w then (w, c) else (k, v)) = (k, v) by
        rw [if_neg (by simpa using hkw)]]
      rw [List.lookup] at h ⊢
      have hwkf : (w == k) = false := by
        cases hwk : w == k with
        | false => rfl
        | true =>
          have hc : (k == w) = true := by
            rw [eq_of_beq hwk]
            exact beq_self_eq_true k
          exact absurd hc hkw
      rw [hwkf] at h ⊢
      exact ih h

theorem lookup_delFilter (l : List (Path × Content)) (p q : Path) (hq : q ≠ p) :
    (l.filter fun e => !(e.1 == p)).lookup q = l.lookup q := by
  induction l with
  | nil => rfl
  | cons e t ih =>
    obtain ⟨k, v⟩ := e
    rw [List.filter_cons]
    by_cases hkp : (k == p) = true
    · rw [if_neg (by simpa using hkp)]
      rw [List.lookup]
      rw [show (q == k) = false from
        beq_eq_false_iff_ne.mpr (by rw [eq_of_beq hkp]; exact hq)]
      exact ih
    · rw [if_pos (by simpa using hkp)]
      rw [List.lookup, List.lookup]
      cases hqk : q == k with
      | true => rfl
      | false => exact ih

theorem lookup_delFilter_self (l : List (Path × Content)) (p : Path) :
    (l.filter fun e => !(e.1 == p)).lookup p = none := by
  induction l with
  | nil => rfl
  | cons e t ih =>
    obtain ⟨k, v⟩ := e
    rw [List.filter_cons]
    by_cases hkp : (k == p) = true
    · rw [if_neg (by simpa using hkp)]
      exact ih
    · rw [if_pos (by simpa using hkp)]
      rw [List.lookup]
      have hpkf : (p == k) = false := by
        cases hpk : p == k with
        | false => rfl
        | true =>
          have hc : (k == p) = true := by
            rw [eq_of_beq hpk]
            exact beq_self_eq_true k
          exact absurd hc (by simpa using hkp)
      rw [hpkf]
      exact ih

theorem lookup_setFile_ne (fs : FS) (w : Path) (c : Content) (q : Path) (hq : q ≠ w) :
    (fs.setFile w c).files.lookup q = fs.files.lookup q := by
  rw [FS.setFile]
  split
  · exact lookup_map_replace fs.files w c q hq
  · show (fs.files ++ [(w, c)]).lookup q = fs.files.lookup q
    rw [List.lookup_append]
    rw [show List.lookup q [(w, c)] = none by
      rw [List.lookup]
      rw [show (q == w) = false from beq_eq_false_iff_ne.mpr hq]
      rfl]
    cases fs.files.lookup q <;> rfl

theorem lookup_setFile_self (fs : FS) (w : Path) (c : Content) :
    (fs.setFile w c).files.lookup w = some c := by
  rw [FS.setFile]
  split
  · next hs => exact lookup_map_replace_self fs.files w c hs
  · show (fs.files ++ [(w, c)]).lookup w = some c
    rw [List.lookup_append]
    next hs =>
      rw [show fs.files.lookup w = none from Option.not_isSome_iff_eq_none.mp hs]
      rw [List.lookup]
      rw [beq_self_eq_true w]
      rfl

theorem setFile_dirs (fs : FS) (w : Path) (c : Content) :
    (fs.setFile w c).dirs = fs.dirs := by
  rw [FS.setFile]
  split <;> rfl

theorem delFile_dirs (fs : FS) (p : Path) : (fs.delFile p).dirs = fs.dirs := rfl

theorem lookup_delFile_ne (fs : FS) (p q : Path) (hq : q ≠ p) :
    (fs.delFile p).files.lookup q = fs.files.lookup q :=
  lookup_delFilter fs.files p q hq

theorem lookup_delFile_self (fs : FS) (p : Path) :
    (fs.delFile p).files.lookup p = none :=
  lookup_delFilter_self fs.files p

/-! ## `safe_copy` and the flattener move: collision-probe specifications -/

theorem safe_copy_spec (env : Env) (fs : FS) (src dstDir : Path) (dstName : String) :
    ∀ fs' w, safe_copy env fs src dstDir dstName = .ok (fs', w) →
       fs.ex w = false
       ∧ fs' = fs.setFile w (fs.content src)
       ∧ (∀ q, q ≠ w → fs'.files.lookup q = fs.files.lookup q)
       ∧ (fs.ex (dstDir ++ [dstName]) = false → w = dstDir ++ [dstName])
       ∧ (fs.ex (dstDir ++ [dstName]) = true →
           ∃ i, 1 ≤ i
             ∧ w = dstDir ++ [suffixName (splitext dstName).1 (splitext dstName).2 i]
             ∧ ∀ j, 1 ≤ j → j < i →
                 fs.ex (dstDir ++ [suffixName (splitext dstName).1 (splitext dstName).2 j])
                   = true) := by
  intro fs' w h
  simp only [safe_copy] at h
  by_cases hdst : fs.ex (dstDir ++ [dstName]) = true
  · rw [if_pos hdst] at h
    obtain ⟨hfree, hge1, hleast⟩ := probeSuffix_spec fs dstDir (splitext dstName).1
      (splitext dstName).2 (fsSize fs + 1) 1
      (exists_free_suffix fs dstDir (splitext dstName).1 (splitext dstName).2 1)
    by_cases hcf : env.copyFails src (dstDir ++ [suffixName (splitext dstName).1
        (splitext dstName).2 (probeSuffix fs dstDir (splitext dstName).1 (splitext dstName).2
          (fsSize fs + 1) 1)]) = true
    · rw [if_pos hcf] at h
      exact Except.noConfusion h
    · rw [if_neg hcf] at h
      rw [Except.ok.injEq, Prod.mk.injEq] at h
      obtain ⟨h1, h2⟩ := h
      subst h2
      subst h1
      refine ⟨hfree, rfl, ?_, ?_, ?_⟩
      · intro q hq
        exact lookup_setFile_ne fs _ _ q hq
      · intro hf
        rw [hf] at hdst
        exact Bool.noConfusion hdst
      · intro _
        exact ⟨_, hge1, rfl, hleast⟩
  · rw [if_neg hdst] at h
    have hdf : fs.ex (dstDir ++ [dstName]) = false := by
      cases hb : fs.ex (dstDir ++ [dstName])
      · rfl
      · exact absurd hb hdst
    by_cases hcf : env.copyFails src (dstDir ++ [dstName]) = true
    · rw [if_pos hcf] at h
      exact Except.noConfusion h
    · rw [if_neg hcf] at h
      rw [Except.ok.injEq, Prod.mk.injEq] at h
      obtain ⟨h1, h2⟩ := h
      subst h2
      subst h1
      refine ⟨hdf, rfl, ?_, fun _ => rfl, ?_⟩
      · intro q hq
        exact lookup_setFile_ne fs _ _ q hq
      · intro habs
        rw [habs] at hdf
        exact Bool.noConfusion hdf

theorem flatten_move_spec (fs : FS) (extract_to p : Path) :
    p ≠ extract_to ++ [p.getLastD ""] →
       ∃ w, fs.ex w = false
         ∧ flatten_move fs extract_to p = (fs.delFile p).setFile w (fs.content p)
         ∧ (∀ q, q ≠ w → q ≠ p →
             (flatten_move fs extract_to p).files.lookup q = fs.files.lookup q)
         ∧ (fs.ex (extract_to ++ [p.getLastD ""]) = false → w = extract_to ++ [p.getLastD ""])
         ∧ (fs.ex (extract_to ++ [p.getLastD ""]) = true →
             ∃ i, 1 ≤ i
               ∧ w = extract_to ++ [suffixName (splitext (p.getLastD "")).1
                   (splitext (p.getLastD "")).2 i]
               ∧ ∀ j, 1 ≤ j → j < i →
                   fs.ex (extract_to ++ [suffixName (splitext (p.getLastD "")).1
                     (splitext (p.getLastD "")).2 j]) = true) := by
  intro hne
  have hbe : (p == extract_to ++ [p.getLastD ""]) = false := beq_eq_false_iff_ne.mpr hne
  by_cases hdst : fs.ex (extract_to ++ [p.getLastD ""]) = true
  · obtain ⟨hfree, hge1, hleast⟩ := probeSuffix_spec fs extract_to
      (splitext (p.getLastD "")).1 (splitext (p.getLastD "")).2 (fsSize fs + 1) 1
      (exists_free_suffix fs extract_to (splitext (p.getLastD "")).1
        (splitext (p.getLastD "")).2 1)
    have hfm : flatten_move fs extract_to p
        = (fs.delFile p).setFile (extract_to ++ [suffixName (splitext (p.getLastD "")).1
            (splitext (p.getLastD "")).2 (probeSuffix fs extract_to
              (splitext (p.getLastD "")).1 (splitext (p.getLastD "")).2
              (fsSize fs + 1) 1)]) (fs.content p) := by
      simp only [flatten_move]
      rw [if_neg (by rw [hbe]; exact Bool.noConfusion)]
      rw [if_pos hdst]
    refine ⟨_, hfree, hfm, ?_, ?_, ?_⟩
    · intro q hqw hqp
      rw [hfm, lookup_setFile_ne _ _ _ q hqw, lookup_delFile_ne fs p q hqp]
    · intro hf
      rw [hf] at hdst
      exact Bool.noConfusion hdst
    · intro _
      exact ⟨_, hge1, rfl, hleast⟩
  · have hdf : fs.ex (extract_to ++ [p.getLastD ""]) = false := by
      cases hb : fs.ex (extract_to ++ [p.getLastD ""])
      · rfl
      · exact absurd hb hdst
    have hfm : flatten_move fs extract_to p
        = (fs.delFile p).setFile (extract_to ++ [p.getLastD ""]) (fs.content p) := by
      simp only [flatten_move]
      rw [if_neg (by rw [hbe]; exact Bool.noConfusion)]
      rw [if_neg hdst]
    refine ⟨_, hdf, hfm, ?_, fun _ => rfl, ?_⟩
    · intro q hqw hqp
      rw [hfm, lookup_setFile_ne _ _ _ q hqw, lookup_delFile_ne fs p q hqp]
    · intro habs
      rw [habs] at hdf
      exact Bool.noConfusion hdf

/-! ## Claim C6: placement never overwrites -/

/-- C6: neither `safe_copy` nor the flattener's per-file move ever
overwrites an existing file: the path actually written did not exist
beforehand; it is the intended destination when that name is free, and
otherwise carries the smallest numeric suffix `_i` (`i ≥ 1`, all smaller
suffixes being taken) inserted before the extension; every other table
entry is unchanged (for the move, except the vacated source path). -/
theorem C6_no_overwrite (env : Env) (fs : FS) (src dstDir extract_to p : Path)
    (dstName : String) :
    (∀ fs' w, safe_copy env fs src dstDir dstName = .ok (fs', w) →
       fs.ex w = false
       ∧ fs' = fs.setFile w (fs.content src)
       ∧ (∀ q, q ≠ w → fs'.files.lookup q = fs.files.lookup q)
       ∧ (fs.ex (dstDir ++ [dstName]) = false → w = dstDir ++ [dstName])
       ∧ (fs.ex (dstDir ++ [dstName]) = true →
           ∃ i, 1 ≤ i
             ∧ w = dstDir ++ [suffixName (splitext dstName).1 (splitext dstName).2 i]
             ∧ ∀ j, 1 ≤ j → j < i →
                 fs.ex (dstDir ++ [suffixName (splitext dstName).1 (splitext dstName).2 j])
                   = true))
    ∧ (p ≠ extract_to ++ [p.getLastD ""] →
       ∃ w, fs.ex w = false
         ∧ flatten_move fs extract_to p = (fs.delFile p).setFile w (fs.content p)
         ∧ (∀ q, q ≠ w → q ≠ p →
             (flatten_move fs extract_to p).files.lookup q = fs.files.lookup q)
         ∧ (fs.ex (extract_to ++ [p.getLastD ""]) = false → w = extract_to ++ [p.getLastD ""])
         ∧ (fs.ex (extract_to ++ [p.getLastD ""]) = true →
             ∃ i, 1 ≤ i
               ∧ w = extract_to ++ [suffixName (splitext (p.getLastD "")).1
                   (splitext (p.getLastD "")).2 i]
               ∧ ∀ j, 1 ≤ j → j < i →
                   fs.ex (extract_to ++ [suffixName (splitext (p.getLastD "")).1
                     (splitext (p.getLastD "")).2 j]) = true)) :=
  ⟨safe_copy_spec env fs src dstDir dstName, flatten_move_spec fs extract_to p⟩

/-- C6 witness: copying onto occupied `d/a.txt` lands on the fresh
`d/a_1.txt`; moving `e/b.txt` up to the free `d/b.txt` lands exactly
there. -/
theorem C6_no_overwrite_witness :
    (safe_copy envW fsW ["s"] ["d"] "a.txt"
        = .ok ({ files := [(["d", "a.txt"], 1), (["d", "a_1.txt"], 0)], dirs := [["d"]] },
               ["d", "a_1.txt"])
      ∧ fsW.ex ["d", "a_1.txt"] = false)
    ∧ (fsW.ex ["d", "b.txt"] = false
      ∧ flatten_move fsW ["d"] ["e", "b.txt"]
          = (fsW.delFile ["e", "b.txt"]).setFile ["d", "b.txt"] (fsW.content ["e", "b.txt"])) := by
  constructor
  · exact ⟨by decide,
      ((C6_no_overwrite envW fsW ["s"] ["d"] ["d"] ["e", "b.txt"] "a.txt").1
        { files := [(["d", "a.txt"], 1), (["d", "a_1.txt"], 0)], dirs := [["d"]] }
        ["d", "a_1.txt"] (by decide)).1⟩
  · obtain ⟨w, h1, h2, _, hf, _⟩ :=
      (C6_no_overwrite envW fsW ["s"] ["d"] ["d"] ["e", "b.txt"] "a.txt").2 (by decide)
    have hw : w = ["d", "b.txt"] := hf (by rfl)
    subst hw
    exact ⟨h1, h2⟩

/-! ## The flattening pass leaves no nested file -/

theorem rmdirTry_files (fs : FS) (d : Path) : (fs.rmdirTry d).files = fs.files := by
  rw [FS.rmdirTry]
  split <;> rfl

theorem removeEmptyDirs_files (fs : FS) (t : Path) :
    (removeEmptyDirs fs t).files = fs.files := by
  rw [removeEmptyDirs]
  generalize (sortBy (fun a b => decide (b.length ≤ a.length)) (fs.subtreeDirs t)) = L
  induction L generalizing fs with
  | nil => rfl
  | cons d rest ih =>
    rw [List.foldl_cons, ih (fs.rmdirTry d), rmdirTry_files]

theorem flatten_move_self (fs : FS) (T p : Path) (h : p = T ++ [p.getLastD ""]) :
    flatten_move fs T p = fs := by
  simp only [flatten_move]
  rw [if_pos (show (p == T ++ [p.getLastD ""]) = true by
    rw [show T ++ [p.getLastD ""] = p from h.symm]
    exact beq_self_eq_true p)]

theorem flatten_fold_flat (T : Path) :
    ∀ (S : List Path) (fs : FS),
      (∀ q, fs.isFile q = true → strictUnder T q = true →
        q.length = T.length + 1 ∨ q ∈ S) →
      ∀ q, (S.foldl (flatten_move · T ·) fs).isFile q = true →
        strictUnder T q = true → q.length = T.length + 1 := by
  intro S
  induction S with
  | nil =>
    intro fs hP q hq hu
    rcases hP q hq hu with h | h
    · exact h
    · cases h
  | cons p rest ih =>
    intro fs hP
    rw [List.foldl_cons]
    apply ih (flatten_move fs T p)
    intro q hq hu
    by_cases hself : p = T ++ [p.getLastD ""]
    · rw [flatten_move_self fs T p hself] at hq
      rcases hP q hq hu with h | h
      · exact Or.inl h
      · rcases List.mem_cons.mp h with rfl | hr
        · refine Or.inl ?_
          rw [hself]
          simp
        · exact Or.inr hr
    · obtain ⟨w, hwfree, hfm, hframe, hfreecase, hocccase⟩ := flatten_move_spec fs T p hself
      have hwlen : w.length = T.length + 1 := by
        by_cases hex : fs.ex (T ++ [p.getLastD ""]) = true
        · obtain ⟨i, _, hwi, _⟩ := hocccase hex
          rw [hwi]
          simp
        · have hfc := hfreecase (by
            cases hb : fs.ex (T ++ [p.getLastD ""])
            · rfl
            · exact absurd hb hex)
          rw [hfc]
          simp
      by_cases hqw : q = w
      · exact Or.inl (hqw ▸ hwlen)
      · by_cases hqp : q = p
        · subst hqp
          rw [hfm, FS.isFile] at hq
          have hpw : q ≠ w := hqw
          rw [lookup_setFile_ne _ _ _ q hpw, lookup_delFile_self] at hq
          exact absurd hq (by simp)
        · rw [FS.isFile, hframe q hqw hqp, ← FS.isFile] at hq
          rcases hP q hq hu with h | h
          · exact Or.inl h
          · rcases List.mem_cons.mp h with rfl | hr
            · exact absurd rfl hqp
            · exact Or.inr hr

theorem flattenPass_flat (fs : FS) (T : Path) :
    ∀ q, (flattenPass fs T).isFile q = true → strictUnder T q = true →
      q.length = T.length + 1 := by
  intro q hq hu
  rw [flattenPass, FS.isFile, removeEmptyDirs_files, ← FS.isFile] at hq
  refine flatten_fold_flat T (fs.subtreeFiles T) fs ?_ q hq hu
  intro q' hq' hu'
  refine Or.inr ?_
  rw [FS.subtreeFiles]
  apply List.mem_filter.mpr
  refine ⟨?_, hu'⟩
  rw [FS.isFile] at hq'
  exact lookup_isSome_mem hq'

/-! ## Claim C3: the post-flatten invariant (corrected) -/

/-- C3 (amended): after `extract_and_flatten_archive` returns, `target_dir`
contains files only directly — no nested file remains — whenever the
flattening pass runs: for every `.zip` archive (even when opening or
extraction fails) and for a successfully extracted `.rar`.  When the rar
path skips — codec unavailable, unreadable archive, or extraction failure —
the routine returns *before* the flattening pass, leaving the tree
unchanged apart from the initial `os.makedirs(target_dir)`, so a
pre-existing nested file survives (see the counterexample).  The model has
a single actor, so the claim's escape clause for directories an external
party keeps occupied is vacuous. -/
theorem C3_flatten_invariant (env : Env) (fs : FS) (archive_path extract_to : Path) :
    (strEndsWith (strLower (archive_path.getLastD "")) ".zip" = true →
       ∀ q, (extract_and_flatten_archive env fs archive_path extract_to).isFile q = true →
         strictUnder extract_to q = true → q.length = extract_to.length + 1)
    ∧ (strEndsWith (strLower (archive_path.getLastD "")) ".zip" = false →
       strEndsWith (strLower (archive_path.getLastD "")) ".rar" = true →
       (env.rarAvailable = false →
          extract_and_flatten_archive env fs archive_path extract_to = fs.ensureDirs extract_to)
       ∧ (env.rarAvailable = true →
          (∀ c entries, (fs.ensureDirs extract_to).files.lookup archive_path = some c →
             env.archive c = some entries →
             ∀ q, (extract_and_flatten_archive env fs archive_path extract_to).isFile q
                 = true →
               strictUnder extract_to q = true → q.length = extract_to.length + 1)
          ∧ ((fs.ensureDirs extract_to).files.lookup archive_path = none →
               extract_and_flatten_archive env fs archive_path extract_to
                 = fs.ensureDirs extract_to)
          ∧ (∀ c, (fs.ensureDirs extract_to).files.lookup archive_path = some c →
               env.archive c = none →
               extract_and_flatten_archive env fs archive_path extract_to
                 = fs.ensureDirs extract_to))) := by
  constructor
  · intro hzip
    simp only [extract_and_flatten_archive]
    rw [if_pos hzip]
    rcases hlk : (fs.ensureDirs extract_to).files.lookup archive_path with _ | c
    · simp only [hlk]
      exact flattenPass_flat _ _
    · simp only [hlk]
      rcases har : env.archive c with _ | entries
      · simp only [har]
        exact flattenPass_flat _ _
      · simp only [har]
        exact flattenPass_flat _ _
  · intro hzipf hrar
    constructor
    · intro hra
      simp only [extract_and_flatten_archive]
      rw [if_neg (by rw [hzipf]; exact Bool.noConfusion), if_pos hrar, hra]
      rfl
    · intro hra
      refine ⟨?_, ?_, ?_⟩
      · intro c entries hlk har
        simp only [extract_and_flatten_archive]
        rw [if_neg (by rw [hzipf]; exact Bool.noConfusion), if_pos hrar, hra]
        simp only [Bool.not_true, Bool.false_eq_true, if_false, hlk, har]
        exact flattenPass_flat _ _
      · intro hlk
        simp only [extract_and_flatten_archive]
        rw [if_neg (by rw [hzipf]; exact Bool.noConfusion), if_pos hrar, hra]
        simp only [Bool.not_true, Bool.false_eq_true, if_false, hlk]
      · intro c hlk har
        simp only [extract_and_flatten_archive]
        rw [if_neg (by rw [hzipf]; exact Bool.noConfusion), if_pos hrar, hra]
        simp only [Bool.not_true, Bool.false_eq_true, if_false, hlk, har]

/-- C3 counterexample: a `.rar` with the codec unavailable returns before
the flattening pass, so the pre-existing nested file `t/sub/x.txt` is
still there — the claim's invariant fails on this call even though the
claim asserts it "including when the rar codec is unavailable". -/
theorem C3_counterexample :
    (extract_and_flatten_archive envW fsN ["a.rar"] ["t"]).isFile ["t", "sub", "x.txt"] = true
    ∧ strictUnder ["t"] ["t", "sub", "x.txt"] = true
    ∧ (["t", "sub", "x.txt"] : Path).length ≠ (["t"] : Path).length + 1 := by
  decide

/-- C3 witness: flattening a `.zip` call on the same dirty tree moves the
nested file up to `t/x.txt`, which sits directly in the target. -/
theorem C3_flatten_invariant_witness :
    (["t", "x.txt"] : Path).length = (["t"] : Path).length + 1 :=
  (C3_flatten_invariant envW fsN ["a.zip"] ["t"]).1 (by decide) ["t", "x.txt"]
    (by decide) (by decide)

/-! ## Claim C2: exception containment (corrected) -/

theorem safe_copy_isOk (env : Env) (fs : FS) (src dstDir : Path) (dstName : String)
    (h : ∀ a b, env.copyFails a b = false) :
    ∃ fs' w, safe_copy env fs src dstDir dstName = .ok (fs', w) := by
  simp only [safe_copy]
  rw [h, if_neg Bool.false_ne_true]
  exact ⟨_, _, rfl⟩

theorem orgStep_ok (env : Env) (rows : List Row)
    (h : ∀ a b, env.copyFails a b = false) (s : OrgSt) (n : String) :
    exceptOk (orgStep env rows (.ok s) n) = true := by
  simp only [orgStep]
  split
  · rfl
  split
  · rfl
  split
  · rfl
  next row _ =>
    split
    · next heq =>
      split at heq
      · exact Except.noConfusion heq
      · split at heq
        · exact Except.noConfusion heq
        · split at heq
          · next r hsc =>
            obtain ⟨fs'', w, hok⟩ := safe_copy_isOk env _ _ _ n h
            rw [hok] at hsc
            exact Except.noConfusion hsc
          · exact Except.noConfusion heq
    · rfl

/-- C2 counterexample: in an environment where `shutil.copy2` raises, the
run on a one-file input directory aborts as a whole (`Except.error`),
because `safe_copy` is not wrapped by any per-file handler — contradicting
the claim that no exception from processing one file can abort the run. -/
theorem C2_counterexample :
    exceptOk (organize_and_convert envCopyFail rowsIn fsIn) = false := by
  decide

/-- C2 (amended): exceptions from archive extraction (zip or rar codec)
and from the conversion subprocess are contained per file — with those
failure sources left arbitrary, a run in which `shutil.copy2` never
raises always completes and returns its statistics; a copy failure,
however, escapes the per-file loop and aborts the run (see the
counterexample). -/
theorem C2_contained (env : Env) (rows : List Row) (fs0 : FS)
    (h : ∀ a b, env.copyFails a b = false) :
    exceptOk (organize_and_convert env rows fs0) = true := by
  rw [organize_and_convert]
  have hfold : ∀ (names : List String) (s : OrgSt),
      exceptOk (names.foldl (orgStep env rows) (.ok s)) = true := by
    intro names
    induction names with
    | nil => intro s; rfl
    | cons n t ih =>
      intro s
      rw [List.foldl_cons]
      cases ho : orgStep env rows (.ok s) n with
      | error e =>
        have hk := orgStep_ok env rows h s n
        rw [ho] at hk
        exact absurd hk (by simp [exceptOk])
      | ok s2 => exact ih s2
  exact hfold _ _

/-- C2 witness: with no copy failures, the archive-and-failures
environment still completes on the archive input. -/
theorem C2_contained_witness :
    exceptOk (organize_and_convert envArch rowsIn fsArch) = true :=
  C2_contained envArch rowsIn fsArch fun _ _ => rfl

/-! ## Path bookkeeping: what lies inside the output root -/

theorem output_isPrefixOf_iff (p : Path) :
    OUTPUT_DIR.isPrefixOf p = true ↔ ∃ t, p = "organized_submissions" :: t := by
  rw [List.isPrefixOf_iff_prefix]
  constructor
  · rintro ⟨t, rfl⟩
    exact ⟨t, rfl⟩
  · rintro ⟨t, rfl⟩
    exact ⟨t, rfl⟩

theorem input_not_output (q : Path) (h : INPUT_DIR.isPrefixOf q = true) :
    OUTPUT_DIR.isPrefixOf q = false := by
  rw [List.isPrefixOf_iff_prefix] at h
  obtain ⟨t, rfl⟩ := h
  cases hb : OUTPUT_DIR.isPrefixOf (INPUT_DIR ++ t)
  · rfl
  · obtain ⟨r, hr⟩ := (output_isPrefixOf_iff _).mp hb
    exact absurd (congrArg (List.head? ·) hr) (by simp [INPUT_DIR])

theorem inside_append (p l : Path) (h : OUTPUT_DIR.isPrefixOf p = true) :
    OUTPUT_DIR.isPrefixOf (p ++ l) = true := by
  rw [List.isPrefixOf_iff_prefix] at h ⊢
  exact h.trans (List.prefix_append p l)

theorem inside_take (p : Path) (i : Nat) (h : OUTPUT_DIR.isPrefixOf p = true) :
    OUTPUT_DIR.isPrefixOf (p.take (i + 1)) = true := by
  obtain ⟨t, rfl⟩ := (output_isPrefixOf_iff p).mp h
  rw [output_isPrefixOf_iff]
  exact ⟨t.take i, by rw [List.take_succ_cons]⟩

theorem inside_dropLast (p : Path) (h : OUTPUT_DIR.isPrefixOf p = true)
    (hlen : 2 ≤ p.length) : OUTPUT_DIR.isPrefixOf p.dropLast = true := by
  obtain ⟨t, rfl⟩ := (output_isPrefixOf_iff p).mp h
  cases t with
  | nil => simp at hlen
  | cons a r =>
    rw [output_isPrefixOf_iff]
    refine ⟨(a :: r).dropLast, ?_⟩
    rw [show ("organized_submissions" :: (a :: r) : Path)
        = ["organized_submissions"] ++ (a :: r) from rfl,
      List.dropLast_append_of_ne_nil _ (by simp)]
    rfl

theorem inside_of_strictUnder (T p : Path) (hT : OUTPUT_DIR.isPrefixOf T = true)
    (hp : strictUnder T p = true) : OUTPUT_DIR.isPrefixOf p = true := by
  rw [strictUnder, Bool.and_eq_true] at hp
  rw [List.isPrefixOf_iff_prefix] at hT ⊢
  rw [List.isPrefixOf_iff_prefix] at hp
  exact hT.trans hp.1

theorem strictUnder_lt_length (T p : Path) (hp : strictUnder T p = true) :
    T.length < p.length := by
  rw [strictUnder, Bool.and_eq_true] at hp
  simpa using hp.2

theorem inside_pdfSibling (T p : Path) (hT : OUTPUT_DIR.isPrefixOf T = true)
    (hp : strictUnder T p = true) :
    OUTPUT_DIR.isPrefixOf (p.dropLast ++ [(splitext (p.getLastD "")).1 ++ ".pdf"]) = true := by
  apply inside_append
  apply inside_dropLast
  · exact inside_of_strictUnder T p hT hp
  · have h1 := strictUnder_lt_length T p hp
    have h2 : 1 ≤ T.length := by
      obtain ⟨t, rfl⟩ := (output_isPrefixOf_iff T).mp hT
      simp
    omega

/-! ## Effect footprints of the primitive operations -/

theorem addDir_files (fs : FS) (d : Path) : (fs.addDir d).files = fs.files := by
  rw [FS.addDir]
  split <;> rfl

theorem contains_addDir_ne (fs : FS) (d q : Path) (hq : q ≠ d) :
    (fs.addDir d).dirs.contains q = fs.dirs.contains q := by
  rw [FS.addDir]
  split
  · rfl
  · show (fs.dirs ++ [d]).contains q = fs.dirs.contains q
    rw [Bool.eq_iff_iff]
    simp [List.elem_iff, hq]

theorem frameO_refl (fs : FS) : FrameO fs fs := fun _ _ => ⟨rfl, rfl⟩

theorem frameO_trans {a b c : FS} (h1 : FrameO a b) (h2 : FrameO b c) : FrameO a c := by
  intro q hq
  exact ⟨(h2 q hq).1.trans (h1 q hq).1, (h2 q hq).2.trans (h1 q hq).2⟩

theorem frameO_setFile (fs : FS) (w : Path) (c : Content)
    (h : OUTPUT_DIR.isPrefixOf w = true) : FrameO fs (fs.setFile w c) := by
  intro q hq
  have hne : q ≠ w := fun he => by rw [he, h] at hq; exact Bool.noConfusion hq
  exact ⟨lookup_setFile_ne fs w c q hne, by rw [setFile_dirs]⟩

theorem frameO_delFile (fs : FS) (p : Path)
    (h : OUTPUT_DIR.isPrefixOf p = true) : FrameO fs (fs.delFile p) := by
  intro q hq
  have hne : q ≠ p := fun he => by rw [he, h] at hq; exact Bool.noConfusion hq
  exact ⟨lookup_delFile_ne fs p q hne, by rw [delFile_dirs]⟩

theorem frameO_addDir (fs : FS) (d : Path)
    (h : OUTPUT_DIR.isPrefixOf d = true) : FrameO fs (fs.addDir d) := by
  intro q hq
  have hne : q ≠ d := fun he => by rw [he, h] at hq; exact Bool.noConfusion hq
  exact ⟨by rw [addDir_files], contains_addDir_ne fs d q hne⟩

theorem frameO_foldl_addDir (L : List Path) (hL : ∀ d ∈ L, OUTPUT_DIR.isPrefixOf d = true) :
    ∀ fs : FS, FrameO fs (L.foldl FS.addDir fs) := by
  induction L with
  | nil => intro fs; exact frameO_refl fs
  | cons d t ih =>
    intro fs
    rw [List.foldl_cons]
    exact frameO_trans (frameO_addDir fs d (hL d (List.mem_cons_self d t)))
      (ih (fun a ha => hL a (List.mem_cons_of_mem d ha)) _)

theorem frameO_ensureDirs (fs : FS) (p : Path)
    (h : OUTPUT_DIR.isPrefixOf p = true) : FrameO fs (fs.ensureDirs p) := by
  rw [FS.ensureDirs]
  apply frameO_foldl_addDir
  intro d hd
  rw [prefixesOf] at hd
  rcases List.mem_map.mp hd with ⟨i, _, rfl⟩
  exact inside_take p i h

theorem ensureDirs_nil (fs : FS) : fs.ensureDirs [] = fs := rfl

theorem frameO_rmdirTry (fs : FS) (d : Path)
    (h : OUTPUT_DIR.isPrefixOf d = true) : FrameO fs (fs.rmdirTry d) := by
  intro q hq
  have hne : q ≠ d := fun he => by rw [he, h] at hq; exact Bool.noConfusion hq
  refine ⟨by rw [rmdirTry_files], ?_⟩
  rw [FS.rmdirTry]
  split
  · show (fs.dirs.filter fun x => !(x == d)).contains q = fs.dirs.contains q
    rw [Bool.eq_iff_iff]
    simp [List.elem_iff, List.mem_filter, hne]
  · rfl

theorem frameO_foldl_rmdirTry (L : List Path)
    (hL : ∀ d ∈ L, OUTPUT_DIR.isPrefixOf d = true) :
    ∀ fs : FS, FrameO fs (L.foldl FS.rmdirTry fs) := by
  induction L with
  | nil => intro fs; exact frameO_refl fs
  | cons d t ih =>
    intro fs
    rw [List.foldl_cons]
    exact frameO_trans (frameO_rmdirTry fs d (hL d (List.mem_cons_self d t)))
      (ih (fun a ha => hL a (List.mem_cons_of_mem d ha)) _)

theorem mem_insertSorted {α : Type} (le : α → α → Bool) (a x : α) :
    ∀ l : List α, x ∈ insertSorted le a l ↔ x = a ∨ x ∈ l := by
  intro l
  induction l with
  | nil => simp [insertSorted]
  | cons b t ih =>
    rw [insertSorted]
    split
    · simp
    · rw [List.mem_cons, ih, List.mem_cons]
      tauto

theorem mem_sortBy {α : Type} (le : α → α → Bool) (x : α) :
    ∀ l : List α, x ∈ sortBy le l ↔ x ∈ l := by
  intro l
  induction l with
  | nil => simp [sortBy]
  | cons a t ih =>
    rw [sortBy, mem_insertSorted, ih, List.mem_cons]

theorem frameO_removeEmptyDirs (fs : FS) (T : Path)
    (hT : OUTPUT_DIR.isPrefixOf T = true) : FrameO fs (removeEmptyDirs fs T) := by
  rw [removeEmptyDirs]
  apply frameO_foldl_rmdirTry
  intro d hd
  rw [mem_sortBy] at hd
  rw [FS.subtreeDirs] at hd
  exact inside_of_strictUnder T d hT (List.mem_filter.mp hd).2

theorem flatten_move_w_form (fs : FS) (T p : Path) :
    (∃ x, flatten_move fs T p = (fs.delFile p).setFile (T ++ [x]) (fs.content p))
    ∨ flatten_move fs T p = fs := by
  by_cases hself : p = T ++ [p.getLastD ""]
  · exact Or.inr (flatten_move_self fs T p hself)
  · obtain ⟨w, _, hfm, _, hfree, hocc⟩ := flatten_move_spec fs T p hself
    by_cases hex : fs.ex (T ++ [p.getLastD ""]) = true
    · obtain ⟨i, _, hwi, _⟩ := hocc hex
      exact Or.inl ⟨_, by rw [hfm, hwi]⟩
    · have hff := hfree (by
        cases hb : fs.ex (T ++ [p.getLastD ""])
        · rfl
        · exact absurd hb hex)
      exact Or.inl ⟨_, by rw [hfm, hff]⟩

theorem frameO_flatten_move (fs : FS) (T p : Path)
    (hT : OUTPUT_DIR.isPrefixOf T = true) (hp : OUTPUT_DIR.isPrefixOf p = true) :
    FrameO fs (flatten_move fs T p) := by
  rcases flatten_move_w_form fs T p with ⟨x, hfm⟩ | hfm
  · rw [hfm]
    exact frameO_trans (frameO_delFile fs p hp)
      (frameO_setFile _ (T ++ [x]) _ (inside_append T [x] hT))
  · rw [hfm]
    exact frameO_refl fs

theorem frameO_flattenFold (T : Path) (hT : OUTPUT_DIR.isPrefixOf T = true) :
    ∀ (S : List Path) (fs : FS), (∀ p ∈ S, OUTPUT_DIR.isPrefixOf p = true) →
      FrameO fs (S.foldl (flatten_move · T ·) fs) := by
  intro S
  induction S with
  | nil => intro fs _; exact frameO_refl fs
  | cons p t ih =>
    intro fs hS
    rw [List.foldl_cons]
    exact frameO_trans (frameO_flatten_move fs T p hT (hS p (List.mem_cons_self p t)))
      (ih _ fun a ha => hS a (List.mem_cons_of_mem p ha))

theorem frameO_flattenPass (fs : FS) (T : Path)
    (hT : OUTPUT_DIR.isPrefixOf T = true) : FrameO fs (flattenPass fs T) := by
  rw [flattenPass]
  refine frameO_trans (frameO_flattenFold T hT (fs.subtreeFiles T) fs ?_)
    (frameO_removeEmptyDirs _ T hT)
  intro p hp
  rw [FS.subtreeFiles] at hp
  exact inside_of_strictUnder T p hT (List.mem_filter.mp hp).2

theorem frameO_extractall (fs : FS) (T : Path) (entries : List (Path × Content))
    (hT : OUTPUT_DIR.isPrefixOf T = true) : FrameO fs (extractall fs T entries) := by
  rw [extractall]
  induction entries generalizing fs with
  | nil => exact frameO_refl fs
  | cons e t ih =>
    rw [List.foldl_cons]
    refine frameO_trans (frameO_trans ?_ (frameO_setFile _ (T ++ e.1) e.2
      (inside_append T e.1 hT))) (ih _)
    rcases hlen : (T ++ e.1).length with _ | n
    · simp at hlen
      obtain ⟨t', rfl⟩ := (output_isPrefixOf_iff T).mp hT
      cases hlen.1
    · cases n with
      | zero =>
        have hdrop : (T ++ e.1).dropLast = [] := by
          cases hx : T ++ e.1 with
          | nil => rfl
          | cons a r =>
            rw [hx] at hlen
            cases r with
            | nil => rfl
            | cons b r2 => simp at hlen
        rw [hdrop, ensureDirs_nil]
        exact frameO_refl fs
      | succ m =>
        exact frameO_ensureDirs fs _ (inside_dropLast _ (inside_append T e.1 hT)
          (by omega))

theorem frameO_extract_flatten (env : Env) (fs : FS) (ap T : Path)
    (hT : OUTPUT_DIR.isPrefixOf T = true) :
    FrameO fs (extract_and_flatten_archive env fs ap T) := by
  simp only [extract_and_flatten_archive]
  have h0 : FrameO fs (fs.ensureDirs T) := frameO_ensureDirs fs T hT
  split
  · split
    · split
      · exact frameO_trans h0 (frameO_trans (frameO_extractall _ T _ hT)
          (frameO_flattenPass _ T hT))
      · exact frameO_trans h0 (frameO_flattenPass _ T hT)
    · exact frameO_trans h0 (frameO_flattenPass _ T hT)
  · split
    · split
      · exact h0
      · split
        · split
          · exact frameO_trans h0 (frameO_trans (frameO_extractall _ T _ hT)
              (frameO_flattenPass _ T hT))
          · exact h0
        · exact h0
    · exact frameO_trans h0 (frameO_flattenPass _ T hT)

theorem frameO_libre (env : Env) (fs : FS) (docx outDir : Path)
    (h : OUTPUT_DIR.isPrefixOf
      (outDir ++ [(splitext (docx.getLastD "")).1 ++ ".pdf"]) = true) :
    FrameO fs (libreoffice_convert env fs docx outDir).1 := by
  rw [libreoffice_convert]
  split
  · exact frameO_refl fs
  · split
    · show FrameO fs (fs.setFile _ _)
      exact frameO_setFile _ _ _ h
    · exact frameO_refl fs

theorem frameO_convStep (env : Env) (s : OrgSt) (p : Path) (T : Path)
    (hT : OUTPUT_DIR.isPrefixOf T = true) (hp : strictUnder T p = true) :
    FrameO s.fs (convStep env s p).fs := by
  rw [convStep]
  split
  · split
    · exact frameO_refl _
    · show FrameO s.fs (libreoffice_convert env s.fs p (List.dropLast p)).1
      exact frameO_libre env s.fs p p.dropLast (inside_pdfSibling T p hT hp)
  · exact frameO_refl _

theorem frameO_convPass (env : Env) (s : OrgSt) (T : Path)
    (hT : OUTPUT_DIR.isPrefixOf T = true) : FrameO s.fs (convPass env s T).fs := by
  rw [convPass]
  have hmem : ∀ p ∈ s.fs.subtreeFiles T, strictUnder T p = true := by
    intro p hp
    rw [FS.subtreeFiles] at hp
    exact (List.mem_filter.mp hp).2
  generalize s.fs.subtreeFiles T = S at hmem ⊢
  induction S generalizing s with
  | nil => exact frameO_refl _
  | cons p t ih =>
    rw [List.foldl_cons]
    exact frameO_trans (frameO_convStep env s p T hT (hmem p (List.mem_cons_self p t)))
      (ih _ fun a ha => hmem a (List.mem_cons_of_mem p ha))

theorem output_prefix_self : OUTPUT_DIR.isPrefixOf OUTPUT_DIR = true :=
  List.isPrefixOf_iff_prefix.mpr List.prefix_rfl

theorem inside_target (x : String) :
    OUTPUT_DIR.isPrefixOf (OUTPUT_DIR ++ [x]) = true :=
  inside_append _ _ output_prefix_self

theorem frameO_safe_copy (env : Env) (fs fs' : FS) (src dstDir : Path)
    (dstName : String) (w : Path)
    (hD : OUTPUT_DIR.isPrefixOf dstDir = true)
    (h : safe_copy env fs src dstDir dstName = .ok (fs', w)) : FrameO fs fs' := by
  obtain ⟨hfree, hset, hframe, hfreecase, hocccase⟩ :=
    safe_copy_spec env fs src dstDir dstName fs' w h
  have hw : OUTPUT_DIR.isPrefixOf w = true := by
    by_cases hex : fs.ex (dstDir ++ [dstName]) = true
    · obtain ⟨i, _, hwi, _⟩ := hocccase hex
      rw [hwi]
      exact inside_append _ _ hD
    · rw [hfreecase (by
        cases hb : fs.ex (dstDir ++ [dstName])
        · rfl
        · exact absurd hb hex)]
      exact inside_append _ _ hD
  rw [hset]
  exact frameO_setFile fs w _ hw

theorem frameO_orgStep (env : Env) (rows : List Row) (s s' : OrgSt) (n : String)
    (h : orgStep env rows (.ok s) n = .ok s') : FrameO s.fs s'.fs := by
  simp only [orgStep] at h
  split at h
  · cases h
    exact frameO_refl _
  · split at h
    · cases h
      exact frameO_refl _
    · split at h
      · cases h
        exact frameO_refl _
      · next =>
        rename Row => row
        have hT : OUTPUT_DIR.isPrefixOf (targetOf row) = true := inside_target _
        split at h
        · exact Except.noConfusion h
        · next s2 hpl =>
          cases h
          refine frameO_trans ?_ (frameO_convPass env s2 _ hT)
          split at hpl
          · cases hpl
            exact frameO_ensureDirs _ _ hT
          · split at hpl
            · cases hpl
              exact frameO_trans (frameO_ensureDirs _ _ hT)
                (frameO_extract_flatten env _ _ _ hT)
            · split at hpl
              · exact Except.noConfusion hpl
              · next r hsc =>
                cases hpl
                exact frameO_trans (frameO_ensureDirs _ _ hT)
                  (frameO_safe_copy env _ r.1 _ _ n r.2 hT (by exact hsc))

theorem foldl_orgStep_error (env : Env) (rows : List Row) (e : Unit) :
    ∀ t : List String, t.foldl (orgStep env rows) (.error e) = .error e := by
  intro t
  induction t with
  | nil => rfl
  | cons n r ih => exact ih

theorem frameO_fold (env : Env) (rows : List Row) :
    ∀ (names : List String) (s o : OrgSt),
      names.foldl (orgStep env rows) (.ok s) = .ok o → FrameO s.fs o.fs := by
  intro names
  induction names with
  | nil =>
    intro s o h0
    cases h0
    exact frameO_refl _
  | cons n t ih =>
    intro s o h0
    rw [List.foldl_cons] at h0
    cases hs : orgStep env rows (.ok s) n with
    | error e =>
      rw [hs, foldl_orgStep_error] at h0
      exact Except.noConfusion h0
    | ok s2 =>
      rw [hs] at h0
      exact frameO_trans (frameO_orgStep env rows s s2 n hs) (ih s2 o h0)

theorem frameO_run (env : Env) (rows : List Row) (fs0 : FS) (o : OrgSt)
    (h : organize_and_convert env rows fs0 = .ok o) : FrameO fs0 o.fs := by
  rw [organize_and_convert] at h
  exact frameO_trans (frameO_ensureDirs fs0 OUTPUT_DIR output_prefix_self)
    (frameO_fold env rows _ _ o h)

/-! ## Claim C9: the input directory is never mutated -/

/-- C9: a run never mutates the input directory: every path under the
input root (the input files, read as copy sources or archives, and
unmatched or skipped files alike) keeps exactly its file content and its
directory status across `organize_and_convert` — in fact every path not
under the output root does. -/
theorem C9_input_untouched (env : Env) (rows : List Row) (fs0 : FS) (o : OrgSt)
    (hrun : organize_and_convert env rows fs0 = .ok o) :
    ∀ p, INPUT_DIR.isPrefixOf p = true →
      o.fs.files.lookup p = fs0.files.lookup p
      ∧ o.fs.dirs.contains p = fs0.dirs.contains p := by
  intro p hp
  exact frameO_run env rows fs0 o hrun p (input_not_output p hp)

/-- C9 witness: after the archive run, the source archive still sits in
the input directory with its original content. -/
theorem C9_input_untouched_witness :
    (match organize_and_convert envArch rowsIn fsArch with
     | .ok o => o.fs.files.lookup ["submissions", "a_b.zip"] = some 100
     | .error _ => False) := by
  cases h : organize_and_convert envArch rowsIn fsArch with
  | error e =>
    have hk : exceptOk (organize_and_convert envArch rowsIn fsArch) = true := by decide
    rw [h] at hk
    exact Bool.noConfusion hk
  | ok o =>
    show o.fs.files.lookup ["submissions", "a_b.zip"] = some 100
    rw [(C9_input_untouched envArch rowsIn fsArch o h ["submissions", "a_b.zip"]
      (by decide)).1]
    decide


/-! ## A case analysis of the per-file loop body -/

theorem bool_eq_false {b : Bool} (h : ¬ b = true) : b = false := by
  cases b
  · rfl
  · exact absurd rfl h

theorem bnot_true {b : Bool} (h : (!b) = true) : b = false := by
  cases b
  · rfl
  · exact Bool.noConfusion h

theorem bnot_false {b : Bool} (h : ¬ (!b) = true) : b = true := by
  cases b
  · exact absurd rfl h
  · rfl

/-- Exhaustive description of one successful iteration of the per-file
loop: the entry is hidden (skipped silently), not a regular file (only
counted), unmatched (counted as unmatched), or matched — in which case
the placement takes the skip, archive or copy branch and the conversion
pass runs over the match's target folder, with `matched` incremented in
every matched sub-case. -/
theorem orgStep_cases (env : Env) (rows : List Row) (s s' : OrgSt) (n : String)
    (h : orgStep env rows (.ok s) n = .ok s') :
    (strStartsWithDot n = true ∧ s' = s)
    ∨ (strStartsWithDot n = false ∧ s.fs.isFile (INPUT_DIR ++ [n]) = false
        ∧ s' = { s with stats := seen1 s.stats })
    ∨ (strStartsWithDot n = false ∧ s.fs.isFile (INPUT_DIR ++ [n]) = true
        ∧ (find_best_row_for_filename n rows 2 (3 / 5)).1 = none
        ∧ s' = { s with stats :=
            { seen1 s.stats with unmatched := s.stats.unmatched + 1 } })
    ∨ (∃ row how s2,
        strStartsWithDot n = false ∧ s.fs.isFile (INPUT_DIR ++ [n]) = true
        ∧ find_best_row_for_filename n rows 2 (3 / 5) = (some row, how)
        ∧ (((s.fs.ensureDirs (targetOf row)).ex (targetOf row ++ [n]) = true
             ∧ s2 = { s with
                 fs := s.fs.ensureDirs (targetOf row),
                 stats := { seen1 s.stats with
                   skipped_existing_file := s.stats.skipped_existing_file + 1 } })
           ∨ ((s.fs.ensureDirs (targetOf row)).ex (targetOf row ++ [n]) = false
             ∧ isArchiveName n = true
             ∧ s2 = { s with
                 fs := extract_and_flatten_archive env (s.fs.ensureDirs (targetOf row))
                         (INPUT_DIR ++ [n]) (targetOf row),
                 stats := seen1 s.stats })
           ∨ (∃ r, (s.fs.ensureDirs (targetOf row)).ex (targetOf row ++ [n]) = false
             ∧ isArchiveName n = false
             ∧ safe_copy env (s.fs.ensureDirs (targetOf row)) (INPUT_DIR ++ [n])
                 (targetOf row) n = .ok r
             ∧ s2 = { s with fs := r.1, stats := seen1 s.stats }))
        ∧ s' = { convPass env s2 (targetOf row) with stats :=
            { (convPass env s2 (targetOf row)).stats with
              matched := (convPass env s2 (targetOf row)).stats.matched + 1 } }) := by
  simp only [orgStep] at h
  split at h
  · next hh =>
    cases h
    exact Or.inl ⟨hh, rfl⟩
  · next hh0 =>
    have hh : strStartsWithDot n = false := bool_eq_false hh0
    split at h
    · next hf0 =>
      have hf : s.fs.isFile (INPUT_DIR ++ [n]) = false := bnot_true hf0
      cases h
      exact Or.inr (Or.inl ⟨hh, hf, rfl⟩)
    · next hf0 =>
      have hf : s.fs.isFile (INPUT_DIR ++ [n]) = true := bnot_false hf0
      split at h
      · next =>
        rename Option Method => how
        rename (find_best_row_for_filename n rows _ _ = (none, how)) => hm
        cases h
        exact Or.inr (Or.inr (Or.inl ⟨hh, hf, by rw [hm], rfl⟩))
      · next =>
        rename Row => row
        rename Option Method => how
        rename (find_best_row_for_filename n rows _ _ = (some row, how)) => hm
        split at h
        · exact Except.noConfusion h
        · next s2 hpl =>
          cases h
          refine Or.inr (Or.inr (Or.inr ⟨row, how, s2, hh, hf, hm, ?_, rfl⟩))
          split at hpl
          · next hex =>
            cases hpl
            exact Or.inl ⟨hex, rfl⟩
          · next hex0 =>
            have hex : (s.fs.ensureDirs (targetOf row)).ex (targetOf row ++ [n]) = false :=
              bool_eq_false hex0
            split at hpl
            · next ha =>
              cases hpl
              exact Or.inr (Or.inl ⟨hex, ha, rfl⟩)
            · next ha0 =>
              have ha : isArchiveName n = false := bool_eq_false ha0
              split at hpl
              · exact Except.noConfusion hpl
              · next r hsc =>
                cases hpl
                exact Or.inr (Or.inr ⟨r, hex, ha, hsc, rfl⟩)


/-! ## Claim C10: statistics accounting -/

theorem convStep_stats (env : Env) (s : OrgSt) (p : Path) :
    (convStep env s p).stats.files_seen = s.stats.files_seen
    ∧ (convStep env s p).stats.matched = s.stats.matched
    ∧ (convStep env s p).stats.unmatched = s.stats.unmatched
    ∧ (convStep env s p).stats.skipped_existing_file
        = s.stats.skipped_existing_file := by
  unfold convStep
  split
  · split
    · exact ⟨rfl, rfl, rfl, rfl⟩
    · refine ⟨?_, ?_, ?_, ?_⟩ <;> (dsimp only; split <;> rfl)
  · exact ⟨rfl, rfl, rfl, rfl⟩

theorem foldl_convStep_stats (env : Env) :
    ∀ (l : List Path) (s : OrgSt),
      (l.foldl (convStep env) s).stats.files_seen = s.stats.files_seen
      ∧ (l.foldl (convStep env) s).stats.matched = s.stats.matched
      ∧ (l.foldl (convStep env) s).stats.unmatched = s.stats.unmatched
      ∧ (l.foldl (convStep env) s).stats.skipped_existing_file
          = s.stats.skipped_existing_file := by
  intro l
  induction l with
  | nil => intro s; exact ⟨rfl, rfl, rfl, rfl⟩
  | cons p t ih =>
    intro s
    rw [List.foldl_cons]
    obtain ⟨a1, a2, a3, a4⟩ := convStep_stats env s p
    obtain ⟨b1, b2, b3, b4⟩ := ih (convStep env s p)
    exact ⟨b1.trans a1, b2.trans a2, b3.trans a3, b4.trans a4⟩

theorem convPass_stats (env : Env) (s : OrgSt) (t : Path) :
    (convPass env s t).stats.files_seen = s.stats.files_seen
    ∧ (convPass env s t).stats.matched = s.stats.matched
    ∧ (convPass env s t).stats.unmatched = s.stats.unmatched
    ∧ (convPass env s t).stats.skipped_existing_file
        = s.stats.skipped_existing_file :=
  foldl_convStep_stats env _ s

theorem orgStep_stats (env : Env) (rows : List Row) (fs0 : FS) (s s' : OrgSt)
    (n : String) (h : orgStep env rows (.ok s) n = .ok s')
    (hInv : FrameO fs0 s.fs) :
    s'.stats.files_seen
        = s.stats.files_seen + (if strStartsWithDot n = true then 0 else 1)
    ∧ s'.stats.matched + s'.stats.unmatched
        = s.stats.matched + s.stats.unmatched
          + (if (!strStartsWithDot n && fs0.isFile (INPUT_DIR ++ [n])) = true
             then 1 else 0)
    ∧ s'.stats.matched
        = s.stats.matched
          + (if (!strStartsWithDot n && fs0.isFile (INPUT_DIR ++ [n])
              && (find_best_row_for_filename n rows 2 (3 / 5)).1.isSome) = true
             then 1 else 0) := by
  have hq : OUTPUT_DIR.isPrefixOf (INPUT_DIR ++ [n]) = false :=
    input_not_output _ (List.isPrefixOf_iff_prefix.mpr ⟨[n], rfl⟩)
  have hfeq : s.fs.isFile (INPUT_DIR ++ [n]) = fs0.isFile (INPUT_DIR ++ [n]) := by
    unfold FS.isFile
    rw [(hInv _ hq).1]
  rcases orgStep_cases env rows s s' n h with
    ⟨hh, rfl⟩ | ⟨hh, hf, rfl⟩ | ⟨hh, hf, hm, rfl⟩ |
    ⟨row, how, s2, hh, hf, hm, hplace, rfl⟩
  · refine ⟨?_, ?_, ?_⟩ <;> simp [hh]
  · rw [hfeq] at hf
    refine ⟨?_, ?_, ?_⟩ <;> simp [seen1, hh, hf]
  · rw [hfeq] at hf
    refine ⟨?_, ?_, ?_⟩ <;> (simp [seen1, hh, hf, hm] <;> omega)
  · rw [hfeq] at hf
    have hsome : (find_best_row_for_filename n rows 2 (3 / 5)).1.isSome = true := by
      rw [hm]
      rfl
    obtain ⟨c1, c2, c3, _⟩ := convPass_stats env s2 (targetOf row)
    have hst : s2.stats.files_seen = s.stats.files_seen + 1
        ∧ s2.stats.matched = s.stats.matched
        ∧ s2.stats.unmatched = s.stats.unmatched := by
      rcases hplace with ⟨_, rfl⟩ | ⟨_, _, rfl⟩ | ⟨r, _, _, _, rfl⟩ <;>
        exact ⟨rfl, rfl, rfl⟩
    refine ⟨?_, ?_, ?_⟩
    · show (convPass env s2 (targetOf row)).stats.files_seen = _
      rw [c1, hst.1]
      simp [hh]
    · show (convPass env s2 (targetOf row)).stats.matched + 1
          + (convPass env s2 (targetOf row)).stats.unmatched = _
      rw [c2, c3, hst.2.1, hst.2.2]
      simp [hh, hf]
      omega
    · show (convPass env s2 (targetOf row)).stats.matched + 1 = _
      rw [c2, hst.2.1]
      simp [hh, hf, hsome]


theorem foldl_orgStep_stats (env : Env) (rows : List Row) (fs0 : FS) :
    ∀ (names : List String) (s o : OrgSt),
      names.foldl (orgStep env rows) (.ok s) = .ok o →
      FrameO fs0 s.fs →
      o.stats.files_seen = s.stats.files_seen
          + (names.filter (fun n => !strStartsWithDot n)).length
      ∧ o.stats.matched + o.stats.unmatched
          = s.stats.matched + s.stats.unmatched
            + (names.filter (fun n =>
                !strStartsWithDot n && fs0.isFile (INPUT_DIR ++ [n]))).length
      ∧ o.stats.matched = s.stats.matched
          + (names.filter (fun n => !strStartsWithDot n
              && fs0.isFile (INPUT_DIR ++ [n])
              && (find_best_row_for_filename n rows 2 (3 / 5)).1.isSome)).length := by
  intro names
  induction names with
  | nil =>
    intro s o h0 _
    cases h0
    exact ⟨rfl, rfl, rfl⟩
  | cons n t ih =>
    intro s o h0 hInv
    rw [List.foldl_cons] at h0
    cases hs : orgStep env rows (.ok s) n with
    | error e =>
      rw [hs, foldl_orgStep_error] at h0
      exact Except.noConfusion h0
    | ok s2 =>
      rw [hs] at h0
      have hInv2 : FrameO fs0 s2.fs :=
        frameO_trans hInv (frameO_orgStep env rows s s2 n hs)
      obtain ⟨d1, d2, d3⟩ := orgStep_stats env rows fs0 s s2 n hs hInv
      obtain ⟨e1, e2, e3⟩ := ih s2 o h0 hInv2
      refine ⟨?_, ?_, ?_⟩
      · rw [e1, d1, List.filter_cons]
        by_cases hb : strStartsWithDot n = true
        · simp [hb]
        · have hb' := bool_eq_false hb
          simp [hb']
          omega
      · rw [e2, d2, List.filter_cons]
        by_cases hb : (!strStartsWithDot n && fs0.isFile (INPUT_DIR ++ [n])) = true
        · simp [hb]
          omega
        · have hb' := bool_eq_false hb
          simp [hb']
      · rw [e3, d3, List.filter_cons]
        by_cases hb : (!strStartsWithDot n && fs0.isFile (INPUT_DIR ++ [n])
            && (find_best_row_for_filename n rows 2 (3 / 5)).1.isSome) = true
        · simp [hb]
          omega
        · have hb' := bool_eq_false hb
          simp [hb']

/-- C10: after a successful run, `files_seen` counts every non-hidden
directory entry of the input directory (subdirectories included),
`matched + unmatched` counts exactly the non-hidden regular files there
(so `files_seen` can exceed it when non-regular entries exist), and
`matched` counts every non-hidden regular file the matcher resolves —
whether or not its placement was skipped because the destination already
existed. -/
theorem C10_stats_accounting (env : Env) (rows : List Row) (fs0 : FS) (o : OrgSt)
    (hrun : organize_and_convert env rows fs0 = .ok o) :
    o.stats.files_seen
        = (((fs0.ensureDirs OUTPUT_DIR).childNames INPUT_DIR).filter
            (fun n => !strStartsWithDot n)).length
    ∧ o.stats.matched + o.stats.unmatched
        = (((fs0.ensureDirs OUTPUT_DIR).childNames INPUT_DIR).filter
            (fun n => !strStartsWithDot n
              && fs0.isFile (INPUT_DIR ++ [n]))).length
    ∧ o.stats.matched
        = (((fs0.ensureDirs OUTPUT_DIR).childNames INPUT_DIR).filter
            (fun n => !strStartsWithDot n && fs0.isFile (INPUT_DIR ++ [n])
              && (find_best_row_for_filename n rows 2 (3 / 5)).1.isSome)).length := by
  rw [organize_and_convert] at hrun
  obtain ⟨e1, e2, e3⟩ := foldl_orgStep_stats env rows fs0
    ((fs0.ensureDirs OUTPUT_DIR).childNames INPUT_DIR)
    { fs := fs0.ensureDirs OUTPUT_DIR, stats := {}, calls := [] } o hrun
    (frameO_ensureDirs fs0 OUTPUT_DIR output_prefix_self)
  refine ⟨?_, ?_, ?_⟩
  · simpa using e1
  · simpa using e2
  · simpa using e3

/-- C10 witness: on an input holding a hidden file, a subdirectory and
one matched regular file already present at its destination, the run
reports `files_seen = 2`, `matched + unmatched = 1`, `matched = 1`
(with the placement skipped: `skipped_existing_file = 1`). -/
theorem C10_stats_accounting_witness :
    (match organize_and_convert envW rowsIn fsMix with
     | .ok o => o.stats.files_seen = 2 ∧ o.stats.matched + o.stats.unmatched = 1
         ∧ o.stats.matched = 1 ∧ o.stats.skipped_existing_file = 1
     | .error _ => False) := by
  cases h : organize_and_convert envW rowsIn fsMix with
  | error e =>
    have hk : exceptOk (organize_and_convert envW rowsIn fsMix) = true := by decide
    rw [h] at hk
    exact Bool.noConfusion hk
  | ok o =>
    obtain ⟨e1, e2, e3⟩ := C10_stats_accounting envW rowsIn fsMix o h
    have hs : (match organize_and_convert envW rowsIn fsMix with
        | .ok s => decide (s.stats.skipped_existing_file = 1)
        | .error _ => false) = true := by decide
    rw [h] at hs
    refine ⟨?_, ?_, ?_, of_decide_eq_true hs⟩
    · rw [e1]
      decide
    · rw [e2]
      decide
    · rw [e3]
      decide


/-! ## Claim C1: idempotence of archive-free runs -/

theorem lookup_append_some {α β : Type} [BEq α] [LawfulBEq α] (l F : List (α × β)) (q : α) (c : β)
    (h : l.lookup q = some c) : (l ++ F).lookup q = some c := by
  rw [List.lookup_append, h]
  rfl

theorem contains_append_mono (l D : List Path) (q : Path) (h : l.contains q = true) :
    (l ++ D).contains q = true := by
  have h2 : (l ++ D).contains q = (l.contains q || D.contains q) := by
    rw [Bool.eq_iff_iff]
    simp [List.elem_iff, List.mem_append]
  rw [h2, h]
  rfl

theorem ex_false_isFile (fs : FS) (q : Path) (h : fs.ex q = false) :
    fs.isFile q = false := by
  cases hb : fs.isFile q
  · rfl
  · rw [FS.ex, hb] at h
    simp at h

theorem isFile_false_lookup (fs : FS) (q : Path) (h : fs.isFile q = false) :
    fs.files.lookup q = none := by
  rw [FS.isFile] at h
  cases hl : fs.files.lookup q
  · rfl
  · rw [hl] at h
    exact Bool.noConfusion h

theorem extendsO_refl (fs : FS) : ExtendsO fs fs :=
  ⟨[], [], (List.append_nil _).symm, (List.append_nil _).symm,
    by intro e he; simp at he, by intro d hd; simp at hd⟩

theorem extendsO_trans {a b c : FS} (h1 : ExtendsO a b) (h2 : ExtendsO b c) :
    ExtendsO a c := by
  obtain ⟨F1, D1, hF1, hD1, hPF1, hPD1⟩ := h1
  obtain ⟨F2, D2, hF2, hD2, hPF2, hPD2⟩ := h2
  refine ⟨F1 ++ F2, D1 ++ D2, ?_, ?_, ?_, ?_⟩
  · rw [hF2, hF1, List.append_assoc]
  · rw [hD2, hD1, List.append_assoc]
  · intro e he
    rcases List.mem_append.mp he with h | h
    · exact hPF1 e h
    · exact hPF2 e h
  · intro d hd
    rcases List.mem_append.mp hd with h | h
    · exact hPD1 d h
    · exact hPD2 d h

theorem extendsO_isFile_mono {fs fs' : FS} (h : ExtendsO fs fs') (q : Path)
    (hq : fs.isFile q = true) : fs'.isFile q = true := by
  obtain ⟨F, D, hF, _, _, _⟩ := h
  rw [FS.isFile] at hq ⊢
  rw [hF]
  obtain ⟨c, hc⟩ := Option.isSome_iff_exists.mp hq
  rw [lookup_append_some _ _ _ _ hc]
  rfl

theorem extendsO_isDir_mono {fs fs' : FS} (h : ExtendsO fs fs') (q : Path)
    (hq : fs.isDir q = true) : fs'.isDir q = true := by
  obtain ⟨F, D, _, hD, _, _⟩ := h
  rw [FS.isDir] at hq ⊢
  rw [hD]
  exact contains_append_mono _ _ _ hq

theorem extendsO_ex_mono {fs fs' : FS} (h : ExtendsO fs fs') (q : Path)
    (hq : fs.ex q = true) : fs'.ex q = true := by
  rw [FS.ex, Bool.or_eq_true] at hq ⊢
  cases hq with
  | inl hf => exact Or.inl (extendsO_isFile_mono h q hf)
  | inr hd => exact Or.inr (extendsO_isDir_mono h q hd)

theorem settled_mono {env : Env} {fs fs' : FS} (h : ExtendsO fs fs') (p : Path)
    (hs : Settled env fs p) : Settled env fs' p := by
  rcases hs with he | hl | hc
  · exact Or.inl (extendsO_ex_mono h _ he)
  · exact Or.inr (Or.inl hl)
  · exact Or.inr (Or.inr hc)

theorem setFile_absent (fs : FS) (p : Path) (c : Content)
    (h : fs.files.lookup p = none) :
    (fs.setFile p c).files = fs.files ++ [(p, c)] := by
  rw [FS.setFile, if_neg]
  rw [h]
  simp

theorem extendsO_setFile_absent (fs : FS) (p : Path) (c : Content)
    (h : fs.files.lookup p = none) (hp : OUTPUT_DIR.isPrefixOf p = true) :
    ExtendsO fs (fs.setFile p c) := by
  refine ⟨[(p, c)], [], setFile_absent fs p c h, ?_, ?_, ?_⟩
  · rw [setFile_dirs]
    exact (List.append_nil _).symm
  · intro e he
    rw [List.mem_singleton] at he
    rw [he]
    exact hp
  · intro d hd
    simp at hd

theorem extendsO_addDir (fs : FS) (d : Path) (hd : OUTPUT_DIR.isPrefixOf d = true) :
    ExtendsO fs (fs.addDir d) := by
  rw [FS.addDir]
  split
  · exact extendsO_refl fs
  · refine ⟨[], [d], (List.append_nil _).symm, rfl, ?_, ?_⟩
    · intro e he
      simp at he
    · intro q hq
      rw [List.mem_singleton] at hq
      rw [hq]
      exact hd

theorem extendsO_foldl_addDir (L : List Path)
    (hL : ∀ d ∈ L, OUTPUT_DIR.isPrefixOf d = true) :
    ∀ fs : FS, ExtendsO fs (L.foldl FS.addDir fs) := by
  induction L with
  | nil => intro fs; exact extendsO_refl fs
  | cons d t ih =>
    intro fs
    rw [List.foldl_cons]
    exact extendsO_trans (extendsO_addDir fs d (hL d (List.mem_cons_self d t)))
      (ih (fun q hq => hL q (List.mem_cons_of_mem d hq)) (fs.addDir d))

theorem extendsO_ensureDirs (fs : FS) (p : Path)
    (h : OUTPUT_DIR.isPrefixOf p = true) : ExtendsO fs (fs.ensureDirs p) := by
  rw [FS.ensureDirs]
  apply extendsO_foldl_addDir
  intro d hd
  rw [prefixesOf] at hd
  rcases List.mem_map.mp hd with ⟨i, _, rfl⟩
  exact inside_take p i h

theorem extendsO_safe_copy (env : Env) (fs fs' : FS) (src dstDir : Path)
    (dstName : String) (w : Path) (hD : OUTPUT_DIR.isPrefixOf dstDir = true)
    (h : safe_copy env fs src dstDir dstName = .ok (fs', w)) : ExtendsO fs fs' := by
  obtain ⟨hfree, hset, _, hplain, hprobe⟩ := safe_copy_spec env fs src dstDir dstName fs' w h
  have hw : OUTPUT_DIR.isPrefixOf w = true := by
    by_cases hdst : fs.ex (dstDir ++ [dstName]) = true
    · obtain ⟨i, _, hwi, _⟩ := hprobe hdst
      rw [hwi]
      exact inside_append _ _ hD
    · rw [hplain (bool_eq_false hdst)]
      exact inside_append _ _ hD
  rw [hset]
  exact extendsO_setFile_absent fs w _ (isFile_false_lookup fs w (ex_false_isFile fs w hfree)) hw

theorem convStep_fs (env : Env) (s : OrgSt) (p : Path) :
    (convStep env s p).fs = s.fs
    ∨ (isDocxName (p.getLastD "") = true
       ∧ s.fs.ex (pdfSibling p) = false
       ∧ env.libreoffice = true ∧ env.convertOk p = true
       ∧ (convStep env s p).fs
           = s.fs.setFile (pdfSibling p) (env.pdfContent (s.fs.content p))) := by
  by_cases h1 : isDocxName (p.getLastD "") = true
  · by_cases h2 : s.fs.ex (pdfSibling p) = true
    · left
      rw [convStep, if_pos h1, if_pos h2]
    · have h2' : s.fs.ex (pdfSibling p) = false := bool_eq_false h2
      by_cases h3 : env.libreoffice = true
      · by_cases h4 : env.convertOk p = true
        · right
          refine ⟨h1, h2', h3, h4, ?_⟩
          rw [convStep, if_pos h1, if_neg h2]
          dsimp only
          rw [libreoffice_convert, if_neg (by rw [h3]; simp), if_pos h4]
          rfl
        · left
          rw [convStep, if_pos h1, if_neg h2]
          dsimp only
          rw [libreoffice_convert, if_neg (by rw [h3]; simp),
            if_neg (fun hc => h4 hc)]
      · left
        have h3' : env.libreoffice = false := bool_eq_false h3
        rw [convStep, if_pos h1, if_neg h2]
        dsimp only
        rw [libreoffice_convert, if_pos (by rw [h3']; rfl)]
  · left
    rw [convStep, if_neg h1]

theorem convStep_dirs (env : Env) (s : OrgSt) (p : Path) :
    (convStep env s p).fs.dirs = s.fs.dirs := by
  rcases convStep_fs env s p with h | ⟨_, _, _, _, h⟩
  · rw [h]
  · rw [h, setFile_dirs]

theorem extendsO_convStep (env : Env) (s : OrgSt) (p : Path)
    (hpdf : OUTPUT_DIR.isPrefixOf (pdfSibling p) = true) :
    ExtendsO s.fs (convStep env s p).fs := by
  rcases convStep_fs env s p with h | ⟨_, hex, _, _, h⟩
  · rw [h]
    exact extendsO_refl _
  · rw [h]
    exact extendsO_setFile_absent _ _ _
      (isFile_false_lookup _ _ (ex_false_isFile _ _ hex)) hpdf

theorem extendsO_foldl_convStep (env : Env) :
    ∀ (l : List Path) (s : OrgSt),
      (∀ p ∈ l, OUTPUT_DIR.isPrefixOf (pdfSibling p) = true) →
      ExtendsO s.fs ((l.foldl (convStep env) s)).fs := by
  intro l
  induction l with
  | nil => intro s _; exact extendsO_refl _
  | cons p t ih =>
    intro s hl
    rw [List.foldl_cons]
    exact extendsO_trans
      (extendsO_convStep env s p (hl p (List.mem_cons_self p t)))
      (ih (convStep env s p) (fun q hq => hl q (List.mem_cons_of_mem p hq)))

theorem extendsO_convPass (env : Env) (s : OrgSt) (T : Path)
    (hT : OUTPUT_DIR.isPrefixOf T = true) : ExtendsO s.fs (convPass env s T).fs := by
  rw [convPass]
  apply extendsO_foldl_convStep
  intro p hp
  rw [FS.subtreeFiles] at hp
  exact inside_pdfSibling T p hT (List.mem_filter.mp hp).2

theorem extendsO_orgStep (env : Env) (rows : List Row) (s s' : OrgSt) (n : String)
    (hna : isArchiveName n = false)
    (h : orgStep env rows (.ok s) n = .ok s') : ExtendsO s.fs s'.fs := by
  rcases orgStep_cases env rows s s' n h with
    ⟨_, rfl⟩ | ⟨_, _, rfl⟩ | ⟨_, _, _, rfl⟩ |
    ⟨row, how, s2, _, _, _, hplace, rfl⟩
  · exact extendsO_refl _
  · exact extendsO_refl _
  · exact extendsO_refl _
  · have hT : OUTPUT_DIR.isPrefixOf (targetOf row) = true := inside_target _
    refine extendsO_trans ?_ (extendsO_convPass env s2 (targetOf row) hT)
    rcases hplace with ⟨_, rfl⟩ | ⟨_, ha, _⟩ | ⟨r, _, _, hsc, rfl⟩
    · exact extendsO_ensureDirs s.fs (targetOf row) hT
    · rw [ha] at hna
      exact Bool.noConfusion hna
    · exact extendsO_trans (extendsO_ensureDirs s.fs (targetOf row) hT)
        (extendsO_safe_copy env _ r.1 _ _ n r.2 hT (by exact hsc))


theorem prefix_append_list (T l : Path) : T.isPrefixOf (T ++ l) = true :=
  List.isPrefixOf_iff_prefix.mpr (List.prefix_append T l)

theorem isDocxName_append_pdf (y : String) : isDocxName (y ++ ".pdf") = false := by
  rw [isDocxName, strEndsWith]
  cases hb : List.isSuffixOf ".docx".data (strLower (y ++ ".pdf")).data
  · rfl
  · exfalso
    rw [List.isSuffixOf_iff_suffix] at hb
    have hdata : (strLower (y ++ ".pdf")).data
        = y.data.map Char.toLower ++ ".pdf".data := by
      show ((y ++ ".pdf").data.map Char.toLower) = _
      rw [String.data_append, List.map_append]
      rfl
    rw [hdata] at hb
    have hpdf : ".pdf".data <:+ y.data.map Char.toLower ++ ".pdf".data :=
      List.suffix_append _ _
    have hs : ".pdf".data <:+ ".docx".data :=
      List.suffix_of_suffix_length_le hpdf hb (by decide)
    exact absurd hs (by decide)

theorem prefix_pdfSibling (T p : Path) (hp : strictUnder T p = true) :
    T.isPrefixOf (pdfSibling p) = true := by
  rw [strictUnder, Bool.and_eq_true] at hp
  obtain ⟨hpre, hlen⟩ := hp
  rw [List.isPrefixOf_iff_prefix] at hpre
  obtain ⟨r, rfl⟩ := hpre
  have hr : r ≠ [] := by
    intro h0
    rw [h0] at hlen
    simp at hlen
  rw [pdfSibling, List.dropLast_append_of_ne_nil _ hr, List.append_assoc]
  exact prefix_append_list T _

theorem sibling_not_prefix (x y : String) (p : Path) (hxy : y ≠ x)
    (hp : (OUTPUT_DIR ++ [x]).isPrefixOf p = true) :
    (OUTPUT_DIR ++ [y]).isPrefixOf p = false := by
  rw [List.isPrefixOf_iff_prefix] at hp
  obtain ⟨t, rfl⟩ := hp
  cases hb : (OUTPUT_DIR ++ [y]).isPrefixOf (OUTPUT_DIR ++ [x] ++ t)
  · rfl
  · exfalso
    rw [List.isPrefixOf_iff_prefix] at hb
    obtain ⟨r, hr⟩ := hb
    have hyx : y = x := by
      have h1 := congrArg (fun l => l[1]?) hr
      simpa [OUTPUT_DIR] using h1
    exact absurd hyx hxy

theorem ex_append_mono (fs fs' : FS) (F : List (Path × Content)) (D : List Path)
    (hF : fs'.files = fs.files ++ F) (hD : fs'.dirs = fs.dirs ++ D) (q : Path)
    (hq : fs.ex q = true) : fs'.ex q = true := by
  rw [FS.ex, Bool.or_eq_true] at hq ⊢
  cases hq with
  | inl hf =>
    left
    rw [FS.isFile] at hf ⊢
    rw [hF]
    obtain ⟨c, hc⟩ := Option.isSome_iff_exists.mp hf
    rw [lookup_append_some _ _ _ _ hc]
    rfl
  | inr hd =>
    right
    rw [FS.isDir] at hd ⊢
    rw [hD]
    exact contains_append_mono _ _ _ hd

theorem settled_append_mono (env : Env) (fs fs' : FS) (F : List (Path × Content))
    (D : List Path) (hF : fs'.files = fs.files ++ F) (hD : fs'.dirs = fs.dirs ++ D)
    (p : Path) (hs : Settled env fs p) : Settled env fs' p := by
  rcases hs with he | hl | hc
  · exact Or.inl (ex_append_mono fs fs' F D hF hD _ he)
  · exact Or.inr (Or.inl hl)
  · exact Or.inr (Or.inr hc)

theorem addDir_contains_self (fs : FS) (d : Path) : (fs.addDir d).isDir d = true := by
  rw [FS.addDir]
  split
  · next h => exact h
  · show (fs.dirs ++ [d]).contains d = true
    rw [Bool.eq_iff_iff]
    simp [List.elem_iff]

theorem addDir_contains_mono (fs : FS) (d q : Path) (h : fs.isDir q = true) :
    (fs.addDir d).isDir q = true := by
  rw [FS.addDir]
  split
  · exact h
  · show (fs.dirs ++ [d]).contains q = true
    exact contains_append_mono _ _ _ h

theorem foldl_addDir_contains_mono (L : List Path) :
    ∀ (fs : FS) (q : Path), fs.isDir q = true →
      (L.foldl FS.addDir fs).isDir q = true := by
  induction L with
  | nil => intro fs q h; exact h
  | cons d t ih =>
    intro fs q h
    rw [List.foldl_cons]
    exact ih _ _ (addDir_contains_mono fs d q h)

theorem foldl_addDir_contains_all (L : List Path) :
    ∀ (fs : FS) (d : Path), d ∈ L → (L.foldl FS.addDir fs).isDir d = true := by
  induction L with
  | nil => intro fs d h; simp at h
  | cons a t ih =>
    intro fs d h
    rw [List.foldl_cons]
    rcases List.mem_cons.mp h with rfl | h2
    · exact foldl_addDir_contains_mono t _ _ (addDir_contains_self fs d)
    · exact ih _ _ h2

theorem ensureDirs_contains (fs : FS) (T : Path) :
    ∀ d ∈ prefixesOf T, (fs.ensureDirs T).isDir d = true := by
  intro d hd
  rw [FS.ensureDirs]
  exact foldl_addDir_contains_all _ fs d hd

theorem foldl_addDir_id (L : List Path) :
    ∀ fs : FS, (∀ d ∈ L, fs.isDir d = true) → L.foldl FS.addDir fs = fs := by
  induction L with
  | nil => intro fs _; rfl
  | cons a t ih =>
    intro fs h
    rw [List.foldl_cons, FS.addDir,
      if_pos (show fs.dirs.contains a = true from h a (List.mem_cons_self a t))]
    exact ih fs (fun d hd => h d (List.mem_cons_of_mem a hd))

theorem ensureDirs_id (fs : FS) (T : Path)
    (h : ∀ d ∈ prefixesOf T, fs.isDir d = true) : fs.ensureDirs T = fs :=
  foldl_addDir_id _ fs h

theorem foldl_addDir_files (L : List Path) :
    ∀ fs : FS, (L.foldl FS.addDir fs).files = fs.files := by
  induction L with
  | nil => intro fs; rfl
  | cons a t ih =>
    intro fs
    rw [List.foldl_cons, ih, addDir_files]

theorem ensureDirs_files (fs : FS) (T : Path) : (fs.ensureDirs T).files = fs.files :=
  foldl_addDir_files _ fs

theorem ex_setFile_self (fs : FS) (p : Path) (c : Content) :
    (fs.setFile p c).ex p = true := by
  rw [FS.ex, FS.isFile, lookup_setFile_self]
  rfl

theorem subtreeFiles_append (fs fs' : FS) (F : List (Path × Content)) (T : Path)
    (h : fs'.files = fs.files ++ F) :
    fs'.subtreeFiles T = fs.subtreeFiles T ++ (F.map Prod.fst).filter (strictUnder T) := by
  rw [FS.subtreeFiles, FS.subtreeFiles, h, List.map_append, List.filter_append]

theorem tdone_mono_other (env : Env) (fs fs' : FS) (T : Path)
    (F : List (Path × Content)) (D : List Path)
    (hF : fs'.files = fs.files ++ F) (hD : fs'.dirs = fs.dirs ++ D)
    (hloc : ∀ e ∈ F, strictUnder T e.1 = false)
    (h : TDone env fs T) : TDone env fs' T := by
  intro p hp hdocx
  rw [subtreeFiles_append fs fs' F T hF] at hp
  rcases List.mem_append.mp hp with h1 | h1
  · exact settled_append_mono env fs fs' F D hF hD p (h p h1 hdocx)
  · exfalso
    have h2 := List.mem_filter.mp h1
    rcases List.mem_map.mp h2.1 with ⟨e, heF, rfl⟩
    rw [hloc e heF] at h2
    exact Bool.noConfusion h2.2

theorem convStep_settled_self (env : Env) (s : OrgSt) (p : Path)
    (hdx : isDocxName (p.getLastD "") = true) :
    Settled env (convStep env s p).fs p := by
  by_cases h2 : s.fs.ex (pdfSibling p) = true
  · left
    rw [convStep, if_pos hdx, if_pos h2]
    exact h2
  · by_cases h3 : env.libreoffice = true
    · by_cases h4 : env.convertOk p = true
      · left
        rw [convStep, if_pos hdx, if_neg h2]
        dsimp only
        rw [libreoffice_convert, if_neg (by rw [h3]; simp), if_pos h4]
        show (s.fs.setFile (pdfSibling p) _).ex (pdfSibling p) = true
        exact ex_setFile_self _ _ _
      · exact Or.inr (Or.inr (bool_eq_false h4))
    · exact Or.inr (Or.inl (bool_eq_false h3))

theorem conv_fold_tdone (env : Env) (T : Path) :
    ∀ (l : List Path) (s : OrgSt),
      (∀ p ∈ l, strictUnder T p = true) →
      (∀ p ∈ s.fs.subtreeFiles T, isDocxName (p.getLastD "") = true →
          Settled env s.fs p ∨ p ∈ l) →
      TDone env ((l.foldl (convStep env) s)).fs T := by
  intro l
  induction l with
  | nil =>
    intro s _ hinv
    intro p hp hdocx
    rcases hinv p hp hdocx with h | h
    · exact h
    · simp at h
  | cons p0 t ih =>
    intro s hl hinv
    rw [List.foldl_cons]
    apply ih (convStep env s p0) (fun q hq => hl q (List.mem_cons_of_mem p0 hq))
    intro q hq hdocx
    rcases convStep_fs env s p0 with hfs | ⟨hdx0, hex0, _, _, hfs⟩
    · rw [hfs] at hq
      rcases hinv q hq hdocx with hS | hmem
      · left
        rw [hfs]
        exact hS
      · rcases List.mem_cons.mp hmem with rfl | hmem2
        · exact Or.inl (convStep_settled_self env s q hdocx)
        · exact Or.inr hmem2
    · have habs : s.fs.files.lookup (pdfSibling p0) = none :=
        isFile_false_lookup _ _ (ex_false_isFile _ _ hex0)
      have hFq : (convStep env s p0).fs.files
          = s.fs.files ++ [(pdfSibling p0, env.pdfContent (s.fs.content p0))] := by
        rw [hfs]
        exact setFile_absent _ _ _ habs
      rw [subtreeFiles_append s.fs _ _ T hFq] at hq
      rcases List.mem_append.mp hq with h1 | h1
      · rcases hinv q h1 hdocx with hS | hmem
        · left
          exact settled_append_mono env s.fs _ _ [] hFq (by rw [hfs, setFile_dirs]; exact (List.append_nil _).symm) q hS
        · rcases List.mem_cons.mp hmem with rfl | hmem2
          · exact Or.inl (convStep_settled_self env s q hdocx)
          · exact Or.inr hmem2
      · exfalso
        have h2 := List.mem_filter.mp h1
        have h3 : q = pdfSibling p0 := by
          have := h2.1
          simp at this
          exact this
        rw [h3] at hdocx
        rw [pdfSibling, List.getLastD_concat] at hdocx
        rw [isDocxName_append_pdf] at hdocx
        exact Bool.noConfusion hdocx

theorem tdone_convPass (env : Env) (s : OrgSt) (T : Path) :
    TDone env (convPass env s T).fs T := by
  rw [convPass]
  apply conv_fold_tdone
  · intro p hp
    rw [FS.subtreeFiles] at hp
    exact (List.mem_filter.mp hp).2
  · intro p hp _
    exact Or.inr hp

theorem conv_fold_files_under (env : Env) (T : Path) :
    ∀ (l : List Path) (s : OrgSt), (∀ p ∈ l, strictUnder T p = true) →
      ∃ F, ((l.foldl (convStep env) s)).fs.files = s.fs.files ++ F
        ∧ ∀ e ∈ F, T.isPrefixOf e.1 = true := by
  intro l
  induction l with
  | nil =>
    intro s _
    exact ⟨[], (List.append_nil _).symm, by intro e he; simp at he⟩
  | cons p0 t ih =>
    intro s hl
    rw [List.foldl_cons]
    obtain ⟨F2, hF2, hP2⟩ := ih (convStep env s p0)
      (fun q hq => hl q (List.mem_cons_of_mem p0 hq))
    rcases convStep_fs env s p0 with hfs | ⟨_, hex0, _, _, hfs⟩
    · refine ⟨F2, ?_, hP2⟩
      rw [hF2, hfs]
    · have habs : s.fs.files.lookup (pdfSibling p0) = none :=
        isFile_false_lookup _ _ (ex_false_isFile _ _ hex0)
      refine ⟨(pdfSibling p0, env.pdfContent (s.fs.content p0)) :: F2, ?_, ?_⟩
      · rw [hF2, hfs, setFile_absent _ _ _ habs, List.append_assoc]
        rfl
      · intro e he
        rcases List.mem_cons.mp he with rfl | he2
        · exact prefix_pdfSibling T p0 (hl p0 (List.mem_cons_self p0 t))
        · exact hP2 e he2

theorem convPass_files_under (env : Env) (s : OrgSt) (T : Path) :
    ∃ F, (convPass env s T).fs.files = s.fs.files ++ F
      ∧ ∀ e ∈ F, T.isPrefixOf e.1 = true := by
  rw [convPass]
  apply conv_fold_files_under
  intro p hp
  rw [FS.subtreeFiles] at hp
  exact (List.mem_filter.mp hp).2

theorem foldl_convStep_dirs (env : Env) :
    ∀ (l : List Path) (s : OrgSt), ((l.foldl (convStep env) s)).fs.dirs = s.fs.dirs := by
  intro l
  induction l with
  | nil => intro s; rfl
  | cons p t ih =>
    intro s
    rw [List.foldl_cons, ih, convStep_dirs]

theorem convPass_dirs (env : Env) (s : OrgSt) (T : Path) :
    (convPass env s T).fs.dirs = s.fs.dirs :=
  foldl_convStep_dirs env _ s


theorem addDir_dirs_append (fs : FS) (d : Path) :
    ∃ D, (fs.addDir d).dirs = fs.dirs ++ D := by
  rw [FS.addDir]
  split
  · exact ⟨[], (List.append_nil _).symm⟩
  · exact ⟨[d], rfl⟩

theorem foldl_addDir_dirs_append (L : List Path) :
    ∀ fs : FS, ∃ D, (L.foldl FS.addDir fs).dirs = fs.dirs ++ D := by
  induction L with
  | nil => intro fs; exact ⟨[], (List.append_nil _).symm⟩
  | cons a t ih =>
    intro fs
    obtain ⟨D1, h1⟩ := addDir_dirs_append fs a
    obtain ⟨D2, h2⟩ := ih (fs.addDir a)
    exact ⟨D1 ++ D2, by rw [List.foldl_cons, h2, h1, List.append_assoc]⟩

theorem ensureDirs_dirs_append (fs : FS) (T : Path) :
    ∃ D, (fs.ensureDirs T).dirs = fs.dirs ++ D :=
  foldl_addDir_dirs_append _ fs

theorem target_eq_iff (row : Row) (x : String) :
    targetOf row = OUTPUT_DIR ++ [x] ↔ folderNameOf row = x := by
  rw [targetOf]
  constructor
  · intro h
    have := List.append_inj_right h rfl
    simpa using this
  · intro h
    rw [h]


theorem orgStep_tdone (env : Env) (rows : List Row) (s s' : OrgSt) (n x : String)
    (hna : isArchiveName n = false)
    (h : orgStep env rows (.ok s) n = .ok s')
    (hT : TDone env s.fs (OUTPUT_DIR ++ [x])) :
    TDone env s'.fs (OUTPUT_DIR ++ [x]) := by
  rcases orgStep_cases env rows s s' n h with
    ⟨_, rfl⟩ | ⟨_, _, rfl⟩ | ⟨_, _, _, rfl⟩ |
    ⟨row, how, s2, _, _, hm, hplace, rfl⟩
  · exact hT
  · exact hT
  · exact hT
  · by_cases heq : folderNameOf row = x
    · have hTeq : targetOf row = OUTPUT_DIR ++ [x] := (target_eq_iff row x).mpr heq
      rw [← hTeq]
      exact tdone_convPass env s2 (targetOf row)
    · have hloc2 : ∃ F D, s2.fs.files = s.fs.files ++ F
          ∧ s2.fs.dirs = s.fs.dirs ++ D
          ∧ ∀ e ∈ F, (targetOf row).isPrefixOf e.1 = true := by
        rcases hplace with ⟨_, rfl⟩ | ⟨_, ha, _⟩ | ⟨r, hex, _, hsc, rfl⟩
        · obtain ⟨D, hD⟩ := ensureDirs_dirs_append s.fs (targetOf row)
          refine ⟨[], D, ?_, ?_, ?_⟩
          · show (s.fs.ensureDirs (targetOf row)).files = s.fs.files ++ []
            rw [ensureDirs_files]
            exact (List.append_nil _).symm
          · show (s.fs.ensureDirs (targetOf row)).dirs = s.fs.dirs ++ D
            exact hD
          · intro e he
            simp at he
        · rw [ha] at hna
          exact Bool.noConfusion hna
        · obtain ⟨hfree, hset, _, hplain, hprobe⟩ := safe_copy_spec env
            (s.fs.ensureDirs (targetOf row)) (INPUT_DIR ++ [n]) (targetOf row) n r.1 r.2
            (by exact hsc)
          have hw : (targetOf row).isPrefixOf r.2 = true := by
            by_cases hdst : (s.fs.ensureDirs (targetOf row)).ex (targetOf row ++ [n]) = true
            · obtain ⟨i, _, hwi, _⟩ := hprobe hdst
              rw [hwi]
              exact prefix_append_list _ _
            · rw [hplain (bool_eq_false hdst)]
              exact prefix_append_list _ _
          obtain ⟨D, hD⟩ := ensureDirs_dirs_append s.fs (targetOf row)
          have habs : (s.fs.ensureDirs (targetOf row)).files.lookup r.2 = none :=
            isFile_false_lookup _ _ (ex_false_isFile _ _ hfree)
          refine ⟨[(r.2, (s.fs.ensureDirs (targetOf row)).content (INPUT_DIR ++ [n]))],
            D, ?_, ?_, ?_⟩
          · show r.1.files = _
            rw [hset, setFile_absent _ _ _ habs, ensureDirs_files]
          · show r.1.dirs = s.fs.dirs ++ D
            rw [hset, setFile_dirs]
            exact hD
          · intro e he
            rw [List.mem_singleton] at he
            rw [he]
            exact hw
      obtain ⟨F, D, hF, hD, hPF⟩ := hloc2
      obtain ⟨F2, hF2, hPF2⟩ := convPass_files_under env s2 (targetOf row)
      have hxne : x ≠ folderNameOf row := fun hc => heq hc.symm
      apply tdone_mono_other env s.fs _ (OUTPUT_DIR ++ [x]) (F ++ F2) D
      · show (convPass env s2 (targetOf row)).fs.files = s.fs.files ++ (F ++ F2)
        rw [hF2, hF, List.append_assoc]
      · show (convPass env s2 (targetOf row)).fs.dirs = s.fs.dirs ++ D
        rw [convPass_dirs]
        exact hD
      · intro e he
        have hpe : (targetOf row).isPrefixOf e.1 = true := by
          rcases List.mem_append.mp he with h1 | h1
          · exact hPF e h1
          · exact hPF2 e h1
        have hnp : (OUTPUT_DIR ++ [x]).isPrefixOf e.1 = false :=
          sibling_not_prefix (folderNameOf row) x e.1 hxne hpe
        rw [strictUnder, hnp]
        rfl
      · exact hT

theorem foldl_orgStep_tdone (env : Env) (rows : List Row) (x : String) :
    ∀ (names : List String) (s o : OrgSt),
      (∀ n ∈ names, isArchiveName n = false) →
      names.foldl (orgStep env rows) (.ok s) = .ok o →
      TDone env s.fs (OUTPUT_DIR ++ [x]) → TDone env o.fs (OUTPUT_DIR ++ [x]) := by
  intro names
  induction names with
  | nil =>
    intro s o _ h0 hT
    cases h0
    exact hT
  | cons n t ih =>
    intro s o hna h0 hT
    rw [List.foldl_cons] at h0
    cases hs : orgStep env rows (.ok s) n with
    | error e =>
      rw [hs, foldl_orgStep_error] at h0
      exact Except.noConfusion h0
    | ok s2 =>
      rw [hs] at h0
      exact ih s2 o (fun m hm2 => hna m (List.mem_cons_of_mem n hm2)) h0
        (orgStep_tdone env rows s s2 n x (hna n (List.mem_cons_self n t)) hs hT)


theorem foldl_orgStep_entrydone (env : Env) (rows : List Row) :
    ∀ (names : List String) (s o : OrgSt),
      (∀ n ∈ names, isArchiveName n = false) →
      names.foldl (orgStep env rows) (.ok s) = .ok o →
      ExtendsO s.fs o.fs ∧ ∀ n ∈ names, EntryDone env rows o.fs n := by
  intro names
  induction names with
  | nil =>
    intro s o _ h0
    cases h0
    exact ⟨extendsO_refl _, by intro n hn; simp at hn⟩
  | cons n t ih =>
    intro s o hna h0
    rw [List.foldl_cons] at h0
    cases hs : orgStep env rows (.ok s) n with
    | error e =>
      rw [hs, foldl_orgStep_error] at h0
      exact Except.noConfusion h0
    | ok s2 =>
      rw [hs] at h0
      have hnaH : isArchiveName n = false := hna n (List.mem_cons_self n t)
      have hnaT : ∀ m ∈ t, isArchiveName m = false :=
        fun m hm => hna m (List.mem_cons_of_mem n hm)
      obtain ⟨hext, hall⟩ := ih s2 o hnaT h0
      have hstep : ExtendsO s.fs s2.fs := extendsO_orgStep env rows s s2 n hnaH hs
      refine ⟨extendsO_trans hstep hext, ?_⟩
      intro m hm
      rcases List.mem_cons.mp hm with rfl | hm2
      · intro hh hf row how hmrow
        have hfr : FrameO s2.fs o.fs := frameO_fold env rows t s2 o h0
        have hq : OUTPUT_DIR.isPrefixOf (INPUT_DIR ++ [m]) = false :=
          input_not_output _ (List.isPrefixOf_iff_prefix.mpr ⟨[m], rfl⟩)
        have hfr1 : FrameO s.fs s2.fs := frameO_orgStep env rows s s2 m hs
        have hfS : s.fs.isFile (INPUT_DIR ++ [m]) = true := by
          rw [FS.isFile, ← (hfr1 _ hq).1, ← (hfr _ hq).1]
          exact hf
        rcases orgStep_cases env rows s s2 m hs with
          ⟨hh', _⟩ | ⟨_, hf', _⟩ | ⟨_, _, hm', _⟩ |
          ⟨row', how', sp, _, _, hm', hplace, rfl⟩
        · rw [hh'] at hh
          exact Bool.noConfusion hh
        · rw [hfS] at hf'
          exact Bool.noConfusion hf'
        · rw [hmrow] at hm'
          simp at hm'
        · have hrq : (some row', how') = (some row, how) := hm'.symm.trans hmrow
          have hrow : row' = row := Option.some.inj (congrArg Prod.fst hrq)
          subst hrow
          have hAB : sp.fs.ex (targetOf row' ++ [m]) = true
              ∧ ∀ d ∈ prefixesOf (targetOf row'), sp.fs.isDir d = true := by
            rcases hplace with ⟨hexT, rfl⟩ | ⟨_, ha, _⟩ | ⟨r, hexT, _, hsc, rfl⟩
            · constructor
              · exact hexT
              · intro d hd
                exact ensureDirs_contains s.fs _ d hd
            · rw [ha] at hnaH
              exact Bool.noConfusion hnaH
            · obtain ⟨hfree, hset, _, hplain, _⟩ := safe_copy_spec env
                (s.fs.ensureDirs (targetOf row')) (INPUT_DIR ++ [m]) (targetOf row') m
                r.1 r.2 (by exact hsc)
              have hwdest := hplain hexT
              constructor
              · show r.1.ex (targetOf row' ++ [m]) = true
                rw [hset, hwdest]
                exact ex_setFile_self _ _ _
              · intro d hd
                show r.1.isDir d = true
                rw [FS.isDir, hset, setFile_dirs]
                exact ensureDirs_contains s.fs _ d hd
          have hextCP : ExtendsO sp.fs (convPass env sp (targetOf row')).fs :=
            extendsO_convPass env sp _ (inside_target _)
          refine ⟨?_, ?_, ?_⟩
          · exact extendsO_ex_mono hext _ (extendsO_ex_mono hextCP _ hAB.1)
          · intro d hd
            apply extendsO_isDir_mono hext
            show (convPass env sp (targetOf row')).fs.isDir d = true
            rw [FS.isDir, convPass_dirs]
            exact hAB.2 d hd
          · exact foldl_orgStep_tdone env rows (folderNameOf row') t _ o hnaT h0
              (tdone_convPass env sp (targetOf row'))
      · exact hall m hm2


theorem convStep_noop (env : Env) (s : OrgSt) (p : Path)
    (hset : isDocxName (p.getLastD "") = true → Settled env s.fs p) :
    (convStep env s p).fs = s.fs
    ∧ (convStep env s p).stats.converted = s.stats.converted := by
  by_cases hdx : isDocxName (p.getLastD "") = true
  · by_cases hex2 : s.fs.ex (pdfSibling p) = true
    · rw [convStep, if_pos hdx, if_pos hex2]
      exact ⟨rfl, rfl⟩
    · rcases hset hdx with hex | hlib | hok
      · exact absurd hex hex2
      · rw [convStep, if_pos hdx, if_neg hex2]
        dsimp only
        rw [libreoffice_convert, if_pos (by rw [hlib]; rfl)]
        exact ⟨rfl, rfl⟩
      · rw [convStep, if_pos hdx, if_neg hex2]
        dsimp only
        rw [libreoffice_convert]
        by_cases hlib2 : env.libreoffice = true
        · rw [if_neg (by rw [hlib2]; simp),
            if_neg (fun hc => by rw [hok] at hc; exact Bool.noConfusion hc)]
          exact ⟨rfl, rfl⟩
        · rw [if_pos (by rw [bool_eq_false hlib2]; rfl)]
          exact ⟨rfl, rfl⟩
  · rw [convStep, if_neg hdx]
    exact ⟨rfl, rfl⟩

theorem foldl_convStep_noop (env : Env) (fs0 : FS) :
    ∀ (l : List Path) (s : OrgSt), s.fs = fs0 →
      (∀ p ∈ l, isDocxName (p.getLastD "") = true → Settled env fs0 p) →
      (l.foldl (convStep env) s).fs = fs0
      ∧ (l.foldl (convStep env) s).stats.converted = s.stats.converted := by
  intro l
  induction l with
  | nil =>
    intro s hs _
    exact ⟨hs, rfl⟩
  | cons p t ih =>
    intro s hs hl
    rw [List.foldl_cons]
    obtain ⟨h1, h2⟩ := convStep_noop env s p
      (fun hdx => by rw [hs]; exact hl p (List.mem_cons_self p t) hdx)
    obtain ⟨h3, h4⟩ := ih (convStep env s p) (h1.trans hs)
      (fun q hq hdx => hl q (List.mem_cons_of_mem p hq) hdx)
    exact ⟨h3, h4.trans h2⟩

theorem convPass_noop (env : Env) (s : OrgSt) (T : Path)
    (h : ∀ p ∈ s.fs.subtreeFiles T, isDocxName (p.getLastD "") = true →
        Settled env s.fs p) :
    (convPass env s T).fs = s.fs
    ∧ (convPass env s T).stats.converted = s.stats.converted := by
  rw [convPass]
  exact foldl_convStep_noop env s.fs _ s rfl h

theorem entry_step (env : Env) (rows : List Row) (s : OrgSt) (n : String)
    (hE : EntryDone env rows s.fs n) :
    ∃ s', orgStep env rows (.ok s) n = .ok s'
      ∧ s'.fs = s.fs
      ∧ s'.stats.converted = s.stats.converted
      ∧ s'.stats.skipped_existing_file = s.stats.skipped_existing_file
          + (if (!strStartsWithDot n && s.fs.isFile (INPUT_DIR ++ [n])
              && (find_best_row_for_filename n rows 2 (3 / 5)).1.isSome) = true
             then 1 else 0) := by
  by_cases hh : strStartsWithDot n = true
  · refine ⟨s, ?_, rfl, rfl, ?_⟩
    · simp [orgStep, hh]
    · rw [hh]
      simp
  · have hh' : strStartsWithDot n = false := bool_eq_false hh
    by_cases hf : s.fs.isFile (INPUT_DIR ++ [n]) = true
    · rcases hfb : find_best_row_for_filename n rows 2 (3 / 5) with ⟨ro, how⟩
      cases ro with
      | none =>
        refine ⟨{ s with stats :=
            { seen1 s.stats with unmatched := s.stats.unmatched + 1 } },
          ?_, rfl, rfl, ?_⟩
        · simp [orgStep, hh', hf, hfb, seen1]
        · simp [seen1]
      | some row =>
        obtain ⟨hdest, hdirs, htd⟩ := hE hh' hf row how hfb
        have hid : s.fs.ensureDirs (targetOf row) = s.fs := ensureDirs_id _ _ hdirs
        have hdest2 : (s.fs.ensureDirs (targetOf row)).ex (targetOf row ++ [n]) = true := by
          rw [hid]
          exact hdest
        have hypS : ∀ p ∈ (s.fs.ensureDirs (targetOf row)).subtreeFiles (targetOf row),
            isDocxName (p.getLastD "") = true →
            Settled env (s.fs.ensureDirs (targetOf row)) p := by
          intro p hp hdx
          rw [hid]
          rw [hid] at hp
          exact htd p hp hdx
        obtain ⟨s', hstep⟩ : ∃ s', orgStep env rows (.ok s) n = .ok s' := by
          cases ho : orgStep env rows (.ok s) n with
          | ok s0 => exact ⟨s0, rfl⟩
          | error e =>
            exfalso
            simp only [orgStep, hfb] at ho
            rw [if_neg (fun hc => by rw [hh'] at hc; exact Bool.noConfusion hc),
              if_neg (fun hc => by rw [hf] at hc; simp at hc),
              if_pos hdest2] at ho
            exact Except.noConfusion ho
        have hprops : s'.fs = s.fs ∧ s'.stats.converted = s.stats.converted
            ∧ s'.stats.skipped_existing_file = s.stats.skipped_existing_file + 1 := by
          rcases orgStep_cases env rows s s' n hstep with
            ⟨hh2, _⟩ | ⟨_, hf2, _⟩ | ⟨_, _, hm2, _⟩ |
            ⟨row2, how2, sp, _, _, hm2, hplace, rfl⟩
          · rw [hh'] at hh2
            exact Bool.noConfusion hh2
          · rw [hf] at hf2
            exact Bool.noConfusion hf2
          · rw [hfb] at hm2
            simp at hm2
          · have hrq : (some row2, how2) = (some row, how) := hm2.symm.trans hfb
            have hrow : row2 = row := Option.some.inj (congrArg Prod.fst hrq)
            subst hrow
            rcases hplace with ⟨hexT, rfl⟩ | ⟨hexF, _, _⟩ | ⟨r, hexF, _, _, _⟩
            · refine ⟨?_, ?_, ?_⟩
              · show (convPass env _ (targetOf row2)).fs = s.fs
                exact ((convPass_noop env _ (targetOf row2) hypS).1).trans hid
              · show (convPass env _ (targetOf row2)).stats.converted = s.stats.converted
                exact (convPass_noop env _ (targetOf row2) hypS).2
              · show (convPass env _ (targetOf row2)).stats.skipped_existing_file = _
                rw [(convPass_stats env _ (targetOf row2)).2.2.2]
            · rw [hdest2] at hexF
              exact Bool.noConfusion hexF
            · rw [hdest2] at hexF
              exact Bool.noConfusion hexF
        refine ⟨s', hstep, hprops.1, hprops.2.1, ?_⟩
        rw [hprops.2.2, hh', hf]
        simp
    · have hf2 : s.fs.isFile (INPUT_DIR ++ [n]) = false := bool_eq_false hf
      refine ⟨{ s with stats := seen1 s.stats }, ?_, rfl, rfl, ?_⟩
      · simp [orgStep, hh', hf2, seen1]
      · rw [hf2]
        simp [seen1]


theorem run2_fold (env : Env) (rows : List Row) :
    ∀ (names : List String) (s : OrgSt),
      (∀ n ∈ names, EntryDone env rows s.fs n) →
      ∃ o2, names.foldl (orgStep env rows) (.ok s) = .ok o2
        ∧ o2.fs = s.fs
        ∧ o2.stats.converted = s.stats.converted
        ∧ o2.stats.skipped_existing_file = s.stats.skipped_existing_file
            + (names.filter (fun n => !strStartsWithDot n
                && s.fs.isFile (INPUT_DIR ++ [n])
                && (find_best_row_for_filename n rows 2 (3 / 5)).1.isSome)).length := by
  intro names
  induction names with
  | nil =>
    intro s _
    exact ⟨s, rfl, rfl, rfl, by simp⟩
  | cons n t ih =>
    intro s hE
    obtain ⟨s1, hstep, hfs1, hconv1, hskip1⟩ :=
      entry_step env rows s n (hE n (List.mem_cons_self n t))
    obtain ⟨o2, hfold, hfs2, hconv2, hskip2⟩ := ih s1
      (fun m hm => by rw [hfs1]; exact hE m (List.mem_cons_of_mem n hm))
    rw [hfs1] at hskip2
    refine ⟨o2, ?_, hfs2.trans hfs1, hconv2.trans hconv1, ?_⟩
    · rw [List.foldl_cons, hstep]
      exact hfold
    · rw [List.filter_cons]
      by_cases hb : (!strStartsWithDot n && s.fs.isFile (INPUT_DIR ++ [n])
          && (find_best_row_for_filename n rows 2 (3 / 5)).1.isSome) = true
      · rw [if_pos hb, hskip2, hskip1, if_pos hb, List.length_cons]
        omega
      · rw [if_neg hb, hskip2, hskip1, if_neg hb]
        omega

theorem output_not_input (q : Path) (h : OUTPUT_DIR.isPrefixOf q = true) :
    INPUT_DIR.isPrefixOf q = false := by
  obtain ⟨t, rfl⟩ := (output_isPrefixOf_iff q).mp h
  cases hb : INPUT_DIR.isPrefixOf ("organized_submissions" :: t)
  · rfl
  · exfalso
    rw [List.isPrefixOf_iff_prefix] at hb
    obtain ⟨r, hr⟩ := hb
    have h0 := congrArg (fun l => l[0]?) hr
    simp [INPUT_DIR] at h0

theorem childNames_extendsO {fs fs' : FS} (h : ExtendsO fs fs') :
    fs'.childNames INPUT_DIR = fs.childNames INPUT_DIR := by
  obtain ⟨F, D, hF, hD, hPF, hPD⟩ := h
  rw [FS.childNames, FS.childNames]
  apply congrArg (fun l => sortNames (dedupF l))
  rw [FS.allPaths, FS.allPaths, hF, hD, List.map_append, List.filterMap_append,
    List.filterMap_append, List.filterMap_append]
  have h1 : (F.map Prod.fst).filterMap (fun p =>
      if INPUT_DIR.isPrefixOf p = true then p[INPUT_DIR.length]? else none) = [] := by
    rw [List.filterMap_eq_nil_iff]
    intro p hp
    rcases List.mem_map.mp hp with ⟨e, heF, rfl⟩
    simp [output_not_input e.1 (hPF e heF)]
  have h2 : D.filterMap (fun p =>
      if INPUT_DIR.isPrefixOf p = true then p[INPUT_DIR.length]? else none) = [] := by
    rw [List.filterMap_eq_nil_iff]
    intro p hp
    simp [output_not_input p (hPD p hp)]
  rw [h1, h2, List.append_nil, List.append_nil, List.filterMap_append]


/-- C1 (amended): for archive-free inputs the engine is idempotent.  If a
run succeeds and no input directory entry has an archive name, a second
run on the resulting file system succeeds, changes nothing in the file
system, reports `skipped_existing` equal to the first run's `matched`,
and converts nothing. -/
theorem C1_idempotent_no_archives (env : Env) (rows : List Row) (fs0 : FS) (o1 : OrgSt)
    (h1 : organize_and_convert env rows fs0 = .ok o1)
    (hna : ∀ n ∈ (fs0.ensureDirs OUTPUT_DIR).childNames INPUT_DIR,
        isArchiveName n = false) :
    ∃ o2, organize_and_convert env rows o1.fs = .ok o2
      ∧ o2.fs = o1.fs
      ∧ o2.stats.skipped_existing_file = o1.stats.matched
      ∧ o2.stats.converted = 0 := by
  have h1' := h1
  rw [organize_and_convert] at h1'
  obtain ⟨hext, hED⟩ := foldl_orgStep_entrydone env rows
    ((fs0.ensureDirs OUTPUT_DIR).childNames INPUT_DIR)
    { fs := fs0.ensureDirs OUTPUT_DIR, stats := {}, calls := [] } o1 hna h1'
  have hOrgmem : OUTPUT_DIR ∈ prefixesOf OUTPUT_DIR := by decide
  have hOrg1 : (fs0.ensureDirs OUTPUT_DIR).isDir OUTPUT_DIR = true :=
    ensureDirs_contains fs0 OUTPUT_DIR OUTPUT_DIR hOrgmem
  have hOrg2 : o1.fs.isDir OUTPUT_DIR = true := extendsO_isDir_mono hext _ hOrg1
  have hid1 : o1.fs.ensureDirs OUTPUT_DIR = o1.fs := by
    apply ensureDirs_id
    intro d hd
    have hpre : prefixesOf OUTPUT_DIR = [OUTPUT_DIR] := by decide
    rw [hpre, List.mem_singleton] at hd
    rw [hd]
    exact hOrg2
  have hnames : (o1.fs.ensureDirs OUTPUT_DIR).childNames INPUT_DIR
      = (fs0.ensureDirs OUTPUT_DIR).childNames INPUT_DIR := by
    rw [hid1]
    exact childNames_extendsO hext
  obtain ⟨o2, hfold, hfs, hconv, hskip⟩ := run2_fold env rows
    ((fs0.ensureDirs OUTPUT_DIR).childNames INPUT_DIR)
    { fs := o1.fs.ensureDirs OUTPUT_DIR, stats := {}, calls := [] }
    (by intro m hm
        show EntryDone env rows (o1.fs.ensureDirs OUTPUT_DIR) m
        rw [hid1]
        exact hED m hm)
  refine ⟨o2, ?_, ?_, ?_, ?_⟩
  · have hrun2 : organize_and_convert env rows o1.fs
        = ((o1.fs.ensureDirs OUTPUT_DIR).childNames INPUT_DIR).foldl (orgStep env rows)
            (.ok { fs := o1.fs.ensureDirs OUTPUT_DIR, stats := {}, calls := [] }) := rfl
    rw [hrun2, hnames]
    exact hfold
  · exact hfs.trans hid1
  · obtain ⟨_, _, e3⟩ := foldl_orgStep_stats env rows fs0
      ((fs0.ensureDirs OUTPUT_DIR).childNames INPUT_DIR)
      { fs := fs0.ensureDirs OUTPUT_DIR, stats := {}, calls := [] } o1 h1'
      (frameO_ensureDirs fs0 OUTPUT_DIR output_prefix_self)
    have hfr : FrameO fs0 o1.fs := frameO_run env rows fs0 o1 h1
    have hfilters : ((fs0.ensureDirs OUTPUT_DIR).childNames INPUT_DIR).filter
        (fun n => !strStartsWithDot n
          && (o1.fs.ensureDirs OUTPUT_DIR).isFile (INPUT_DIR ++ [n])
          && (find_best_row_for_filename n rows 2 (3 / 5)).1.isSome)
      = ((fs0.ensureDirs OUTPUT_DIR).childNames INPUT_DIR).filter
        (fun n => !strStartsWithDot n && fs0.isFile (INPUT_DIR ++ [n])
          && (find_best_row_for_filename n rows 2 (3 / 5)).1.isSome) := by
      apply List.filter_congr
      intro m _
      have hfe : (o1.fs.ensureDirs OUTPUT_DIR).isFile (INPUT_DIR ++ [m])
          = fs0.isFile (INPUT_DIR ++ [m]) := by
        rw [hid1, FS.isFile, FS.isFile,
          (hfr _ (input_not_output _ (List.isPrefixOf_iff_prefix.mpr ⟨[m], rfl⟩))).1]
      rw [hfe]
    rw [show ({ fs := o1.fs.ensureDirs OUTPUT_DIR, stats := {}, calls := [] } : OrgSt).fs
        = o1.fs.ensureDirs OUTPUT_DIR from rfl] at hskip
    rw [hfilters] at hskip
    rw [hskip, e3]
  · exact hconv.trans rfl

/-- C1 counterexample: with an archive in the input, a second run
re-extracts it (the archive is never placed at its destination name), so
the output tree differs between the runs — the collision probe creates a
duplicate `x_1.txt`. -/
theorem C1_counterexample :
    (match organize_and_convert envArch rowsIn fsArch with
     | .ok o1 =>
       (match organize_and_convert envArch rowsIn o1.fs with
        | .ok o2 => ¬(o2.fs = o1.fs)
        | .error _ => False)
     | .error _ => False) := by
  have hB : (match organize_and_convert envArch rowsIn fsArch with
      | .ok o1 =>
        (match organize_and_convert envArch rowsIn o1.fs with
         | .ok o2 => !(decide (o2.fs = o1.fs))
         | .error _ => false)
      | .error _ => false) = true := by decide
  cases h1 : organize_and_convert envArch rowsIn fsArch with
  | error e =>
    rw [h1] at hB
    exact Bool.noConfusion hB
  | ok o1 =>
    rw [h1] at hB
    have hB1 : (match organize_and_convert envArch rowsIn o1.fs with
        | .ok o2 => !(decide (o2.fs = o1.fs))
        | .error _ => false) = true := hB
    show (match organize_and_convert envArch rowsIn o1.fs with
        | .ok o2 => ¬(o2.fs = o1.fs)
        | .error _ => False)
    cases h2 : organize_and_convert envArch rowsIn o1.fs with
    | error e =>
      rw [h2] at hB1
      exact Bool.noConfusion hB1
    | ok o2 =>
      rw [h2] at hB1
      have hB2 : (!(decide (o2.fs = o1.fs))) = true := hB1
      show ¬(o2.fs = o1.fs)
      exact of_decide_eq_false (bnot_true hB2)

/-- C1 witness: on a plain one-file input the second run succeeds, leaves
the tree unchanged, and reports one skip for the one match. -/
theorem C1_idempotent_no_archives_witness :
    (match organize_and_convert envW rowsIn fsIn with
     | .ok o1 => ∃ o2, organize_and_convert envW rowsIn o1.fs = .ok o2
         ∧ o2.fs = o1.fs
         ∧ o2.stats.skipped_existing_file = o1.stats.matched
         ∧ o2.stats.converted = 0
     | .error _ => False) := by
  cases h : organize_and_convert envW rowsIn fsIn with
  | error e =>
    have hk : exceptOk (organize_and_convert envW rowsIn fsIn) = true := by decide
    rw [h] at hk
    exact Bool.noConfusion hk
  | ok o1 =>
    exact C1_idempotent_no_archives envW rowsIn fsIn o1 h (by decide)


/-! ## Claim C8: conversion is guarded and at-most-once -/

theorem convStep_calls (env : Env) (s : OrgSt) (q : Path) :
    (convStep env s q).calls = s.calls
    ∨ (isDocxName (q.getLastD "") = true ∧ s.fs.ex (pdfSibling q) = false
       ∧ env.libreoffice = true ∧ (convStep env s q).calls = s.calls ++ [q]) := by
  by_cases h1 : isDocxName (q.getLastD "") = true
  · by_cases h2 : s.fs.ex (pdfSibling q) = true
    · left
      rw [convStep, if_pos h1, if_pos h2]
    · have h2' : s.fs.ex (pdfSibling q) = false := bool_eq_false h2
      by_cases h3 : env.libreoffice = true
      · by_cases h4 : env.convertOk q = true
        · right
          refine ⟨h1, h2', h3, ?_⟩
          rw [convStep, if_pos h1, if_neg h2]
          dsimp only
          rw [libreoffice_convert, if_neg (by rw [h3]; simp), if_pos h4]
        · right
          refine ⟨h1, h2', h3, ?_⟩
          rw [convStep, if_pos h1, if_neg h2]
          dsimp only
          rw [libreoffice_convert, if_neg (by rw [h3]; simp),
            if_neg (fun hc => h4 hc)]
      · left
        have h3' : env.libreoffice = false := bool_eq_false h3
        rw [convStep, if_pos h1, if_neg h2]
        dsimp only
        rw [libreoffice_convert, if_pos (by rw [h3']; rfl)]
        exact List.append_nil _
  · left
    rw [convStep, if_neg h1]

theorem mem_keys_lookup_isSome {l : List (Path × Content)} {p : Path}
    (h : p ∈ l.map Prod.fst) : (l.lookup p).isSome = true := by
  induction l with
  | nil => simp at h
  | cons e t ih =>
    obtain ⟨k, v⟩ := e
    rw [List.lookup]
    cases hbe : p == k with
    | true => rfl
    | false =>
      rcases List.mem_cons.mp h with h1 | h1
      · exfalso
        rw [h1] at hbe
        simp at hbe
      · exact ih h1

theorem convStep_files_append (env : Env) (s : OrgSt) (q : Path) :
    ∃ F, (convStep env s q).fs.files = s.fs.files ++ F
      ∧ ∀ e ∈ F, e.1 = pdfSibling q := by
  rcases convStep_fs env s q with h | ⟨_, hex, _, _, h⟩
  · exact ⟨[], by rw [h]; exact (List.append_nil _).symm, by intro e he; simp at he⟩
  · refine ⟨[(pdfSibling q, env.pdfContent (s.fs.content q))], ?_, ?_⟩
    · rw [h]
      exact setFile_absent _ _ _ (isFile_false_lookup _ _ (ex_false_isFile _ _ hex))
    · intro e he
      rw [List.mem_singleton] at he
      rw [he]

theorem convStep_isFile_mono (env : Env) (s : OrgSt) (q r : Path)
    (h : s.fs.isFile r = true) : (convStep env s q).fs.isFile r = true := by
  obtain ⟨F, hF, _⟩ := convStep_files_append env s q
  rw [FS.isFile] at h ⊢
  rw [hF]
  obtain ⟨c, hc⟩ := Option.isSome_iff_exists.mp h
  rw [lookup_append_some _ _ _ _ hc]
  rfl

theorem convStep_isFile_false (env : Env) (s : OrgSt) (q p : Path)
    (hdx : isDocxName (p.getLastD "") = true)
    (h : s.fs.isFile p = false) : (convStep env s q).fs.isFile p = false := by
  obtain ⟨F, hF, hkeys⟩ := convStep_files_append env s q
  cases hb : (convStep env s q).fs.isFile p
  · rfl
  · exfalso
    rw [FS.isFile, hF] at hb
    have hmem := lookup_isSome_mem hb
    rw [List.map_append] at hmem
    rcases List.mem_append.mp hmem with h1 | h1
    · exact absurd (mem_keys_lookup_isSome h1)
        (by rw [show (List.lookup p s.fs.files).isSome = false from h]; simp)
    · rcases List.mem_map.mp h1 with ⟨e, heF, rfl⟩
      rw [hkeys e heF, pdfSibling, List.getLastD_concat] at hdx
      rw [isDocxName_append_pdf] at hdx
      exact Bool.noConfusion hdx

theorem conv_fold_no_call (env : Env) (p : Path) :
    ∀ (l : List Path) (s : OrgSt),
      (s.fs.isFile (pdfSibling p) = true ∨ p ∉ l) →
      p ∈ ((l.foldl (convStep env) s)).calls → p ∈ s.calls := by
  intro l
  induction l with
  | nil =>
    intro s _ h
    exact h
  | cons q t ih =>
    intro s hinv hp
    rw [List.foldl_cons] at hp
    have hstep : p ∈ (convStep env s q).calls → p ∈ s.calls := by
      intro hc
      rcases convStep_calls env s q with he | ⟨_, hex, _, he⟩
      · rw [he] at hc
        exact hc
      · rw [he] at hc
        rcases List.mem_append.mp hc with h1 | h1
        · exact h1
        · exfalso
          rw [List.mem_singleton] at h1
          subst h1
          rcases hinv with hpdf | hnot
          · rw [FS.ex, hpdf] at hex
            simp at hex
          · exact hnot (List.mem_cons_self p t)
    apply hstep
    refine ih (convStep env s q) ?_ hp
    rcases hinv with hpdf | hnot
    · exact Or.inl (convStep_isFile_mono env s q _ hpdf)
    · exact Or.inr (fun hmem => hnot (List.mem_cons_of_mem q hmem))

theorem convPass_no_call (env : Env) (s : OrgSt) (T : Path) (p : Path)
    (hinv : s.fs.isFile (pdfSibling p) = true ∨ s.fs.isFile p = false)
    (hp : p ∈ (convPass env s T).calls) : p ∈ s.calls := by
  rw [convPass] at hp
  refine conv_fold_no_call env p _ s ?_ hp
  rcases hinv with hpdf | hnot
  · exact Or.inl hpdf
  · refine Or.inr (fun hmem => ?_)
    rw [FS.subtreeFiles] at hmem
    have h1 := (List.mem_filter.mp hmem).1
    rw [FS.isFile] at hnot
    rw [mem_keys_lookup_isSome h1] at hnot
    exact Bool.noConfusion hnot


theorem frameU_refl (T : Path) (fs : FS) : FrameU T fs fs := fun _ _ => rfl

theorem frameU_trans {T : Path} {a b c : FS} (h1 : FrameU T a b) (h2 : FrameU T b c) :
    FrameU T a c := fun q hq => (h2 q hq).trans (h1 q hq)

theorem frameU_of_files_eq {T : Path} {a b : FS} (h : b.files = a.files) :
    FrameU T a b := fun q _ => by rw [h]

theorem frameU_setFile (T : Path) (fs : FS) (w : Path) (c : Content)
    (hw : T.isPrefixOf w = true) : FrameU T fs (fs.setFile w c) := by
  intro q hq
  have hne : q ≠ w := fun he => by rw [he, hw] at hq; exact Bool.noConfusion hq
  exact lookup_setFile_ne fs w c q hne

theorem frameU_delFile (T : Path) (fs : FS) (p : Path)
    (hp : T.isPrefixOf p = true) : FrameU T fs (fs.delFile p) := by
  intro q hq
  have hne : q ≠ p := fun he => by rw [he, hp] at hq; exact Bool.noConfusion hq
  exact lookup_delFile_ne fs p q hne

theorem frameU_flatten_move (T : Path) (fs : FS) (p : Path)
    (hp : T.isPrefixOf p = true) : FrameU T fs (flatten_move fs T p) := by
  rcases flatten_move_w_form fs T p with ⟨x, heq⟩ | heq
  · rw [heq]
    exact frameU_trans (frameU_delFile T fs p hp)
      (frameU_setFile T _ (T ++ [x]) _ (prefix_append_list T [x]))
  · rw [heq]
    exact frameU_refl T fs

theorem frameU_flattenFold (T : Path) :
    ∀ (S : List Path) (fs : FS), (∀ p ∈ S, T.isPrefixOf p = true) →
      FrameU T fs (S.foldl (flatten_move · T ·) fs) := by
  intro S
  induction S with
  | nil => intro fs _; exact frameU_refl T fs
  | cons p rest ih =>
    intro fs hS
    rw [List.foldl_cons]
    exact frameU_trans (frameU_flatten_move T fs p (hS p (List.mem_cons_self p rest)))
      (ih _ (fun q hq => hS q (List.mem_cons_of_mem p hq)))

theorem frameU_flattenPass (fs : FS) (T : Path) : FrameU T fs (flattenPass fs T) := by
  rw [flattenPass]
  refine frameU_trans (frameU_flattenFold T (fs.subtreeFiles T) fs ?_)
    (frameU_of_files_eq (removeEmptyDirs_files _ T))
  intro p hp
  rw [FS.subtreeFiles] at hp
  have h2 := (List.mem_filter.mp hp).2
  rw [strictUnder, Bool.and_eq_true] at h2
  exact h2.1

theorem frameU_extractall (fs : FS) (T : Path) (entries : List (Path × Content)) :
    FrameU T fs (extractall fs T entries) := by
  rw [extractall]
  induction entries generalizing fs with
  | nil => exact frameU_refl T fs
  | cons e t ih =>
    rw [List.foldl_cons]
    refine frameU_trans (frameU_trans
      (frameU_of_files_eq (ensureDirs_files fs (T ++ e.1).dropLast))
      (frameU_setFile T _ (T ++ e.1) e.2 (prefix_append_list T e.1))) (ih _)

theorem frameU_extract_flatten (env : Env) (fs : FS) (ap T : Path) :
    FrameU T fs (extract_and_flatten_archive env fs ap T) := by
  simp only [extract_and_flatten_archive]
  have h0 : FrameU T fs (fs.ensureDirs T) :=
    frameU_of_files_eq (ensureDirs_files fs T)
  split
  · split
    · split
      · exact frameU_trans h0 (frameU_trans (frameU_extractall _ T _)
          (frameU_flattenPass _ T))
      · exact frameU_trans h0 (frameU_flattenPass _ T)
    · exact frameU_trans h0 (frameU_flattenPass _ T)
  · split
    · split
      · exact h0
      · split
        · split
          · exact frameU_trans h0 (frameU_trans (frameU_extractall _ T _)
              (frameU_flattenPass _ T))
          · exact h0
        · exact h0
    · exact frameU_trans h0 (frameU_flattenPass _ T)

theorem frameU_safe_copy (env : Env) (fs fs' : FS) (src T : Path)
    (dstName : String) (w : Path)
    (h : safe_copy env fs src T dstName = .ok (fs', w)) : FrameU T fs fs' := by
  obtain ⟨hfree, hset, _, hplain, hprobe⟩ := safe_copy_spec env fs src T dstName fs' w h
  have hw : T.isPrefixOf w = true := by
    by_cases hdst : fs.ex (T ++ [dstName]) = true
    · obtain ⟨i, _, hwi, _⟩ := hprobe hdst
      rw [hwi]
      exact prefix_append_list _ _
    · rw [hplain (bool_eq_false hdst)]
      exact prefix_append_list _ _
  rw [hset]
  exact frameU_setFile T fs w _ hw

theorem frameU_convStep (env : Env) (s : OrgSt) (p T : Path)
    (hp : strictUnder T p = true) : FrameU T s.fs (convStep env s p).fs := by
  rcases convStep_fs env s p with h | ⟨_, _, _, _, h⟩
  · rw [h]
    exact frameU_refl T s.fs
  · rw [h]
    exact frameU_setFile T s.fs _ _ (prefix_pdfSibling T p hp)

theorem frameU_foldl_convStep (env : Env) (T : Path) :
    ∀ (l : List Path) (s : OrgSt), (∀ p ∈ l, strictUnder T p = true) →
      FrameU T s.fs ((l.foldl (convStep env) s)).fs := by
  intro l
  induction l with
  | nil => intro s _; exact frameU_refl T s.fs
  | cons p t ih =>
    intro s hl
    rw [List.foldl_cons]
    exact frameU_trans (frameU_convStep env s p T (hl p (List.mem_cons_self p t)))
      (ih (convStep env s p) (fun q hq => hl q (List.mem_cons_of_mem p hq)))

theorem frameU_convPass (env : Env) (s : OrgSt) (T : Path) :
    FrameU T s.fs (convPass env s T).fs := by
  rw [convPass]
  apply frameU_foldl_convStep
  intro p hp
  rw [FS.subtreeFiles] at hp
  exact (List.mem_filter.mp hp).2

/-- A matched step's whole file-table footprint lies under its target. -/
theorem frameU_orgStep_matched (env : Env) (rows : List Row) (s s' : OrgSt)
    (n : String) (row : Row) (how : Option Method)
    (h : orgStep env rows (.ok s) n = .ok s')
    (hm : find_best_row_for_filename n rows 2 (3 / 5) = (some row, how)) :
    FrameU (targetOf row) s.fs s'.fs := by
  rcases orgStep_cases env rows s s' n h with
    ⟨_, rfl⟩ | ⟨_, _, rfl⟩ | ⟨_, _, hm2, rfl⟩ |
    ⟨row2, how2, sp, _, _, hm2, hplace, rfl⟩
  · exact frameU_refl _ _
  · exact frameU_refl _ _
  · rw [hm] at hm2
    simp at hm2
  · have hrow : row2 = row :=
      Option.some.inj (congrArg Prod.fst (hm2.symm.trans hm))
    subst hrow
    refine frameU_trans ?_ (frameU_convPass env sp (targetOf row2))
    rcases hplace with ⟨_, rfl⟩ | ⟨_, _, rfl⟩ | ⟨r, _, _, hsc, rfl⟩
    · exact frameU_of_files_eq (ensureDirs_files s.fs (targetOf row2))
    · exact frameU_trans
        (frameU_of_files_eq (ensureDirs_files s.fs (targetOf row2)))
        (frameU_extract_flatten env _ _ (targetOf row2))
    · exact frameU_trans
        (frameU_of_files_eq (ensureDirs_files s.fs (targetOf row2)))
        (frameU_safe_copy env _ r.1 _ (targetOf row2) n r.2 (by exact hsc))


theorem isFile_setFile_mono (fs : FS) (w : Path) (c : Content) (q : Path)
    (h : fs.isFile q = true) : (fs.setFile w c).isFile q = true := by
  by_cases hq : q = w
  · rw [hq, FS.isFile, lookup_setFile_self]
    rfl
  · rw [FS.isFile, lookup_setFile_ne fs w c q hq]
    exact h

theorem isFile_ensureDirs (fs : FS) (T q : Path) :
    (fs.ensureDirs T).isFile q = fs.isFile q := by
  rw [FS.isFile, FS.isFile, ensureDirs_files]

theorem flatten_move_isFile_mono (fs : FS) (T p q : Path)
    (hq : fs.isFile q = true) (hsh : p = q → p = T ++ [p.getLastD ""]) :
    (flatten_move fs T p).isFile q = true := by
  by_cases hpq : p = q
  · rw [flatten_move_self fs T p (hsh hpq)]
    exact hq
  · rcases flatten_move_w_form fs T p with ⟨x, heq⟩ | heq
    · rw [heq]
      apply isFile_setFile_mono
      rw [FS.isFile, lookup_delFile_ne fs p q (fun he => hpq he.symm)]
      exact hq
    · rw [heq]
      exact hq

theorem flattenFold_isFile_mono (T q : Path)
    (hform : T.isPrefixOf q = false ∨ q = T ++ [q.getLastD ""]) :
    ∀ (S : List Path) (fs : FS), (∀ p ∈ S, strictUnder T p = true) →
      fs.isFile q = true → (S.foldl (flatten_move · T ·) fs).isFile q = true := by
  intro S
  induction S with
  | nil => intro fs _ hq; exact hq
  | cons p rest ih =>
    intro fs hS hq
    rw [List.foldl_cons]
    refine ih _ (fun m hm => hS m (List.mem_cons_of_mem p hm)) ?_
    refine flatten_move_isFile_mono fs T p q hq (fun hpq => ?_)
    rcases hform with hnp | hform2
    · exfalso
      have h2 := hS p (List.mem_cons_self p rest)
      rw [strictUnder, Bool.and_eq_true] at h2
      rw [hpq, hnp] at h2
      exact Bool.noConfusion h2.1
    · rw [hpq]
      exact hform2

theorem flattenPass_isFile_mono (fs : FS) (T q : Path)
    (hform : T.isPrefixOf q = false ∨ q = T ++ [q.getLastD ""])
    (hq : fs.isFile q = true) : (flattenPass fs T).isFile q = true := by
  rw [flattenPass, FS.isFile, removeEmptyDirs_files, ← FS.isFile]
  refine flattenFold_isFile_mono T q hform (fs.subtreeFiles T) fs ?_ hq
  intro p hp
  rw [FS.subtreeFiles] at hp
  exact (List.mem_filter.mp hp).2

theorem extractall_isFile_mono (fs : FS) (T : Path) (entries : List (Path × Content))
    (q : Path) (hq : fs.isFile q = true) : (extractall fs T entries).isFile q = true := by
  rw [extractall]
  induction entries generalizing fs with
  | nil => exact hq
  | cons e t ih =>
    rw [List.foldl_cons]
    refine ih _ ?_
    apply isFile_setFile_mono
    rw [isFile_ensureDirs]
    exact hq

theorem extract_flatten_cases (env : Env) (fs : FS) (ap T : Path) :
    extract_and_flatten_archive env fs ap T = fs.ensureDirs T
    ∨ ∃ fs2, extract_and_flatten_archive env fs ap T = flattenPass fs2 T := by
  simp only [extract_and_flatten_archive]
  split
  · split
    · split
      · exact Or.inr ⟨_, rfl⟩
      · exact Or.inr ⟨_, rfl⟩
    · exact Or.inr ⟨_, rfl⟩
  · split
    · split
      · exact Or.inl rfl
      · split
        · split
          · exact Or.inr ⟨_, rfl⟩
          · exact Or.inl rfl
        · exact Or.inl rfl
    · exact Or.inr ⟨_, rfl⟩

theorem extract_flatten_isFile_mono (env : Env) (fs : FS) (ap T q : Path)
    (hform : T.isPrefixOf q = false ∨ q = T ++ [q.getLastD ""])
    (hq : fs.isFile q = true) :
    (extract_and_flatten_archive env fs ap T).isFile q = true := by
  have hq2 : (fs.ensureDirs T).isFile q = true := by
    rw [isFile_ensureDirs]
    exact hq
  simp only [extract_and_flatten_archive]
  split
  · split
    · split
      · exact flattenPass_isFile_mono _ T q hform (extractall_isFile_mono _ T _ q hq2)
      · exact flattenPass_isFile_mono _ T q hform hq2
    · exact flattenPass_isFile_mono _ T q hform hq2
  · split
    · split
      · exact hq2
      · split
        · split
          · exact flattenPass_isFile_mono _ T q hform
              (extractall_isFile_mono _ T _ q hq2)
          · exact hq2
        · exact hq2
    · exact flattenPass_isFile_mono _ T q hform hq2

theorem conv_fold_calls_mem (env : Env) (p : Path) :
    ∀ (l : List Path) (s : OrgSt),
      p ∈ ((l.foldl (convStep env) s)).calls → p ∈ s.calls ∨ p ∈ l := by
  intro l
  induction l with
  | nil => intro s h; exact Or.inl h
  | cons q t ih =>
    intro s h
    rw [List.foldl_cons] at h
    rcases ih (convStep env s q) h with h1 | h1
    · rcases convStep_calls env s q with he | ⟨_, _, _, he⟩
      · rw [he] at h1
        exact Or.inl h1
      · rw [he] at h1
        rcases List.mem_append.mp h1 with h2 | h2
        · exact Or.inl h2
        · rw [List.mem_singleton] at h2
          exact Or.inr (h2 ▸ List.mem_cons_self q t)
    · exact Or.inr (List.mem_cons_of_mem q h1)

theorem convPass_calls_mem (env : Env) (s : OrgSt) (T : Path) (p : Path)
    (h : p ∈ (convPass env s T).calls) :
    p ∈ s.calls ∨ strictUnder T p = true := by
  rw [convPass] at h
  rcases conv_fold_calls_mem env p _ s h with h1 | h1
  · exact Or.inl h1
  · rw [FS.subtreeFiles] at h1
    exact Or.inr (List.mem_filter.mp h1).2

theorem conv_fold_isFile_mono (env : Env) (q : Path) :
    ∀ (l : List Path) (s : OrgSt), s.fs.isFile q = true →
      ((l.foldl (convStep env) s)).fs.isFile q = true := by
  intro l
  induction l with
  | nil => intro s h; exact h
  | cons a t ih =>
    intro s h
    rw [List.foldl_cons]
    exact ih _ (convStep_isFile_mono env s a q h)

theorem conv_fold_isFile_false (env : Env) (p : Path)
    (hdx : isDocxName (p.getLastD "") = true) :
    ∀ (l : List Path) (s : OrgSt), s.fs.isFile p = false →
      ((l.foldl (convStep env) s)).fs.isFile p = false := by
  intro l
  induction l with
  | nil => intro s h; exact h
  | cons a t ih =>
    intro s h
    rw [List.foldl_cons]
    exact ih _ (convStep_isFile_false env s a p hdx h)


theorem orgStep_psi (env : Env) (rows : List Row) (s s' : OrgSt) (n : String)
    (p : Path) (x : String) (r : Path) (hr : r ≠ [])
    (hpeq : p = OUTPUT_DIR ++ [x] ++ r)
    (hdx : isDocxName (p.getLastD "") = true)
    (h : orgStep env rows (.ok s) n = .ok s')
    (hpsi : s.fs.isFile (pdfSibling p) = true
        ∨ (4 ≤ p.length ∧ s.fs.isFile p = false)) :
    (s'.fs.isFile (pdfSibling p) = true
        ∨ (4 ≤ p.length ∧ s'.fs.isFile p = false))
    ∧ (p ∈ s'.calls → p ∈ s.calls) := by
  have hpfx : (OUTPUT_DIR ++ [x]).isPrefixOf p = true := by
    rw [hpeq]
    exact prefix_append_list _ _
  have hplen : 3 ≤ p.length := by
    have h1 : 1 ≤ r.length := List.length_pos.mpr hr
    rw [hpeq]
    simp [OUTPUT_DIR, List.length_append]
    omega
  have hsu : strictUnder (OUTPUT_DIR ++ [x]) p = true := by
    rw [strictUnder, hpfx]
    simp [OUTPUT_DIR, List.length_append]
    omega
  rcases orgStep_cases env rows s s' n h with
    ⟨_, rfl⟩ | ⟨_, _, rfl⟩ | ⟨_, _, _, rfl⟩ |
    ⟨row, how, sp, _, _, hm, hplace, rfl⟩
  · exact ⟨hpsi, fun hc => hc⟩
  · exact ⟨hpsi, fun hc => hc⟩
  · exact ⟨hpsi, fun hc => hc⟩
  · have hcalls : sp.calls = s.calls := by
      rcases hplace with ⟨_, rfl⟩ | ⟨_, _, rfl⟩ | ⟨r2, _, _, _, rfl⟩ <;> rfl
    by_cases hsame : folderNameOf row = x
    · have hTeq : targetOf row = OUTPUT_DIR ++ [x] := (target_eq_iff row x).mpr hsame
      have hsuT : strictUnder (targetOf row) p = true := by
        rw [hTeq]
        exact hsu
      have hpsisp : sp.fs.isFile (pdfSibling p) = true
          ∨ (4 ≤ p.length ∧ sp.fs.isFile p = false) := by
        rcases hplace with ⟨hexT, rfl⟩ | ⟨hexT, harch, rfl⟩ | ⟨r2, hexT, harch, hsc, rfl⟩
        · rcases hpsi with hl | ⟨h4, hrgt⟩
          · left
            show (s.fs.ensureDirs (targetOf row)).isFile (pdfSibling p) = true
            rw [isFile_ensureDirs]
            exact hl
          · right
            refine ⟨h4, ?_⟩
            show (s.fs.ensureDirs (targetOf row)).isFile p = false
            rw [isFile_ensureDirs]
            exact hrgt
        · rcases extract_flatten_cases env (s.fs.ensureDirs (targetOf row))
              (INPUT_DIR ++ [n]) (targetOf row) with hca | ⟨fs2, hca⟩
          · rcases hpsi with hl | ⟨h4, hrgt⟩
            · left
              show (extract_and_flatten_archive env (s.fs.ensureDirs (targetOf row))
                  (INPUT_DIR ++ [n]) (targetOf row)).isFile (pdfSibling p) = true
              rw [hca, isFile_ensureDirs, isFile_ensureDirs]
              exact hl
            · right
              refine ⟨h4, ?_⟩
              show (extract_and_flatten_archive env (s.fs.ensureDirs (targetOf row))
                  (INPUT_DIR ++ [n]) (targetOf row)).isFile p = false
              rw [hca, isFile_ensureDirs, isFile_ensureDirs]
              exact hrgt
          · by_cases h4 : 4 ≤ p.length
            · right
              refine ⟨h4, ?_⟩
              show (extract_and_flatten_archive env (s.fs.ensureDirs (targetOf row))
                  (INPUT_DIR ++ [n]) (targetOf row)).isFile p = false
              rw [hca]
              cases hb : (flattenPass fs2 (targetOf row)).isFile p
              · rfl
              · exfalso
                have hlen := flattenPass_flat fs2 (targetOf row) p hb hsuT
                rw [hTeq] at hlen
                simp [OUTPUT_DIR, List.length_append] at hlen
                omega
            · have h3 : p.length = 3 := by omega
              rcases hpsi with hl | ⟨h4', _⟩
              · left
                have hr1 : r.length = 1 := by
                  rw [hpeq] at h3
                  simp [OUTPUT_DIR, List.length_append] at h3
                  omega
                obtain ⟨z, hz⟩ : ∃ z, r = [z] := by
                  cases r with
                  | nil => exact absurd rfl hr
                  | cons z t =>
                    rw [List.length_cons] at hr1
                    have ht : t = [] := List.eq_nil_of_length_eq_zero (by omega)
                    exact ⟨z, by rw [ht]⟩
                have hpz : p = (OUTPUT_DIR ++ [x]) ++ [z] := by
                  rw [hpeq, hz]
                have hdl : p.dropLast = OUTPUT_DIR ++ [x] := by
                  rw [hpz]
                  exact List.dropLast_concat
                have hpdform : pdfSibling p
                    = targetOf row ++ [(pdfSibling p).getLastD ""] := by
                  rw [pdfSibling, hdl, hTeq, List.getLastD_concat]
                show (extract_and_flatten_archive env (s.fs.ensureDirs (targetOf row))
                    (INPUT_DIR ++ [n]) (targetOf row)).isFile (pdfSibling p) = true
                refine extract_flatten_isFile_mono env _ _ _ _ (Or.inr hpdform) ?_
                rw [isFile_ensureDirs]
                exact hl
              · exact absurd h4' (by omega)
        · obtain ⟨hfree, hset, _, hplain, hprobe⟩ := safe_copy_spec env
            (s.fs.ensureDirs (targetOf row)) (INPUT_DIR ++ [n]) (targetOf row) n
            r2.1 r2.2 (by exact hsc)
          have hwform : ∃ u, r2.2 = targetOf row ++ [u] := by
            by_cases hdst : (s.fs.ensureDirs (targetOf row)).ex
                (targetOf row ++ [n]) = true
            · obtain ⟨i, _, hwi, _⟩ := hprobe hdst
              exact ⟨_, hwi⟩
            · exact ⟨n, hplain (bool_eq_false hdst)⟩
          rcases hpsi with hl | ⟨h4, hrgt⟩
          · left
            show r2.1.isFile (pdfSibling p) = true
            rw [hset]
            apply isFile_setFile_mono
            rw [isFile_ensureDirs]
            exact hl
          · right
            refine ⟨h4, ?_⟩
            show r2.1.isFile p = false
            rw [hset]
            have hwne : p ≠ r2.2 := by
              obtain ⟨u, hu⟩ := hwform
              intro hc
              have hlc : p.length = (targetOf row ++ [u]).length := by
                rw [hc, hu]
              rw [targetOf] at hlc
              simp [OUTPUT_DIR, List.length_append] at hlc
              omega
            rw [FS.isFile, lookup_setFile_ne _ _ _ _ hwne, ← FS.isFile,
              isFile_ensureDirs]
            exact hrgt
      constructor
      · rcases hpsisp with hl | ⟨h4, hrgt⟩
        · left
          show (convPass env sp (targetOf row)).fs.isFile (pdfSibling p) = true
          rw [convPass]
          exact conv_fold_isFile_mono env _ _ sp hl
        · right
          refine ⟨h4, ?_⟩
          show (convPass env sp (targetOf row)).fs.isFile p = false
          rw [convPass]
          exact conv_fold_isFile_false env p hdx _ sp hrgt
      · intro hc
        have hc2 : p ∈ (convPass env sp (targetOf row)).calls := hc
        have hres := convPass_no_call env sp (targetOf row) p ?_ hc2
        · rw [hcalls] at hres
          exact hres
        · rcases hpsisp with hl | ⟨_, hrgt⟩
          · exact Or.inl hl
          · exact Or.inr hrgt
    · have hfrm : FrameU (targetOf row) s.fs
          ({ convPass env sp (targetOf row) with stats :=
            { (convPass env sp (targetOf row)).stats with
              matched := (convPass env sp (targetOf row)).stats.matched + 1 } }).fs :=
        frameU_orgStep_matched env rows s _ n row how h hm
      have hnp : (OUTPUT_DIR ++ [folderNameOf row]).isPrefixOf p = false :=
        sibling_not_prefix x (folderNameOf row) p (fun hc => hsame hc) hpfx
      have hpdf_prefix : (OUTPUT_DIR ++ [x]).isPrefixOf (pdfSibling p) = true :=
        prefix_pdfSibling (OUTPUT_DIR ++ [x]) p hsu
      have hnpdf : (OUTPUT_DIR ++ [folderNameOf row]).isPrefixOf (pdfSibling p)
          = false :=
        sibling_not_prefix x (folderNameOf row) _ (fun hc => hsame hc) hpdf_prefix
      have he1 := hfrm p hnp
      have he2 := hfrm (pdfSibling p) hnpdf
      constructor
      · rcases hpsi with hl | ⟨h4, hrgt⟩
        · left
          rw [FS.isFile, he2]
          exact hl
        · right
          refine ⟨h4, ?_⟩
          rw [FS.isFile, he1]
          exact hrgt
      · intro hc
        have hc2 : p ∈ (convPass env sp (targetOf row)).calls := hc
        rcases convPass_calls_mem env sp (targetOf row) p hc2 with h1 | h1
        · rw [hcalls] at h1
          exact h1
        · exfalso
          rw [strictUnder, Bool.and_eq_true] at h1
          have h1' : (OUTPUT_DIR ++ [folderNameOf row]).isPrefixOf p = true := h1.1
          rw [hnp] at h1'
          exact Bool.noConfusion h1'


theorem foldl_orgStep_psi (env : Env) (rows : List Row) (p : Path) (x : String)
    (r : Path) (hr : r ≠ []) (hpeq : p = OUTPUT_DIR ++ [x] ++ r)
    (hdx : isDocxName (p.getLastD "") = true) :
    ∀ (names : List String) (s o : OrgSt),
      names.foldl (orgStep env rows) (.ok s) = .ok o →
      (s.fs.isFile (pdfSibling p) = true
        ∨ (4 ≤ p.length ∧ s.fs.isFile p = false)) →
      (p ∈ o.calls → p ∈ s.calls) := by
  intro names
  induction names with
  | nil =>
    intro s o h0 _
    cases h0
    exact fun hc => hc
  | cons n t ih =>
    intro s o h0 hpsi
    rw [List.foldl_cons] at h0
    cases hs : orgStep env rows (.ok s) n with
    | error e =>
      rw [hs, foldl_orgStep_error] at h0
      exact Except.noConfusion h0
    | ok s2 =>
      rw [hs] at h0
      obtain ⟨hpsi2, hcall2⟩ :=
        orgStep_psi env rows s s2 n p x r hr hpeq hdx hs hpsi
      exact fun hc => hcall2 (ih s2 o h0 hpsi2 hc)

theorem orgStep_calls_origin (env : Env) (rows : List Row) (s s' : OrgSt)
    (n : String) (p : Path) (h : orgStep env rows (.ok s) n = .ok s') :
    p ∈ s'.calls → p ∈ s.calls
      ∨ ∃ y, strictUnder (OUTPUT_DIR ++ [y]) p = true := by
  rcases orgStep_cases env rows s s' n h with
    ⟨_, rfl⟩ | ⟨_, _, rfl⟩ | ⟨_, _, _, rfl⟩ |
    ⟨row, how, sp, _, _, hm, hplace, rfl⟩
  · exact fun hc => Or.inl hc
  · exact fun hc => Or.inl hc
  · exact fun hc => Or.inl hc
  · intro hc
    have hcalls : sp.calls = s.calls := by
      rcases hplace with ⟨_, rfl⟩ | ⟨_, _, rfl⟩ | ⟨r2, _, _, _, rfl⟩ <;> rfl
    have hc2 : p ∈ (convPass env sp (targetOf row)).calls := hc
    rcases convPass_calls_mem env sp (targetOf row) p hc2 with h1 | h1
    · rw [hcalls] at h1
      exact Or.inl h1
    · exact Or.inr ⟨folderNameOf row, h1⟩

theorem foldl_calls_origin (env : Env) (rows : List Row) (p : Path) :
    ∀ (names : List String) (s o : OrgSt),
      names.foldl (orgStep env rows) (.ok s) = .ok o →
      p ∈ o.calls → p ∈ s.calls
        ∨ ∃ y, strictUnder (OUTPUT_DIR ++ [y]) p = true := by
  intro names
  induction names with
  | nil =>
    intro s o h0 hc
    cases h0
    exact Or.inl hc
  | cons n t ih =>
    intro s o h0 hc
    rw [List.foldl_cons] at h0
    cases hs : orgStep env rows (.ok s) n with
    | error e =>
      rw [hs, foldl_orgStep_error] at h0
      exact Except.noConfusion h0
    | ok s2 =>
      rw [hs] at h0
      rcases ih s2 o h0 hc with h1 | h1
      · exact orgStep_calls_origin env rows s s2 n p hs h1
      · exact Or.inr h1

theorem run_calls_origin (env : Env) (rows : List Row) (fs0 : FS) (o1 : OrgSt)
    (h1 : organize_and_convert env rows fs0 = .ok o1) (p : Path)
    (hc : p ∈ o1.calls) : ∃ y t, t ≠ [] ∧ p = OUTPUT_DIR ++ [y] ++ t := by
  rw [organize_and_convert] at h1
  rcases foldl_calls_origin env rows p _ _ o1 h1 hc with h2 | ⟨y, h2⟩
  · simp at h2
  · rw [strictUnder, Bool.and_eq_true] at h2
    obtain ⟨t, ht⟩ := List.isPrefixOf_iff_prefix.mp h2.1
    refine ⟨y, t, ?_, ht.symm⟩
    intro h0
    rw [h0, List.append_nil] at ht
    have := h2.2
    rw [← ht] at this
    simp at this

/-- C8: conversion is guarded and at-most-once.  (1) The converter is
invoked on an entry only when it is a `.docx`, no file or directory with
the sibling PDF name exists at that very moment, and LibreOffice is
available — and then exactly one invocation is recorded.  (2) A document
whose sibling PDF file is present when a run starts is never handed to
the converter during that run; applied to a rerun starting from a
previous run's file system this is the cross-run at-most-once property,
even though the conversion scan revisits every target folder. -/
theorem C8_conversion_at_most_once (env : Env) (rows : List Row) (fs0 : FS)
    (o1 : OrgSt) (h1 : organize_and_convert env rows fs0 = .ok o1) :
    (∀ (s : OrgSt) (q : Path), (convStep env s q).calls ≠ s.calls →
        isDocxName (q.getLastD "") = true
        ∧ s.fs.ex (pdfSibling q) = false
        ∧ env.libreoffice = true
        ∧ (convStep env s q).calls = s.calls ++ [q])
    ∧ (∀ p, isDocxName (p.getLastD "") = true →
        fs0.isFile (pdfSibling p) = true → p ∉ o1.calls) := by
  constructor
  · intro s q hne
    rcases convStep_calls env s q with he | hgu
    · exact absurd he hne
    · exact hgu
  · intro p hdx hpdf hcall
    obtain ⟨y, t, ht, hpeq⟩ := run_calls_origin env rows fs0 o1 h1 p hcall
    rw [organize_and_convert] at h1
    have hres := foldl_orgStep_psi env rows p y t ht hpeq hdx _
      { fs := fs0.ensureDirs OUTPUT_DIR, stats := {}, calls := [] } o1 h1
      (Or.inl (by
        show (fs0.ensureDirs OUTPUT_DIR).isFile (pdfSibling p) = true
        rw [isFile_ensureDirs]
        exact hpdf)) hcall
    simp at hres

/-- C8 witness: with LibreOffice available and conversions succeeding,
a run that places `a_b.docx` next to its pre-existing `a_b.pdf` never
invokes the converter on it. -/
theorem C8_conversion_at_most_once_witness :
    (match organize_and_convert envConv rowsIn fsPdf with
     | .ok o1 => (["organized_submissions", "1_a_b", "a_b.docx"] : Path) ∉ o1.calls
     | .error _ => False) := by
  cases h : organize_and_convert envConv rowsIn fsPdf with
  | error e =>
    have hk : exceptOk (organize_and_convert envConv rowsIn fsPdf) = true := by decide
    rw [h] at hk
    exact Bool.noConfusion hk
  | ok o1 =>
    exact (C8_conversion_at_most_once envConv rowsIn fsPdf o1 h).2
      ["organized_submissions", "1_a_b", "a_b.docx"] (by decide) (by decide)

end Org
